import Mathlib

/-! # moon_avl: the AVL insertion engine and its in-order iterator

The node store of `avl_tree<T>` is embedded as a list of node records addressed by index
(an address is the position of a node in the store; `none` is `nullptr`).  Every routine of
`avl_tree.h` that the development talks about is transcribed statement by statement as a
function on that store in the `Option` monad: `none` is a run that dereferences a null or
unallocated pointer, or a loop that exhausts its iteration budget.

`balance` is an `int8_t` in the source; it is an `Int` here.  The engine only ever adds or
subtracts one from a balance that a preceding test has confined to `-1..1`, so no value outside
`-2..2` is stored.  `node_count` is a `size_t`; it is a `Nat` here, since a count of live nodes
cannot reach the size of the address space.
-/

namespace MoonAvl

/-- Pointers to nodes: an index into the node store, or `none` for `nullptr`. -/
abbrev Ptr := Option Nat

/-- The record `avl_tree_node<T>`. -/
structure avl_tree_node (T : Type) where
  value : T
  parent : Ptr
  left : Ptr
  right : Ptr
  balance : Int
deriving DecidableEq

/-- The data members of `avl_tree<T, Compare, Allocator>` together with the memory holding its
nodes.  The comparator is passed to the operations that use it. -/
structure avl_tree (T : Type) where
  store : List (avl_tree_node T)
  root : Ptr
  minimum : Ptr
  maximum : Ptr
  node_count : Nat
deriving DecidableEq

/-- The data members of `avl_tree_iterator<T>`. -/
structure avl_tree_iterator where
  root : Ptr
  current : Ptr
deriving DecidableEq

/-- The address of a child slot, as held by `node_type ** child_link` in `insert_node`. -/
inductive Link where
  | root_link : Link
  | left_link : Nat → Link
  | right_link : Nat → Link
deriving DecidableEq

variable {T : Type}

/-- Dereference: the node a pointer designates. -/
def rd (t : avl_tree T) (p : Ptr) : Option (avl_tree_node T) :=
  match p with
  | none => none
  | some i => t.store[i]?

/-- Store through a pointer: replace the node it designates by `f` of it. -/
def wr (t : avl_tree T) (p : Ptr) (f : avl_tree_node T → avl_tree_node T) :
    Option (avl_tree T) :=
  match p with
  | none => none
  | some i =>
    match t.store[i]? with
    | none => none
    | some n => some { t with store := t.store.set i (f n) }

/-- The expression `p->parent`. -/
def parent_of (t : avl_tree T) (p : Ptr) : Option Ptr := (rd t p).map (fun n => n.parent)

/-- The expression `p->left`. -/
def left_of (t : avl_tree T) (p : Ptr) : Option Ptr := (rd t p).map (fun n => n.left)

/-- The expression `p->right`. -/
def right_of (t : avl_tree T) (p : Ptr) : Option Ptr := (rd t p).map (fun n => n.right)

/-- The expression `p->balance`. -/
def balance_of (t : avl_tree T) (p : Ptr) : Option Int := (rd t p).map (fun n => n.balance)

/-- The expression `p->value`. -/
def value_of (t : avl_tree T) (p : Ptr) : Option T := (rd t p).map (fun n => n.value)

/-- The assignment `p->parent = q`. -/
def set_parent (t : avl_tree T) (p q : Ptr) : Option (avl_tree T) :=
  wr t p (fun n => { n with parent := q })

/-- The assignment `p->left = q`. -/
def set_left (t : avl_tree T) (p q : Ptr) : Option (avl_tree T) :=
  wr t p (fun n => { n with left := q })

/-- The assignment `p->right = q`. -/
def set_right (t : avl_tree T) (p q : Ptr) : Option (avl_tree T) :=
  wr t p (fun n => { n with right := q })

/-- The assignment `p->balance = b`. -/
def set_balance (t : avl_tree T) (p : Ptr) (b : Int) : Option (avl_tree T) :=
  wr t p (fun n => { n with balance := b })

/-- The constructor `avl_tree()`: no node, all three pointers null, count zero. -/
def empty_tree : avl_tree T :=
  { store := [], root := none, minimum := none, maximum := none, node_count := 0 }

/-- The statement `(subtree_parent == nullptr ? root : (subtree_parent->left == node ?
subtree_parent->left : subtree_parent->right)) = pivot` shared by both rotations. -/
def relink_parent (t : avl_tree T) (subtree_parent node pivot : Ptr) : Option (avl_tree T) :=
  if subtree_parent = none then some { t with root := pivot }
  else do
    let spl ← left_of t subtree_parent
    if spl = node then set_left t subtree_parent pivot
    else set_right t subtree_parent pivot

/-- The routine `avl_tree::rotate_right`. -/
def rotate_right (t : avl_tree T) (node : Ptr) : Option (avl_tree T) := do
  let subtree_parent ← parent_of t node
  let pivot ← left_of t node
  let new_right := node
  let t ← relink_parent t subtree_parent node pivot
  let t ← set_parent t pivot subtree_parent
  let pr ← right_of t pivot
  let t ← set_left t new_right pr
  let nl ← left_of t new_right
  let t ← if nl ≠ none then set_parent t nl new_right else some t
  let t ← set_right t pivot new_right
  set_parent t new_right pivot

/-- The routine `avl_tree::rotate_left`. -/
def rotate_left (t : avl_tree T) (node : Ptr) : Option (avl_tree T) := do
  let subtree_parent ← parent_of t node
  let pivot ← right_of t node
  let new_left := node
  let t ← relink_parent t subtree_parent node pivot
  let t ← set_parent t pivot subtree_parent
  let pl ← left_of t pivot
  let t ← set_right t new_left pl
  let nr ← right_of t new_left
  let t ← if nr ≠ none then set_parent t nr new_left else some t
  let t ← set_left t pivot new_left
  set_parent t new_left pivot

/-- The statements `_current->balance = 0; _current->right->balance = 0;` of the branch
`_current->right->balance == 1`. -/
def zero_right_pair (t : avl_tree T) (cur : Ptr) : Option (avl_tree T) := do
  let t ← set_balance t cur 0
  let r ← right_of t cur
  set_balance t r 0

/-- The expression `_current->right->left`. -/
def right_left_of (t : avl_tree T) (cur : Ptr) : Option Ptr := do
  let r ← right_of t cur
  left_of t r

/-- The expression `_current->left->right`. -/
def left_right_of (t : avl_tree T) (cur : Ptr) : Option Ptr := do
  let l ← left_of t cur
  right_of t l

/-- The `else` branch under `_current->balance > 1`: the three balance assignments that read
`_current->right->left->balance`, then `rotate_right(_current->right)`. -/
def double_right_left (t : avl_tree T) (cur : Ptr) : Option (avl_tree T) := do
  let rl ← right_left_of t cur
  let b ← balance_of t rl
  let t ← set_balance t cur (min 0 (-b))
  let r ← right_of t cur
  let rl ← right_left_of t cur
  let b ← balance_of t rl
  let t ← set_balance t r (max 0 (-b))
  let rl ← right_left_of t cur
  let t ← set_balance t rl 0
  let r ← right_of t cur
  rotate_right t r

/-- The branch `_current->balance > 1` of `rebalance_from`, up to its `break`. -/
def fix_right_heavy (t : avl_tree T) (cur : Ptr) : Option (avl_tree T) := do
  let r ← right_of t cur
  let rb ← balance_of t r
  let t ← if rb = 1 then zero_right_pair t cur else double_right_left t cur
  rotate_left t cur

/-- The statements `_current->balance = 0; _current->left->balance = 0;` of the branch
`_current->left->balance == -1`. -/
def zero_left_pair (t : avl_tree T) (cur : Ptr) : Option (avl_tree T) := do
  let t ← set_balance t cur 0
  let l ← left_of t cur
  set_balance t l 0

/-- The `else` branch under `_current->balance < -1`: the three balance assignments that read
`_current->left->right->balance`, then `rotate_left(_current->left)`. -/
def double_left_right (t : avl_tree T) (cur : Ptr) : Option (avl_tree T) := do
  let lr ← left_right_of t cur
  let b ← balance_of t lr
  let t ← set_balance t cur (max 0 (-b))
  let l ← left_of t cur
  let lr ← left_right_of t cur
  let b ← balance_of t lr
  let t ← set_balance t l (min 0 (-b))
  let lr ← left_right_of t cur
  let t ← set_balance t lr 0
  let l ← left_of t cur
  rotate_left t l

/-- The branch `_current->balance < -1` of `rebalance_from`, up to its `break`. -/
def fix_left_heavy (t : avl_tree T) (cur : Ptr) : Option (avl_tree T) := do
  let l ← left_of t cur
  let lb ← balance_of t l
  let t ← if lb = -1 then zero_left_pair t cur else double_left_right t cur
  rotate_right t cur

/-- The `for` loop of `rebalance_from`, entered with `last` and `_current`; `fuel` bounds the
number of iterations. -/
def rebalance_loop : Nat → avl_tree T → Ptr → Ptr → Option (avl_tree T)
  | 0, _, _, _ => none
  | fuel + 1, t, last, cur =>
    if cur = none then some t
    else do
      let l ← left_of t cur
      let b ← balance_of t cur
      let t ← if l = last then set_balance t cur (b - 1) else set_balance t cur (b + 1)
      let b ← balance_of t cur
      if b = 0 then some t
      else if b > 1 then fix_right_heavy t cur
      else if b < -1 then fix_left_heavy t cur
      else do
        let p ← parent_of t cur
        rebalance_loop fuel t cur p

/-- The routine `avl_tree::rebalance_from`. -/
def rebalance_from (t : avl_tree T) (n : Ptr) : Option (avl_tree T) := do
  let p ← parent_of t n
  rebalance_loop (t.store.length + 1) t n p

/-- The `while (current != nullptr)` loop of `insert_node`.  The result is either the node
holding an equivalent value (the early `return current`) or the final `parent` and
`child_link`. -/
def descend (compare : T → T → Bool) (t : avl_tree T) (v : T) :
    Nat → Ptr → Ptr → Link → Option (Ptr ⊕ (Ptr × Link))
  | 0, _, _, _ => none
  | fuel + 1, current, parent, child_link =>
    match current with
    | none => some (Sum.inr (parent, child_link))
    | some c => do
      let cv ← value_of t (some c)
      if compare v cv then do
        let l ← left_of t (some c)
        descend compare t v fuel l (some c) (Link.left_link c)
      else if compare cv v then do
        let r ← right_of t (some c)
        descend compare t v fuel r (some c) (Link.right_link c)
      else some (Sum.inl (some c))

/-- The assignment `*child_link = n`. -/
def set_link (t : avl_tree T) (child_link : Link) (n : Ptr) : Option (avl_tree T) :=
  match child_link with
  | Link.root_link => some { t with root := n }
  | Link.left_link i => set_left t (some i) n
  | Link.right_link i => set_right t (some i) n

/-- The address `&(p->left)`; taking it through a null pointer is an invalid run. -/
def left_link_of (p : Ptr) : Option Link := p.map Link.left_link

/-- The address `&(p->right)`; taking it through a null pointer is an invalid run. -/
def right_link_of (p : Ptr) : Option Link := p.map Link.right_link

/-- The routine `avl_tree::insert_node`: the tree afterwards and the returned pointer. -/
def insert_node (compare : T → T → Bool) (t : avl_tree T) (n : Ptr) :
    Option (avl_tree T × Ptr) := do
  let v ← value_of t n
  match ← descend compare t v (t.store.length + 1) t.root none Link.root_link with
  | Sum.inl current => some (t, current)
  | Sum.inr (parent, child_link) => do
    let t ← set_link t child_link n
    let t ← set_parent t n parent
    let t := if parent = none then { t with minimum := n, maximum := n } else t
    let t ← rebalance_from t n
    let min_left ← left_link_of t.minimum
    let t ←
      if child_link = min_left then do
        let l ← left_of t t.minimum
        some { t with minimum := l }
      else do
        let max_right ← right_link_of t.maximum
        if child_link = max_right then do
          let r ← right_of t t.maximum
          some { t with maximum := r }
        else some t
    some ({ t with node_count := t.node_count + 1 }, n)

/-- The expression `new node_type(v)`: a fresh node at the next free address. -/
def new_node (t : avl_tree T) (v : T) : avl_tree T × Ptr :=
  ({ t with store := t.store ++
      [{ value := v, parent := none, left := none, right := none, balance := 0 }] },
   some t.store.length)

/-- The statement `delete n` of `emplace`, for the node allocated last: the node destructor
asserts that both child links are null, then the node is released. -/
def delete_node (t : avl_tree T) (n : Ptr) : Option (avl_tree T) := do
  let nd ← rd t n
  if n = some (t.store.length - 1) ∧ nd.left = none ∧ nd.right = none then
    some { t with store := t.store.dropLast }
  else none

/-- The routine `avl_tree::emplace` (and `insert(const value_type &)`, which forwards to it):
the tree afterwards, the returned position and the `inserted` flag. -/
def emplace (compare : T → T → Bool) (t : avl_tree T) (v : T) :
    Option (avl_tree T × avl_tree_iterator × Bool) := do
  let (t, n) := new_node t v
  let (t, ret) ← insert_node compare t n
  if ret = n then some (t, { root := t.root, current := n }, true)
  else do
    let t ← delete_node t n
    some (t, { root := t.root, current := ret }, false)

/-- The overload `insert(const value_type & val)`. -/
def insert (compare : T → T → Bool) (t : avl_tree T) (v : T) :
    Option (avl_tree T × avl_tree_iterator × Bool) :=
  emplace compare t v

/-- The harness loop `for (auto i : input) set.insert(i)`. -/
def insert_all (compare : T → T → Bool) : avl_tree T → List T → Option (avl_tree T)
  | t, [] => some t
  | t, v :: vs => do
    let (t, _, _) ← insert compare t v
    insert_all compare t vs

/-- The member `begin()`. -/
def begin_ (t : avl_tree T) : avl_tree_iterator := { root := t.root, current := t.minimum }

/-- The member `end()`. -/
def end_ (t : avl_tree T) : avl_tree_iterator := { root := t.root, current := none }

/-- The member `size()`. -/
def size (t : avl_tree T) : Nat := t.node_count

/-- The member `empty()`. -/
def empty (t : avl_tree T) : Bool := t.root = none

/-- The loop `while (current->left != nullptr) current = current->left`. -/
def leftmost_loop (t : avl_tree T) : Nat → Ptr → Option Ptr
  | 0, _ => none
  | fuel + 1, current => do
    let l ← left_of t current
    if l ≠ none then leftmost_loop t fuel l else some current

/-- The loop `while (current->right != nullptr) current = current->right`. -/
def rightmost_loop (t : avl_tree T) : Nat → Ptr → Option Ptr
  | 0, _ => none
  | fuel + 1, current => do
    let r ← right_of t current
    if r ≠ none then rightmost_loop t fuel r else some current

/-- The loop `while (parent_node != nullptr && current == parent_node->right)` of
`operator++`, followed by `current = parent_node`. -/
def climb_right_loop (t : avl_tree T) : Nat → Ptr → Ptr → Option Ptr
  | 0, _, _ => none
  | fuel + 1, current, parent_node =>
    if parent_node = none then some parent_node
    else do
      let r ← right_of t parent_node
      if current = r then do
        let pp ← parent_of t parent_node
        climb_right_loop t fuel parent_node pp
      else some parent_node

/-- The iterator's `operator++` (prefix), reading the nodes of `t`. -/
def iter_next (t : avl_tree T) (it : avl_tree_iterator) : Option avl_tree_iterator := do
  let r ← right_of t it.current
  if r ≠ none then do
    let c ← leftmost_loop t (t.store.length + 1) r
    some { it with current := c }
  else do
    let parent_node ← parent_of t it.current
    let c ← climb_right_loop t (t.store.length + 1) it.current parent_node
    some { it with current := c }

/-- The loop `while (current == tmp->left)` of `operator--`, followed by `current = tmp`. -/
def climb_left_loop (t : avl_tree T) : Nat → Ptr → Ptr → Option Ptr
  | 0, _, _ => none
  | fuel + 1, current, tmp => do
    let l ← left_of t tmp
    if current = l then do
      let p ← parent_of t tmp
      climb_left_loop t fuel tmp p
    else some tmp

/-- The iterator's `operator--` (prefix), reading the nodes of `t`. -/
def iter_prev (t : avl_tree T) (it : avl_tree_iterator) : Option avl_tree_iterator :=
  if it.current = none then do
    let c ← rightmost_loop t (t.store.length + 1) it.root
    some { it with current := c }
  else do
    let l ← left_of t it.current
    if l ≠ none then do
      let tmp ← rightmost_loop t (t.store.length + 1) l
      some { it with current := tmp }
    else do
      let tmp ← parent_of t it.current
      let c ← climb_left_loop t (t.store.length + 1) it.current tmp
      some { it with current := c }

/-- The iterator's `operator*`. -/
def iter_deref (t : avl_tree T) (it : avl_tree_iterator) : Option T := value_of t it.current

/-- The iterator's `height()`: one plus the number of proper ancestors. -/
def height_loop (t : avl_tree T) : Nat → Ptr → Nat → Option Nat
  | 0, _, _ => none
  | fuel + 1, ptr, count => do
    let p ← parent_of t ptr
    if p ≠ none then height_loop t fuel p (count + 1) else some count

/-- The iterator's `height()`. -/
def iter_height (t : avl_tree T) (it : avl_tree_iterator) : Option Nat :=
  height_loop t (t.store.length + 1) it.current 1

/-- The iterator's `balance()`. -/
def iter_balance (t : avl_tree T) (it : avl_tree_iterator) : Option Int :=
  balance_of t it.current

/-- Ascending traversal `for (it = from; it != end(); ++it)`, collecting `f` of each position
visited. -/
def walk {A : Type} (t : avl_tree T) (f : avl_tree_iterator → Option A) :
    Nat → avl_tree_iterator → Option (List A)
  | 0, _ => none
  | fuel + 1, it =>
    if it = end_ t then some []
    else do
      let a ← f it
      let it ← iter_next t it
      let rest ← walk t f fuel it
      some (a :: rest)

/-- The values read by `for (it = begin(); it != end(); ++it) *it`. -/
def to_list (t : avl_tree T) : Option (List T) :=
  walk t (iter_deref t) (t.store.length + 1) (begin_ t)

/-- The positions visited by `for (it = begin(); it != end(); ++it)`. -/
def positions (t : avl_tree T) : Option (List avl_tree_iterator) :=
  walk t some (t.store.length + 1) (begin_ t)

/-- The harness step `std::unique(first, last)` with `erase`: of every run of consecutive equal
elements one is kept. -/
def unique [DecidableEq T] : List T → List T
  | [] => []
  | a :: rest =>
    match rest with
    | [] => [a]
    | b :: _ => if a = b then unique rest else a :: unique rest

/-- The harness reference `std::sort(input); input.erase(std::unique(input), input.end())`. -/
def sorted_unique [LinearOrder T] (input : List T) : List T :=
  unique (List.insertionSort (fun a b => a ≤ b) input)

/-- The comparator `std::less<T>` of a totally ordered key type. -/
def less [LinearOrder T] (a b : T) : Bool := decide (a < b)

/-- Equivalence of two keys under the comparator: neither compares less than the other. -/
def equiv (compare : T → T → Bool) (a b : T) : Prop :=
  compare a b = false ∧ compare b a = false

/-- A comparator is a strict weak order: irreflexive, transitive, and with a transitive
incomparability relation. -/
structure StrictWeakOrder (compare : T → T → Bool) : Prop where
  irrefl : ∀ a, compare a a = false
  trans : ∀ a b c, compare a b = true → compare b c = true → compare a c = true
  incomp_trans : ∀ a b c, equiv compare a b → equiv compare b c → equiv compare a c

/-- The keys a set keeps of a sequence of insertions, starting from the keys `acc` it already
holds: a key is kept unless an equivalent key is held already. -/
def kept (compare : T → T → Bool) : List T → List T → List T
  | acc, [] => acc
  | acc, k :: ks =>
    if acc.any (fun x => !compare k x && !compare x k) then kept compare acc ks
    else kept compare (acc ++ [k]) ks

/-! ## Tree shapes read off the node store -/

/-- A binary tree of node records: for each node its address, value and balance field. -/
inductive Shape (T : Type) where
  | nil : Shape T
  | node : Shape T → Nat → T → Int → Shape T → Shape T
deriving DecidableEq

namespace Shape

/-- The pointer to the root node of a shape (`nullptr` for the empty shape). -/
def ptr : Shape T → Ptr
  | nil => none
  | node _ a _ _ _ => some a

/-- The addresses of the nodes, in in-order (left subtree, node, right subtree). -/
def addrs : Shape T → List Nat
  | nil => []
  | node l a _ _ r => l.addrs ++ a :: r.addrs

/-- The values of the nodes, in in-order. -/
def keys : Shape T → List T
  | nil => []
  | node l _ v _ r => l.keys ++ v :: r.keys

/-- The number of nodes on the longest path from the root down to a leaf. -/
def height : Shape T → Nat
  | nil => 0
  | node l _ _ _ r => max l.height r.height + 1

/-- The number of nodes. -/
def count : Shape T → Nat
  | nil => 0
  | node l _ _ _ r => l.count + 1 + r.count

/-- The addresses on the leftmost branch, from the root down. -/
def left_spine : Shape T → List Nat
  | nil => []
  | node l a _ _ _ => a :: l.left_spine

/-- The addresses on the rightmost branch, from the root down. -/
def right_spine : Shape T → List Nat
  | nil => []
  | node _ a _ _ r => a :: r.right_spine

/-- The shape has a node at address `a` holding the value `v`. -/
def Holds : Shape T → Nat → T → Prop
  | nil, _, _ => False
  | node l x w _ r, a, v => (x = a ∧ w = v) ∨ Holds l a v ∨ Holds r a v

/-- The balance fields, in in-order. -/
def balances : Shape T → List Int
  | nil => []
  | node l _ _ b r => l.balances ++ b :: r.balances

/-- Data-model invariant 1 (BST): at every node, every key of the left subtree compares less
than the node's key and the node's key compares less than every key of the right subtree. -/
def Ordered (compare : T → T → Bool) : Shape T → Prop
  | nil => True
  | node l _ v _ r =>
    (∀ x ∈ l.keys, compare x v = true) ∧ (∀ x ∈ r.keys, compare v x = true)
      ∧ Ordered compare l ∧ Ordered compare r

/-- Data-model invariant 2 (AVL): at every node the balance field is the height of the right
subtree minus the height of the left subtree, and lies in `-1..1`. -/
def Balanced : Shape T → Prop
  | nil => True
  | node l _ _ b r =>
    b = (r.height : Int) - (l.height : Int) ∧ -1 ≤ b ∧ b ≤ 1 ∧ Balanced l ∧ Balanced r

end Shape

/-- The store `s` lays out the shape below a node whose address is `par` (`none` above the
root): every node of the shape is the record at its address, with the `parent`, `left` and
`right` links of the shape.  This is data-model invariant 5 together with tree-shapedness. -/
def Rep (s : List (avl_tree_node T)) : Ptr → Shape T → Prop
  | _, Shape.nil => True
  | par, Shape.node l a v b r =>
    s[a]? = some { value := v, parent := par, left := l.ptr, right := r.ptr, balance := b }
      ∧ Rep s (some a) l ∧ Rep s (some a) r

/-- The shape found by following `left` and `right` links from `p`, at most `fuel` levels
down. -/
def shape_from (s : List (avl_tree_node T)) : Nat → Ptr → Shape T
  | 0, _ => Shape.nil
  | _ + 1, none => Shape.nil
  | fuel + 1, some a =>
    match s[a]? with
    | none => Shape.nil
    | some n => Shape.node (shape_from s fuel n.left) a n.value n.balance (shape_from s fuel n.right)

/-- The shape of the whole tree: what is reachable from `root` through child links. -/
def shape_of (t : avl_tree T) : Shape T := shape_from t.store t.store.length t.root

/-- Data-model invariants 2 to 5 of the specification, for a tree whose nodes form the shape
`S`: the store lays out `S` from `root` with correct parent links and without sharing, `S` is
AVL-balanced with exact balance fields, `node_count` is the number of nodes, and `minimum` /
`maximum` are the first / last nodes in order (the leftmost / rightmost ones). -/
structure Structural (t : avl_tree T) (S : Shape T) : Prop where
  rep : Rep t.store none S
  root : t.root = S.ptr
  nodup : S.addrs.Nodup
  balanced : S.Balanced
  count : t.node_count = S.count
  minimum : t.minimum = S.addrs.head?
  maximum : t.maximum = S.addrs.getLast?

/-- The five data-model invariants of the specification: the structural ones and the search
tree order under the comparator. -/
structure Invariant (compare : T → T → Bool) (t : avl_tree T) (S : Shape T)
    extends Structural t S : Prop where
  ordered : S.Ordered compare

/-- A tree satisfies the data-model invariants. -/
def WellFormed (compare : T → T → Bool) (t : avl_tree T) : Prop :=
  ∃ S, Invariant compare t S

/-! ## Paths: a shape with a hole, as met by the descent and by the walk back up -/

/-- One step of a path from a node down to one of its child slots: the node's record and its
other subtree. -/
inductive Frame (T : Type) where
  | left : Nat → T → Int → Shape T → Frame T
  | right : Shape T → Nat → T → Int → Frame T
deriving DecidableEq

namespace Frame

/-- The address of the node of a frame. -/
def addr : Frame T → Nat
  | left a _ _ _ => a
  | right _ a _ _ => a

/-- The shape obtained by putting `s` into the child slot of a frame. -/
def fill : Frame T → Shape T → Shape T
  | left a v b r, s => Shape.node s a v b r
  | right l a v b, s => Shape.node l a v b s

/-- The child slot of a frame, as an address of a link. -/
def link : Frame T → Link
  | left a _ _ _ => Link.left_link a
  | right _ a _ _ => Link.right_link a

/-- The in-order addresses of a frame that precede its child slot. -/
def before : Frame T → List Nat
  | left _ _ _ _ => []
  | right l a _ _ => l.addrs ++ [a]

/-- The in-order addresses of a frame that follow its child slot. -/
def after : Frame T → List Nat
  | left a _ _ r => a :: r.addrs
  | right _ _ _ _ => []

/-- The in-order keys of a frame that precede its child slot. -/
def keys_before : Frame T → List T
  | left _ _ _ _ => []
  | right l _ v _ => l.keys ++ [v]

/-- The in-order keys of a frame that follow its child slot. -/
def keys_after : Frame T → List T
  | left _ v _ r => v :: r.keys
  | right _ _ _ _ => []

/-- The subtree of a frame's node that does not contain the child slot. -/
def sibling : Frame T → Shape T
  | left _ _ _ r => r
  | right l _ _ _ => l

/-- A frame whose child slot is the left one. -/
def is_left : Frame T → Bool
  | left _ _ _ _ => true
  | right _ _ _ _ => false

end Frame

/-- The whole shape: the path `c` (innermost frame first) with `s` in its hole. -/
def plug : List (Frame T) → Shape T → Shape T
  | [], s => s
  | f :: c, s => plug c (f.fill s)

/-- The address of the node owning the hole of a path (`nullptr` at the root). -/
def path_parent : List (Frame T) → Ptr
  | [] => none
  | f :: _ => some f.addr

/-- The hole of a path, as an address of a link. -/
def path_link : List (Frame T) → Link
  | [] => Link.root_link
  | f :: _ => f.link

/-- The in-order addresses of a path that precede its hole. -/
def path_before : List (Frame T) → List Nat
  | [] => []
  | f :: c => path_before c ++ f.before

/-- The in-order addresses of a path that follow its hole. -/
def path_after : List (Frame T) → List Nat
  | [] => []
  | f :: c => f.after ++ path_after c

/-- The in-order keys of a path that precede its hole. -/
def path_keys_before : List (Frame T) → List T
  | [] => []
  | f :: c => path_keys_before c ++ f.keys_before

/-- The in-order keys of a path that follow its hole. -/
def path_keys_after : List (Frame T) → List T
  | [] => []
  | f :: c => f.keys_after ++ path_keys_after c

/-- The store lays out the frames of a path whose hole holds the pointer `child`. -/
def RepPath (s : List (avl_tree_node T)) : List (Frame T) → Ptr → Prop
  | [], _ => True
  | Frame.left a v b r :: c, child =>
    s[a]? = some { value := v, parent := path_parent c, left := child, right := r.ptr,
                   balance := b }
      ∧ Rep s (some a) r ∧ RepPath s c (some a)
  | Frame.right l a v b :: c, child =>
    s[a]? = some { value := v, parent := path_parent c, left := l.ptr, right := child,
                   balance := b }
      ∧ Rep s (some a) l ∧ RepPath s c (some a)

/-- The root pointer of a tree made of a path whose hole holds the pointer `p`. -/
def path_root : List (Frame T) → Ptr → Ptr
  | [], p => p
  | f :: c, _ => path_root c (some f.addr)

/-- The tree `t` lays out the path `c` with the shape `sub` in its hole, from `root`, every
node at an address of its own. -/
structure Lays (t : avl_tree T) (c : List (Frame T)) (sub : Shape T) : Prop where
  path_ok : RepPath t.store c sub.ptr
  sub_ok : Rep t.store (path_parent c) sub
  root_ok : t.root = path_root c sub.ptr
  distinct : (path_before c ++ sub.addrs ++ path_after c).Nodup

/-- Two trees have the same `minimum`, `maximum`, `node_count` and number of allocated
nodes. -/
def Same (t t' : avl_tree T) : Prop :=
  t'.minimum = t.minimum ∧ t'.maximum = t.maximum ∧ t'.node_count = t.node_count
    ∧ t'.store.length = t.store.length

/-- The AVL invariant of the nodes of a path and of their other subtrees, for a hole holding
a subtree of height `h`. -/
def PathBalanced : List (Frame T) → Nat → Prop
  | [], _ => True
  | Frame.left _ _ b r :: c, h =>
    b = (r.height : Int) - (h : Int) ∧ -1 ≤ b ∧ b ≤ 1 ∧ r.Balanced
      ∧ PathBalanced c (max h r.height + 1)
  | Frame.right l _ _ b :: c, h =>
    b = (h : Int) - (l.height : Int) ∧ -1 ≤ b ∧ b ≤ 1 ∧ l.Balanced
      ∧ PathBalanced c (max l.height h + 1)

/-- A subtree as the rebalancing walk meets it: a single leaf, or a node whose balance is not
zero. -/
def Grown : Shape T → Prop
  | Shape.nil => False
  | Shape.node l _ _ b r => b ≠ 0 ∨ (l = Shape.nil ∧ r = Shape.nil)

/-- The descent of `insert_node` on shapes: from the subtree `s` below the path `c`, either
the address of a node with an equivalent value or the path to the null slot reached. -/
def locate (compare : T → T → Bool) (v : T) : Shape T → List (Frame T) → Nat ⊕ List (Frame T)
  | Shape.nil, c => Sum.inr c
  | Shape.node l a w b r, c =>
    if compare v w then locate compare v l (Frame.left a w b r :: c)
    else if compare w v then locate compare v r (Frame.right l a w b :: c)
    else Sum.inl a

/-- The shape left by the branch `_current->balance < -1`: `a` is `_current`, `sub` its left
subtree. -/
def fix_left_shape (sub : Shape T) (a : Nat) (v : T) (r : Shape T) : Option (Shape T) :=
  match sub with
  | Shape.nil => none
  | Shape.node sl sa sv sb sr =>
    if sb = -1 then some (Shape.node sl sa sv 0 (Shape.node sr a v 0 r))
    else
      match sr with
      | Shape.nil => none
      | Shape.node pl pa pv pb pr =>
        some (Shape.node (Shape.node sl sa sv (min 0 (-pb)) pl) pa pv 0
                (Shape.node pr a v (max 0 (-pb)) r))

/-- The shape left by the branch `_current->balance > 1`: `a` is `_current`, `sub` its right
subtree. -/
def fix_right_shape (l : Shape T) (a : Nat) (v : T) (sub : Shape T) : Option (Shape T) :=
  match sub with
  | Shape.nil => none
  | Shape.node sl sa sv sb sr =>
    if sb = 1 then some (Shape.node (Shape.node l a v 0 sl) sa sv 0 sr)
    else
      match sl with
      | Shape.nil => none
      | Shape.node pl pa pv pb pr =>
        some (Shape.node (Shape.node l a v (min 0 (-pb)) pl) pa pv 0
                (Shape.node pr sa sv (max 0 (-pb)) sr))

/-- The walk of `rebalance_from` on shapes: `sub` is the subtree rooted at `last`, the path is
what lies above it.  The result is the whole shape when the walk ends. -/
def rebalance_walk : List (Frame T) → Shape T → Option (Shape T)
  | [], sub => some sub
  | Frame.left a v b r :: c, sub =>
    if b - 1 = 0 then some (plug c (Shape.node sub a v 0 r))
    else if b - 1 > 1 then none
    else if b - 1 < -1 then (fix_left_shape sub a v r).map (plug c)
    else rebalance_walk c (Shape.node sub a v (b - 1) r)
  | Frame.right l a v b :: c, sub =>
    if b + 1 = 0 then some (plug c (Shape.node l a v 0 sub))
    else if b + 1 > 1 then (fix_right_shape l a v sub).map (plug c)
    else if b + 1 < -1 then none
    else rebalance_walk c (Shape.node l a v (b + 1) sub)

/-- The shape and the next free address after `insert` of `v`, on a shape whose next free
address is `n`: unchanged when the descent finds an equivalent value, else the new leaf at
address `n` in the slot the descent reaches, then the rebalancing walk. -/
def insert_shape (compare : T → T → Bool) (S : Shape T) (n : Nat) (v : T) :
    Option (Shape T × Nat) :=
  match locate compare v S [] with
  | Sum.inl _ => some (S, n)
  | Sum.inr c =>
    (rebalance_walk c (Shape.node Shape.nil n v 0 Shape.nil)).map (fun R => (R, n + 1))

/-- The shape after the harness loop `for (auto i : input) set.insert(i)`. -/
def insert_all_shape (compare : T → T → Bool) : Shape T → Nat → List T → Option (Shape T)
  | S, _, [] => some S
  | S, n, v :: vs =>
    (insert_shape compare S n v).bind (fun p => insert_all_shape compare p.1 p.2 vs)

/-- The `height()` of every node of a shape whose root has `d - 1` proper ancestors, in
in-order. -/
def depths : Nat → Shape T → List Nat
  | _, Shape.nil => []
  | d, Shape.node l _ _ _ r => depths (d + 1) l ++ d :: depths (d + 1) r

/-- The tree height as the largest `height()` of the positions of an ascending traversal
(zero for the empty container). -/
def tree_height (t : avl_tree T) : Option Nat :=
  (walk t (iter_height t) (t.store.length + 1) (begin_ t)).map (fun hs => hs.foldr max 0)

/-! ## Concrete inputs -/

/-- A container of three keys: the state reached from the empty tree by `insert(2)`,
`insert(1)`, `insert(3)`. -/
def sample_tree : avl_tree Nat where
  store := [avl_tree_node.mk 2 none (some 1) (some 2) 0, avl_tree_node.mk 1 (some 0) none none 0,
    avl_tree_node.mk 3 (some 0) none none 0]
  root := some 0
  minimum := some 1
  maximum := some 2
  node_count := 3

/-- A comparator that is a strict weak order without being a total order: natural numbers
compared by their halves, so that `2 * k` and `2 * k + 1` are equivalent. -/
def less_half (a b : Nat) : Bool := decide (a / 2 < b / 2)

/-- The keys of the Fibonacci tree of height 13 (the AVL tree of that height with the fewest
nodes, 609 of them, keyed `1 .. 609` in order), listed level by level from the root. -/
def fib_keys : List Nat :=
  [
    377, 233, 521, 144, 322, 466, 576, 89, 199, 288, 356, 432, 500, 555, 597, 55, 123, 178, 220,
    267, 309, 343, 369, 411, 453, 487, 513, 542, 568, 589, 605, 34, 76, 110, 136, 165, 191, 212,
    228, 254, 280, 301, 317, 335, 351, 364, 374, 398, 424, 445, 461, 479, 495, 508, 518, 534, 550,
    563, 573, 584, 594, 602, 608, 21, 47, 68, 84, 102, 118, 131, 141, 157, 173, 186, 196, 207, 217,
    225, 231, 246, 262, 275, 285, 296, 306, 314, 320, 330, 340, 348, 354, 361, 367, 372, 376, 390,
    406, 419, 429, 440, 450, 458, 464, 474, 484, 492, 498, 505, 511, 516, 520, 529, 539, 547, 553,
    560, 566, 571, 575, 581, 587, 592, 596, 600, 604, 607, 609, 13, 29, 42, 52, 63, 73, 81, 87, 97,
    107, 115, 121, 128, 134, 139, 143, 152, 162, 170, 176, 183, 189, 194, 198, 204, 210, 215, 219,
    223, 227, 230, 232, 241, 251, 259, 265, 272, 278, 283, 287, 293, 299, 304, 308, 312, 316, 319,
    321, 327, 333, 338, 342, 346, 350, 353, 355, 359, 363, 366, 368, 371, 373, 375, 385, 395, 403,
    409, 416, 422, 427, 431, 437, 443, 448, 452, 456, 460, 463, 465, 471, 477, 482, 486, 490, 494,
    497, 499, 503, 507, 510, 512, 515, 517, 519, 526, 532, 537, 541, 545, 549, 552, 554, 558, 562,
    565, 567, 570, 572, 574, 579, 583, 586, 588, 591, 593, 595, 599, 601, 603, 606, 8, 18, 26, 32,
    39, 45, 50, 54, 60, 66, 71, 75, 79, 83, 86, 88, 94, 100, 105, 109, 113, 117, 120, 122, 126,
    130, 133, 135, 138, 140, 142, 149, 155, 160, 164, 168, 172, 175, 177, 181, 185, 188, 190, 193,
    195, 197, 202, 206, 209, 211, 214, 216, 218, 222, 224, 226, 229, 238, 244, 249, 253, 257, 261,
    264, 266, 270, 274, 277, 279, 282, 284, 286, 291, 295, 298, 300, 303, 305, 307, 311, 313, 315,
    318, 325, 329, 332, 334, 337, 339, 341, 345, 347, 349, 352, 358, 360, 362, 365, 370, 382, 388,
    393, 397, 401, 405, 408, 410, 414, 418, 421, 423, 426, 428, 430, 435, 439, 442, 444, 447, 449,
    451, 455, 457, 459, 462, 469, 473, 476, 478, 481, 483, 485, 489, 491, 493, 496, 502, 504, 506,
    509, 514, 524, 528, 531, 533, 536, 538, 540, 544, 546, 548, 551, 557, 559, 561, 564, 569, 578,
    580, 582, 585, 590, 598, 5, 11, 16, 20, 24, 28, 31, 33, 37, 41, 44, 46, 49, 51, 53, 58, 62, 65,
    67, 70, 72, 74, 78, 80, 82, 85, 92, 96, 99, 101, 104, 106, 108, 112, 114, 116, 119, 125, 127,
    129, 132, 137, 147, 151, 154, 156, 159, 161, 163, 167, 169, 171, 174, 180, 182, 184, 187, 192,
    201, 203, 205, 208, 213, 221, 236, 240, 243, 245, 248, 250, 252, 256, 258, 260, 263, 269, 271,
    273, 276, 281, 290, 292, 294, 297, 302, 310, 324, 326, 328, 331, 336, 344, 357, 380, 384, 387,
    389, 392, 394, 396, 400, 402, 404, 407, 413, 415, 417, 420, 425, 434, 436, 438, 441, 446, 454,
    468, 470, 472, 475, 480, 488, 501, 523, 525, 527, 530, 535, 543, 556, 577, 3, 7, 10, 12, 15,
    17, 19, 23, 25, 27, 30, 36, 38, 40, 43, 48, 57, 59, 61, 64, 69, 77, 91, 93, 95, 98, 103, 111,
    124, 146, 148, 150, 153, 158, 166, 179, 200, 235, 237, 239, 242, 247, 255, 268, 289, 323, 379,
    381, 383, 386, 391, 399, 412, 433, 467, 522, 2, 4, 6, 9, 14, 22, 35, 56, 90, 145, 234, 378, 1
  ]

/-- The shape of `sample_tree`: key 2 at address 0, with the leaves 1 at address 1 and 3 at
address 2. -/
def sample_shape : Shape Nat :=
  Shape.node (Shape.node Shape.nil 1 1 0 Shape.nil) 0 2 0 (Shape.node Shape.nil 2 3 0 Shape.nil)

/-- The state in which `insert_node` calls `rebalance_from` when 3 is inserted after 1 and 2:
the new leaf at address 2 is attached to the right of the node holding 2, which is the right
child of the root holding 1; `maximum` and `node_count` are not updated yet. -/
def attached_tree : avl_tree Nat where
  store := [avl_tree_node.mk 1 none none (some 1) 1, avl_tree_node.mk 2 (some 0) none (some 2) 0,
    avl_tree_node.mk 3 (some 1) none none 0]
  root := some 0
  minimum := some 0
  maximum := some 1
  node_count := 2

/-- The path from the new leaf of `attached_tree` up to the root, innermost frame first. -/
def attached_path : List (Frame Nat) :=
  [Frame.right Shape.nil 1 2 0, Frame.right Shape.nil 0 1 1]

/-! ## Lookup -/

/-- Modelled from the spec: the search loop of `avl_tree::find`, a member that `avl_tree.h`
declares and nowhere defines.  The spec gives `find(key) -> Position` (end-sentinel if absent)
as a lookup that uses the same comparator as `insert`; this is the descent of `insert_node`
without the bookkeeping of the attachment slot: from `root`, go left when
`compare(x, current->value)`, right when `compare(current->value, x)`, and stop at the first
node where neither holds, or at a null link. -/
def find_loop (compare : T → T → Bool) (t : avl_tree T) (x : T) : Nat → Ptr → Option Ptr
  | 0, _ => none
  | fuel + 1, current =>
    match current with
    | none => some none
    | some c => do
      let cv ← value_of t (some c)
      if compare x cv then do
        let l ← left_of t (some c)
        find_loop compare t x fuel l
      else if compare cv x then do
        let r ← right_of t (some c)
        find_loop compare t x fuel r
      else some (some c)

/-- Modelled from the spec: the member `find`, declared in `avl_tree.h` and nowhere defined:
`find(key) -> Position` (end-sentinel if absent).  The position found by the search loop, the
end sentinel being the position with a null `current`. -/
def find (compare : T → T → Bool) (t : avl_tree T) (x : T) : Option avl_tree_iterator :=
  (find_loop compare t x (t.store.length + 1) t.root).map
    (fun c => { root := t.root, current := c })

/-- Modelled from the spec: the member `count`, declared in `avl_tree.h` and nowhere defined:
`count(key) -> 0|1` (0 or 1, since keys are unique), one when `find` does not return the end
sentinel. -/
def count (compare : T → T → Bool) (t : avl_tree T) (x : T) : Option Nat :=
  (find compare t x).map (fun it => if it = end_ t then 0 else 1)

/-! ## Construction forms -/

/-- The routine `avl_tree::emplace_hint`: the hint is ignored, a node is allocated and handed
to `insert_node`, and released again when an equivalent node was found. -/
def emplace_hint (compare : T → T → Bool) (t : avl_tree T) (_ : avl_tree_iterator) (v : T) :
    Option (avl_tree T × avl_tree_iterator) := do
  let (t, n) := new_node t v
  let (t, ret) ← insert_node compare t n
  let t ← if n ≠ ret then delete_node t n else some t
  some (t, { root := t.root, current := ret })

/-- The overload `insert(const_iterator pos, const value_type & value)`. -/
def insert_hint (compare : T → T → Bool) (t : avl_tree T) (pos : avl_tree_iterator) (v : T) :
    Option (avl_tree T × avl_tree_iterator) :=
  emplace_hint compare t pos v

/-- The overload `insert(InputIterator first, InputIterator last)`:
`for (; first != last; ++first) insert(this->end(), *first)`, the range being given by the
values it yields. -/
def insert_range (compare : T → T → Bool) : avl_tree T → List T → Option (avl_tree T)
  | t, [] => some t
  | t, v :: vs => do
    let (t, _) ← insert_hint compare t (end_ t) v
    insert_range compare t vs

/-- The overload `insert(std::initializer_list<value_type> list)`:
`insert(list.begin(), list.end())`. -/
def insert_list (compare : T → T → Bool) (t : avl_tree T) (list : List T) :
    Option (avl_tree T) :=
  insert_range compare t list

/-- The constructor `avl_tree(InputIterator first, InputIterator last, const Compare & comp,
const Allocator & alloc)`: it delegates to `avl_tree(comp, alloc)` and its body is
`insert(first, last)`. -/
def avl_tree_from_range (compare : T → T → Bool) (keys : List T) : Option (avl_tree T) :=
  insert_range compare empty_tree keys

/-- The constructor `avl_tree(std::initializer_list<value_type> list, const key_compare & c,
const allocator_type & a)`.  Its member initializer is the delegation `avl_tree(list, c, a)`
and its body is empty.  The arguments of the delegation have the types of the constructor's own
parameters, and neither range constructor accepts them (their two iterator arguments would
have to be of one type), so the delegation is to this very constructor.  `fuel` bounds the
depth of the delegation. -/
def avl_tree_from_list (compare : T → T → Bool) : Nat → List T → Option (avl_tree T)
  | 0, _ => none
  | fuel + 1, list => avl_tree_from_list compare fuel list

/-! ## Teardown -/

/-- A pointer that teardown may dereference: not null, and not to a node already released. -/
def live (freed : List Nat) (p : Ptr) : Bool :=
  match p with
  | none => false
  | some a => decide (a ∉ freed)

/-- A dereference of `p` during teardown is an invalid run unless `p` is live. -/
def guard_live (freed : List Nat) (p : Ptr) : Option Unit :=
  if live freed p then some () else none

/-- The statements `p = p->left; p->parent->left = nullptr;` of `destroy_tree`. -/
def detach_left (t : avl_tree T) (freed : List Nat) (p : Ptr) : Option (avl_tree T × Ptr) := do
  let p ← left_of t p
  let _ ← guard_live freed p
  let pp ← parent_of t p
  let _ ← guard_live freed pp
  let t ← set_left t pp none
  some (t, p)

/-- The statements `p = p->right; p->parent->right = nullptr;` of `destroy_tree`. -/
def detach_right (t : avl_tree T) (freed : List Nat) (p : Ptr) : Option (avl_tree T × Ptr) := do
  let p ← right_of t p
  let _ ← guard_live freed p
  let pp ← parent_of t p
  let _ ← guard_live freed pp
  let t ← set_right t pp none
  some (t, p)

/-- The statement `delete tmp` of `destroy_tree`: the node destructor asserts
`left == nullptr && right == nullptr`, then the node is released.  The addresses released so
far are `freed`; releasing a node again is an invalid run. -/
def delete_tmp (t : avl_tree T) (freed : List Nat) (tmp : Ptr) : Option (List Nat) := do
  let _ ← guard_live freed tmp
  let nd ← rd t tmp
  match tmp with
  | none => none
  | some a => if nd.left = none ∧ nd.right = none then some (freed ++ [a]) else none

/-- The statements `node_type * tmp = p; p = p->parent; delete tmp; --node_count;` of
`destroy_tree`.  A decrement of a zero `node_count`, which would wrap around, is an invalid
run. -/
def release_leaf (t : avl_tree T) (freed : List Nat) (p : Ptr) :
    Option (avl_tree T × List Nat × Ptr) := do
  let tmp := p
  let p ← parent_of t p
  let freed ← delete_tmp t freed tmp
  if t.node_count = 0 then none
  else some ({ t with node_count := t.node_count - 1 }, freed, p)

/-- The loop `while (p != nullptr)` of `destroy_tree`; `fuel` bounds the number of
iterations.  The result is the final state and the addresses released, in order. -/
def destroy_loop : Nat → avl_tree T → List Nat → Ptr → Option (avl_tree T × List Nat)
  | 0, _, _, _ => none
  | fuel + 1, t, freed, p =>
    if p = none then some (t, freed)
    else do
      let _ ← guard_live freed p
      let l ← left_of t p
      if l ≠ none then do
        let (t, p) ← detach_left t freed p
        destroy_loop fuel t freed p
      else do
        let r ← right_of t p
        if r ≠ none then do
          let (t, p) ← detach_right t freed p
          destroy_loop fuel t freed p
        else do
          let (t, freed, p) ← release_leaf t freed p
          destroy_loop fuel t freed p

/-- The routine `avl_tree::destroy_tree`, with the addresses it releases, in order.  Each node
is visited at most twice on the way down and once on the way up; the final
`assert(node_count == 0)` is checked. -/
def destroy_tree (t : avl_tree T) : Option (avl_tree T × List Nat) := do
  let p := t.root
  let t := { t with root := none, maximum := none, minimum := none }
  let (t, freed) ← destroy_loop (2 * t.store.length + 1) t [] p
  if t.node_count = 0 then some (t, freed) else none

/-- The member `clear()`: `destroy_tree()`. -/
def clear (t : avl_tree T) : Option (avl_tree T) := (destroy_tree t).map Prod.fst

namespace Shape

/-- The addresses of a shape, children before their parent: left subtree, right subtree,
node. -/
def release_order : Shape T → List Nat
  | nil => []
  | node l a _ _ r => l.release_order ++ r.release_order ++ [a]

end Shape

/-! ## Descending traversal -/

/-- The positions reached by `n` applications of `--` starting from `it`, through `f`, and the
position reached last. -/
def walk_back {A : Type} (t : avl_tree T) (f : avl_tree_iterator → Option A) :
    Nat → avl_tree_iterator → Option (List A × avl_tree_iterator)
  | 0, it => some ([], it)
  | n + 1, it => do
    let it ← iter_prev t it
    let a ← f it
    let (rest, last) ← walk_back t f n it
    some (a :: rest, last)

/-- The member `rbegin()`: `reverse_iterator(end())`, given by the position it wraps. -/
def rbegin_ (t : avl_tree T) : avl_tree_iterator := end_ t

/-- The member `rend()`: `reverse_iterator(begin())`, given by the position it wraps. -/
def rend_ (t : avl_tree T) : avl_tree_iterator := begin_ t

/-- The loop `for (r = from; r != rend(); ++r)` over `std::reverse_iterator`, collecting `f` of
the position each `*r` reads: `r != rend()` compares the wrapped positions, `*r` reads
through `--tmp` of a copy of the wrapped position, and `++r` applies `--` to it. -/
def reverse_walk {A : Type} (t : avl_tree T) (f : avl_tree_iterator → Option A) :
    Nat → avl_tree_iterator → Option (List A)
  | 0, _ => none
  | fuel + 1, r =>
    if r = rend_ t then some []
    else do
      let tmp ← iter_prev t r
      let a ← f tmp
      let r ← iter_prev t r
      let rest ← reverse_walk t f fuel r
      some (a :: rest)

/-- The values read by `for (r = rbegin(); r != rend(); ++r) *r`. -/
def to_list_reverse (t : avl_tree T) : Option (List T) :=
  reverse_walk t (iter_deref t) (t.store.length + 1) (rbegin_ t)

/-! ## The rebalancing walk, iteration by iteration -/

/-- The `for` loop of `rebalance_from` with a record of its iterations: for each one,
`_current` and the state right after `_current->balance` was decremented or incremented.
The state returned is that of `rebalance_loop`. -/
def rebalance_trace :
    Nat → avl_tree T → Ptr → Ptr → Option (avl_tree T × List (Ptr × avl_tree T))
  | 0, _, _, _ => none
  | fuel + 1, t, last, cur =>
    if cur = none then some (t, [])
    else do
      let l ← left_of t cur
      let b ← balance_of t cur
      let t ← if l = last then set_balance t cur (b - 1) else set_balance t cur (b + 1)
      let b ← balance_of t cur
      if b = 0 then some (t, [(cur, t)])
      else if b > 1 then (fix_right_heavy t cur).map (fun t' => (t', [(cur, t)]))
      else if b < -1 then (fix_left_heavy t cur).map (fun t' => (t', [(cur, t)]))
      else do
        let p ← parent_of t cur
        let (t', log) ← rebalance_trace fuel t cur p
        some (t', (cur, t) :: log)

/-- The routine `avl_tree::rebalance_from` with the record of its iterations. -/
def rebalance_from_trace (t : avl_tree T) (n : Ptr) :
    Option (avl_tree T × List (Ptr × avl_tree T)) := do
  let p ← parent_of t n
  rebalance_trace (t.store.length + 1) t n p

/-- What the branch `_current->balance > 1` dereferences: `_current->right` is a node whose
balance is `1` or `-1`, and in the latter case `_current->right->left` is a node. -/
def RightHeavyReady (t : avl_tree T) (cur : Ptr) : Prop :=
  ∃ r rb, right_of t cur = some (some r) ∧ balance_of t (some r) = some rb
    ∧ (rb = 1 ∨ rb = -1) ∧ (rb = -1 → ∃ rl, left_of t (some r) = some (some rl))

/-- What the branch `_current->balance < -1` dereferences: `_current->left` is a node whose
balance is `-1` or `1`, and in the latter case `_current->left->right` is a node. -/
def LeftHeavyReady (t : avl_tree T) (cur : Ptr) : Prop :=
  ∃ l lb, left_of t cur = some (some l) ∧ balance_of t (some l) = some lb
    ∧ (lb = -1 ∨ lb = 1) ∧ (lb = 1 → ∃ lr, right_of t (some l) = some (some lr))

/-- Two states hold the same key and the same balance field at every address. -/
def SameData (t t' : avl_tree T) : Prop :=
  ∀ i : Nat, (t'.store[i]?).map (fun n : avl_tree_node T => (n.value, n.balance))
    = (t.store[i]?).map (fun n : avl_tree_node T => (n.value, n.balance))

/-- The height of the shape obtained by filling the hole of a path with a shape of height
`h`. -/
def path_height : List (Frame T) → Nat → Nat
  | [], h => h
  | f :: c, h => path_height c (max h f.sibling.height + 1)

/-! ## Reachable container states -/

/-- The container states reachable from construction by `insert` and `clear`: the state the
constructor `avl_tree()` leaves, and every state that a call of `insert` or `clear` on a
reachable state returns with. -/
inductive Reachable (compare : T → T → Bool) : avl_tree T → Prop where
  | construct : Reachable compare empty_tree
  | insert {t t' : avl_tree T} {v : T} {it : avl_tree_iterator} {b : Bool} :
      Reachable compare t → insert compare t v = some (t', it, b) → Reachable compare t'
  | clear {t t' : avl_tree T} : Reachable compare t → clear t = some t' → Reachable compare t'

/-- The state `clear()` leaves of `sample_tree`: the three released nodes, detached from one
another, remain in the store; no pointer of the container refers to them. -/
def cleared_tree : avl_tree Nat where
  store := [avl_tree_node.mk 2 none none none 0, avl_tree_node.mk 1 (some 0) none none 0,
    avl_tree_node.mk 3 (some 0) none none 0]
  root := none
  minimum := none
  maximum := none
  node_count := 0

/-! # Theorems -/

/-! ## Reading and writing the node store -/

theorem lt_of_cell {s : List (avl_tree_node T)} {a : Nat} {n : avl_tree_node T}
    (h : s[a]? = some n) : a < s.length := by
  rcases List.getElem?_eq_some_iff.mp h with ⟨h1, _⟩
  exact h1

theorem cell_set_self {s : List (avl_tree_node T)} {a : Nat} {n m : avl_tree_node T}
    (h : s[a]? = some n) : (s.set a m)[a]? = some m := by
  simp [List.getElem?_set_self (lt_of_cell h)]

theorem cell_set_ne {s : List (avl_tree_node T)} {a i : Nat} (m : avl_tree_node T)
    (h : i ≠ a) : (s.set i m)[a]? = s[a]? := by
  simp [List.getElem?_set_ne h]

theorem cell_set_same (s : List (avl_tree_node T)) (a : Nat) (m : avl_tree_node T) :
    (s.set a m)[a]? = (s[a]?).map (fun _ => m) := by
  by_cases h2 : a < s.length
  · simp [h2]
  · have h3 : s.length ≤ a := Nat.le_of_not_lt h2
    rw [List.getElem?_eq_none h3, List.getElem?_eq_none (by simpa using h3)]
    simp

theorem cell_set_other {s : List (avl_tree_node T)} {a j : Nat} (m : avl_tree_node T)
    (h : a ≠ j) : (s.set a m)[j]? = s[j]? := List.getElem?_set_ne h

theorem wr_def (t : avl_tree T) (a : Nat) (f : avl_tree_node T → avl_tree_node T) :
    wr t (some a) f = (t.store[a]?).map (fun n => { t with store := t.store.set a (f n) }) := by
  unfold wr
  dsimp only
  cases t.store[a]? <;> rfl

theorem parent_of_def (t : avl_tree T) (a : Nat) :
    parent_of t (some a) = (t.store[a]?).map (fun n => n.parent) := rfl

theorem left_of_def (t : avl_tree T) (a : Nat) :
    left_of t (some a) = (t.store[a]?).map (fun n => n.left) := rfl

theorem right_of_def (t : avl_tree T) (a : Nat) :
    right_of t (some a) = (t.store[a]?).map (fun n => n.right) := rfl

theorem balance_of_def (t : avl_tree T) (a : Nat) :
    balance_of t (some a) = (t.store[a]?).map (fun n => n.balance) := rfl

theorem value_of_def (t : avl_tree T) (a : Nat) :
    value_of t (some a) = (t.store[a]?).map (fun n => n.value) := rfl

theorem rd_some (t : avl_tree T) (a : Nat) : rd t (some a) = t.store[a]? := rfl

theorem wr_some {t : avl_tree T} {a : Nat} {n : avl_tree_node T}
    (f : avl_tree_node T → avl_tree_node T) (h : t.store[a]? = some n) :
    wr t (some a) f = some { t with store := t.store.set a (f n) } := by
  simp [wr, h]

theorem parent_of_some {t : avl_tree T} {a : Nat} {n : avl_tree_node T}
    (h : t.store[a]? = some n) : parent_of t (some a) = some n.parent := by
  simp [parent_of, rd, h]

theorem left_of_some {t : avl_tree T} {a : Nat} {n : avl_tree_node T}
    (h : t.store[a]? = some n) : left_of t (some a) = some n.left := by
  simp [left_of, rd, h]

theorem right_of_some {t : avl_tree T} {a : Nat} {n : avl_tree_node T}
    (h : t.store[a]? = some n) : right_of t (some a) = some n.right := by
  simp [right_of, rd, h]

theorem balance_of_some {t : avl_tree T} {a : Nat} {n : avl_tree_node T}
    (h : t.store[a]? = some n) : balance_of t (some a) = some n.balance := by
  simp [balance_of, rd, h]

theorem value_of_some {t : avl_tree T} {a : Nat} {n : avl_tree_node T}
    (h : t.store[a]? = some n) : value_of t (some a) = some n.value := by
  simp [value_of, rd, h]

/-! ## In-order sequences of a plugged path -/

theorem plug_addrs (c : List (Frame T)) (s : Shape T) :
    (plug c s).addrs = path_before c ++ s.addrs ++ path_after c := by
  induction c generalizing s with
  | nil => simp [plug, path_before, path_after]
  | cons f c ih =>
    cases f <;> simp [plug, ih, Frame.fill, Shape.addrs, path_before, path_after,
      Frame.before, Frame.after]

theorem plug_keys (c : List (Frame T)) (s : Shape T) :
    (plug c s).keys = path_keys_before c ++ s.keys ++ path_keys_after c := by
  induction c generalizing s with
  | nil => simp [plug, path_keys_before, path_keys_after]
  | cons f c ih =>
    cases f <;> simp [plug, ih, Frame.fill, Shape.keys, path_keys_before, path_keys_after,
      Frame.keys_before, Frame.keys_after]

/-! ## Frame lemmas: writes outside a footprint -/

theorem Rep_set {s : List (avl_tree_node T)} {par : Ptr} {S : Shape T} {i : Nat}
    (m : avl_tree_node T) (h : Rep s par S) (hi : i ∉ S.addrs) : Rep (s.set i m) par S := by
  induction S generalizing par with
  | nil => trivial
  | node l a v b r ihl ihr =>
    simp only [Shape.addrs, List.mem_append, List.mem_cons, not_or] at hi
    obtain ⟨h1, h2, h3⟩ := h
    refine ⟨?_, ihl h2 hi.1, ihr h3 hi.2.2⟩
    rw [cell_set_ne m hi.2.1]
    exact h1

theorem RepPath_set {s : List (avl_tree_node T)} {c : List (Frame T)} {child : Ptr} {i : Nat}
    (m : avl_tree_node T) (h : RepPath s c child)
    (hi : i ∉ path_before c ++ path_after c) : RepPath (s.set i m) c child := by
  induction c generalizing child with
  | nil => trivial
  | cons f c ih =>
    cases f with
    | left a v b r =>
      simp only [path_before, path_after, Frame.before, Frame.after, List.mem_append,
        List.mem_cons, not_or, List.append_nil] at hi
      obtain ⟨h1, h2, h3⟩ := h
      refine ⟨?_, Rep_set m h2 hi.2.1.2, ih h3 ?_⟩
      · rw [cell_set_ne m hi.2.1.1]
        exact h1
      · simp only [List.mem_append, not_or]
        exact ⟨hi.1, hi.2.2⟩
    | right l a v b =>
      simp only [path_before, path_after, Frame.before, Frame.after, List.mem_append,
        List.mem_cons, not_or, List.nil_append, List.mem_singleton, List.not_mem_nil,
        or_false] at hi
      obtain ⟨h1, h2, h3⟩ := h
      refine ⟨?_, Rep_set m h2 hi.1.2.1, ih h3 ?_⟩
      · rw [cell_set_ne m hi.1.2.2]
        exact h1
      · simp only [List.mem_append, not_or]
        exact ⟨hi.1.1, hi.2⟩

/-! ## The two rotations, cell by cell -/

theorem rotate_left_cells (t : avl_tree T) (x p : Nat) (cx cp : avl_tree_node T)
    (hx : t.store[x]? = some cx) (hp : t.store[p]? = some cp) (hxr : cx.right = some p)
    (hxp : x ≠ p)
    (hpar : ∀ g, cx.parent = some g → g ≠ x ∧ g ≠ p ∧ ∃ cg, t.store[g]? = some cg)
    (hin : ∀ i, cp.left = some i → i ≠ x ∧ i ≠ p ∧ cx.parent ≠ some i
      ∧ ∃ ci, t.store[i]? = some ci) :
    ∃ t', rotate_left t (some x) = some t' ∧ Same t t'
      ∧ t'.root = (if cx.parent = none then some p else t.root)
      ∧ t'.store[x]? = some { cx with parent := some p, right := cp.left }
      ∧ t'.store[p]? = some { cp with parent := cx.parent, left := some x }
      ∧ (∀ g cg, cx.parent = some g → t.store[g]? = some cg →
          t'.store[g]? = some (if cg.left = some x then { cg with left := some p }
            else { cg with right := some p }))
      ∧ (∀ i ci, cp.left = some i → t.store[i]? = some ci →
          t'.store[i]? = some { ci with parent := some x })
      ∧ (∀ j, j ≠ x → j ≠ p → cx.parent ≠ some j → cp.left ≠ some j →
          t'.store[j]? = t.store[j]?) := by
  rcases hg : cx.parent with _ | g <;> rcases hi : cp.left with _ | i
  · simp only [rotate_left, relink_parent, parent_of_def, left_of_def, right_of_def, wr_def,
      set_parent, set_left, set_right, hx, hp, hxr, hg, hi, cell_set_same, cell_set_other, hxp,
      hxp.symm, Option.map_some', Option.bind_eq_bind, Option.some_bind, if_true, if_false,
      reduceCtorEq, ne_eq, not_true_eq_false, not_false_eq_true, ite_true, ite_false]
    refine ⟨_, rfl, ?_, ?_, ?_, ?_, ?_, ?_, ?_⟩
    · simp [Same]
    · rfl
    · simp only [cell_set_same, cell_set_other, hx, hp, hxp, hxp.symm, Option.map_some', ne_eq,
        not_false_eq_true]
    · simp only [cell_set_same, cell_set_other, hx, hp, hxp, hxp.symm, Option.map_some', ne_eq,
        not_false_eq_true]
    · intro g cg h
      cases h
    · intro g cg h
      cases h
    · intro j h1 h2 _ _
      simp only [cell_set_other, Ne.symm h1, Ne.symm h2, ne_eq, not_false_eq_true]
  · obtain ⟨hix, hip, -, ci, hci⟩ := hin i hi
    simp only [rotate_left, relink_parent, parent_of_def, left_of_def, right_of_def, wr_def,
      set_parent, set_left, set_right, hx, hp, hxr, hg, hi, hci, cell_set_same, cell_set_other,
      hxp, hxp.symm, hix, hip, hix.symm, hip.symm, Option.map_some', Option.bind_eq_bind,
      Option.some_bind, if_true, if_false, reduceCtorEq, ne_eq, not_true_eq_false,
      not_false_eq_true, ite_true, ite_false]
    refine ⟨_, rfl, ?_, ?_, ?_, ?_, ?_, ?_, ?_⟩
    · simp [Same]
    · rfl
    · simp only [cell_set_same, cell_set_other, hx, hp, hxp, hxp.symm, hix, hip, hix.symm,
        hip.symm, hci, Option.map_some', ne_eq, not_false_eq_true]
    · simp only [cell_set_same, cell_set_other, hx, hp, hxp, hxp.symm, hix, hip, hix.symm,
        hip.symm, hci, Option.map_some', ne_eq, not_false_eq_true]
    · intro g cg h
      cases h
    · intro i' ci' h hc
      cases h
      rw [hci] at hc
      cases hc
      simp only [cell_set_same, cell_set_other, hx, hp, hxp, hxp.symm, hix, hip, hix.symm,
        hip.symm, hci, Option.map_some', ne_eq, not_false_eq_true]
    · intro j h1 h2 _ h4
      have h5 : i ≠ j := fun h => h4 (by rw [h])
      simp only [cell_set_other, Ne.symm h1, Ne.symm h2, h5, ne_eq, not_false_eq_true]
  · obtain ⟨hgx, hgp, cg, hcg⟩ := hpar g hg
    by_cases hl : cg.left = some x
    · simp only [rotate_left, relink_parent, parent_of_def, left_of_def, right_of_def, wr_def,
        set_parent, set_left, set_right, hx, hp, hxr, hg, hi, hcg, hl, cell_set_same,
        cell_set_other, hxp, hxp.symm, hgx, hgp, hgx.symm, hgp.symm, Option.map_some',
        Option.bind_eq_bind, Option.some_bind, if_true, if_false, reduceCtorEq, ne_eq,
        not_true_eq_false, not_false_eq_true, ite_true, ite_false]
      refine ⟨_, rfl, ?_, ?_, ?_, ?_, ?_, ?_, ?_⟩
      · simp [Same]
      · rfl
      · simp only [cell_set_same, cell_set_other, hx, hp, hxp, hxp.symm, hgx, hgp, hgx.symm,
          hgp.symm, hcg, Option.map_some', ne_eq, not_false_eq_true]
      · simp only [cell_set_same, cell_set_other, hx, hp, hxp, hxp.symm, hgx, hgp, hgx.symm,
          hgp.symm, hcg, Option.map_some', ne_eq, not_false_eq_true]
      · intro g' cg' h hc
        cases h
        rw [hcg] at hc
        cases hc
        simp only [cell_set_same, cell_set_other, hx, hp, hxp, hxp.symm, hgx, hgp, hgx.symm,
          hgp.symm, hcg, hl, Option.map_some', ne_eq, not_false_eq_true, if_true]
      · intro i' ci' h
        cases h
      · intro j h1 h2 h3 _
        have h5 : g ≠ j := fun h => h3 (by rw [h])
        simp only [cell_set_other, Ne.symm h1, Ne.symm h2, h5, ne_eq, not_false_eq_true]
    · simp only [rotate_left, relink_parent, parent_of_def, left_of_def, right_of_def, wr_def,
        set_parent, set_left, set_right, hx, hp, hxr, hg, hi, hcg, hl, cell_set_same,
        cell_set_other, hxp, hxp.symm, hgx, hgp, hgx.symm, hgp.symm, Option.map_some',
        Option.bind_eq_bind, Option.some_bind, if_true, if_false, reduceCtorEq, ne_eq,
        not_true_eq_false, not_false_eq_true, ite_true, ite_false]
      refine ⟨_, rfl, ?_, ?_, ?_, ?_, ?_, ?_, ?_⟩
      · simp [Same]
      · rfl
      · simp only [cell_set_same, cell_set_other, hx, hp, hxp, hxp.symm, hgx, hgp, hgx.symm,
          hgp.symm, hcg, Option.map_some', ne_eq, not_false_eq_true]
      · simp only [cell_set_same, cell_set_other, hx, hp, hxp, hxp.symm, hgx, hgp, hgx.symm,
          hgp.symm, hcg, Option.map_some', ne_eq, not_false_eq_true]
      · intro g' cg' h hc
        cases h
        rw [hcg] at hc
        cases hc
        simp only [cell_set_same, cell_set_other, hx, hp, hxp, hxp.symm, hgx, hgp, hgx.symm,
          hgp.symm, hcg, hl, Option.map_some', ne_eq, not_false_eq_true, if_false]
      · intro i' ci' h
        cases h
      · intro j h1 h2 h3 _
        have h5 : g ≠ j := fun h => h3 (by rw [h])
        simp only [cell_set_other, Ne.symm h1, Ne.symm h2, h5, ne_eq, not_false_eq_true]
  · obtain ⟨hgx, hgp, cg, hcg⟩ := hpar g hg
    obtain ⟨hix, hip, hig, ci, hci⟩ := hin i hi
    have hgi : g ≠ i := fun h => hig (by rw [hg, h])
    by_cases hl : cg.left = some x
    · simp only [rotate_left, relink_parent, parent_of_def, left_of_def, right_of_def, wr_def,
        set_parent, set_left, set_right, hx, hp, hxr, hg, hi, hcg, hci, hl, cell_set_same,
        cell_set_other, hxp, hxp.symm, hgx, hgp, hgx.symm, hgp.symm, hix, hip, hix.symm,
        hip.symm, hgi, hgi.symm, Option.map_some',
        Option.bind_eq_bind, Option.some_bind, if_true, if_false, reduceCtorEq, ne_eq,
        not_true_eq_false, not_false_eq_true, ite_true, ite_false]
      refine ⟨_, rfl, ?_, ?_, ?_, ?_, ?_, ?_, ?_⟩
      · simp [Same]
      · rfl
      · simp only [cell_set_same, cell_set_other, hx, hp, hxp, hxp.symm, hgx, hgp, hgx.symm,
          hgp.symm, hcg, hci, hix, hip, hix.symm, hip.symm, hgi, hgi.symm, Option.map_some',
          ne_eq, not_false_eq_true]
      · simp only [cell_set_same, cell_set_other, hx, hp, hxp, hxp.symm, hgx, hgp, hgx.symm,
          hgp.symm, hcg, hci, hix, hip, hix.symm, hip.symm, hgi, hgi.symm, Option.map_some',
          ne_eq, not_false_eq_true]
      · intro g' cg' h hc
        cases h
        rw [hcg] at hc
        cases hc
        simp only [cell_set_same, cell_set_other, hx, hp, hxp, hxp.symm, hgx, hgp, hgx.symm,
          hgp.symm, hcg, hci, hix, hip, hix.symm, hip.symm, hgi, hgi.symm, hl,
          Option.map_some', ne_eq, not_false_eq_true, if_true]
      · intro i' ci' h hc
        cases h
        rw [hci] at hc
        cases hc
        simp only [cell_set_same, cell_set_other, hx, hp, hxp, hxp.symm, hgx, hgp, hgx.symm,
          hgp.symm, hcg, hci, hix, hip, hix.symm, hip.symm, hgi, hgi.symm, Option.map_some',
          ne_eq, not_false_eq_true]
      · intro j h1 h2 h3 h4
        have h5 : g ≠ j := fun h => h3 (by rw [h])
        have h6 : i ≠ j := fun h => h4 (by rw [h])
        simp only [cell_set_other, Ne.symm h1, Ne.symm h2, h5, h6, ne_eq, not_false_eq_true]
    · simp only [rotate_left, relink_parent, parent_of_def, left_of_def, right_of_def, wr_def,
        set_parent, set_left, set_right, hx, hp, hxr, hg, hi, hcg, hci, hl, cell_set_same,
        cell_set_other, hxp, hxp.symm, hgx, hgp, hgx.symm, hgp.symm, hix, hip, hix.symm,
        hip.symm, hgi, hgi.symm, Option.map_some',
        Option.bind_eq_bind, Option.some_bind, if_true, if_false, reduceCtorEq, ne_eq,
        not_true_eq_false, not_false_eq_true, ite_true, ite_false]
      refine ⟨_, rfl, ?_, ?_, ?_, ?_, ?_, ?_, ?_⟩
      · simp [Same]
      · rfl
      · simp only [cell_set_same, cell_set_other, hx, hp, hxp, hxp.symm, hgx, hgp, hgx.symm,
          hgp.symm, hcg, hci, hix, hip, hix.symm, hip.symm, hgi, hgi.symm, Option.map_some',
          ne_eq, not_false_eq_true]
      · simp only [cell_set_same, cell_set_other, hx, hp, hxp, hxp.symm, hgx, hgp, hgx.symm,
          hgp.symm, hcg, hci, hix, hip, hix.symm, hip.symm, hgi, hgi.symm, Option.map_some',
          ne_eq, not_false_eq_true]
      · intro g' cg' h hc
        cases h
        rw [hcg] at hc
        cases hc
        simp only [cell_set_same, cell_set_other, hx, hp, hxp, hxp.symm, hgx, hgp, hgx.symm,
          hgp.symm, hcg, hci, hix, hip, hix.symm, hip.symm, hgi, hgi.symm, hl,
          Option.map_some', ne_eq, not_false_eq_true, if_false]
      · intro i' ci' h hc
        cases h
        rw [hci] at hc
        cases hc
        simp only [cell_set_same, cell_set_other, hx, hp, hxp, hxp.symm, hgx, hgp, hgx.symm,
          hgp.symm, hcg, hci, hix, hip, hix.symm, hip.symm, hgi, hgi.symm, Option.map_some',
          ne_eq, not_false_eq_true]
      · intro j h1 h2 h3 h4
        have h5 : g ≠ j := fun h => h3 (by rw [h])
        have h6 : i ≠ j := fun h => h4 (by rw [h])
        simp only [cell_set_other, Ne.symm h1, Ne.symm h2, h5, h6, ne_eq, not_false_eq_true]

theorem rotate_right_cells (t : avl_tree T) (x p : Nat) (cx cp : avl_tree_node T)
    (hx : t.store[x]? = some cx) (hp : t.store[p]? = some cp) (hxr : cx.left = some p)
    (hxp : x ≠ p)
    (hpar : ∀ g, cx.parent = some g → g ≠ x ∧ g ≠ p ∧ ∃ cg, t.store[g]? = some cg)
    (hin : ∀ i, cp.right = some i → i ≠ x ∧ i ≠ p ∧ cx.parent ≠ some i
      ∧ ∃ ci, t.store[i]? = some ci) :
    ∃ t', rotate_right t (some x) = some t' ∧ Same t t'
      ∧ t'.root = (if cx.parent = none then some p else t.root)
      ∧ t'.store[x]? = some { cx with parent := some p, left := cp.right }
      ∧ t'.store[p]? = some { cp with parent := cx.parent, right := some x }
      ∧ (∀ g cg, cx.parent = some g → t.store[g]? = some cg →
          t'.store[g]? = some (if cg.left = some x then { cg with left := some p }
            else { cg with right := some p }))
      ∧ (∀ i ci, cp.right = some i → t.store[i]? = some ci →
          t'.store[i]? = some { ci with parent := some x })
      ∧ (∀ j, j ≠ x → j ≠ p → cx.parent ≠ some j → cp.right ≠ some j →
          t'.store[j]? = t.store[j]?) := by
  rcases hg : cx.parent with _ | g <;> rcases hi : cp.right with _ | i
  · simp only [rotate_right, relink_parent, parent_of_def, left_of_def, right_of_def, wr_def,
      set_parent, set_left, set_right, hx, hp, hxr, hg, hi, cell_set_same, cell_set_other, hxp,
      hxp.symm, Option.map_some', Option.bind_eq_bind, Option.some_bind, if_true, if_false,
      reduceCtorEq, ne_eq, not_true_eq_false, not_false_eq_true, ite_true, ite_false]
    refine ⟨_, rfl, ?_, ?_, ?_, ?_, ?_, ?_, ?_⟩
    · simp [Same]
    · rfl
    · simp only [cell_set_same, cell_set_other, hx, hp, hxp, hxp.symm, Option.map_some', ne_eq,
        not_false_eq_true]
    · simp only [cell_set_same, cell_set_other, hx, hp, hxp, hxp.symm, Option.map_some', ne_eq,
        not_false_eq_true]
    · intro g cg h
      cases h
    · intro g cg h
      cases h
    · intro j h1 h2 _ _
      simp only [cell_set_other, Ne.symm h1, Ne.symm h2, ne_eq, not_false_eq_true]
  · obtain ⟨hix, hip, -, ci, hci⟩ := hin i hi
    simp only [rotate_right, relink_parent, parent_of_def, left_of_def, right_of_def, wr_def,
      set_parent, set_left, set_right, hx, hp, hxr, hg, hi, hci, cell_set_same, cell_set_other,
      hxp, hxp.symm, hix, hip, hix.symm, hip.symm, Option.map_some', Option.bind_eq_bind,
      Option.some_bind, if_true, if_false, reduceCtorEq, ne_eq, not_true_eq_false,
      not_false_eq_true, ite_true, ite_false]
    refine ⟨_, rfl, ?_, ?_, ?_, ?_, ?_, ?_, ?_⟩
    · simp [Same]
    · rfl
    · simp only [cell_set_same, cell_set_other, hx, hp, hxp, hxp.symm, hix, hip, hix.symm,
        hip.symm, hci, Option.map_some', ne_eq, not_false_eq_true]
    · simp only [cell_set_same, cell_set_other, hx, hp, hxp, hxp.symm, hix, hip, hix.symm,
        hip.symm, hci, Option.map_some', ne_eq, not_false_eq_true]
    · intro g cg h
      cases h
    · intro i' ci' h hc
      cases h
      rw [hci] at hc
      cases hc
      simp only [cell_set_same, cell_set_other, hx, hp, hxp, hxp.symm, hix, hip, hix.symm,
        hip.symm, hci, Option.map_some', ne_eq, not_false_eq_true]
    · intro j h1 h2 _ h4
      have h5 : i ≠ j := fun h => h4 (by rw [h])
      simp only [cell_set_other, Ne.symm h1, Ne.symm h2, h5, ne_eq, not_false_eq_true]
  · obtain ⟨hgx, hgp, cg, hcg⟩ := hpar g hg
    by_cases hl : cg.left = some x
    · simp only [rotate_right, relink_parent, parent_of_def, left_of_def, right_of_def, wr_def,
        set_parent, set_left, set_right, hx, hp, hxr, hg, hi, hcg, hl, cell_set_same,
        cell_set_other, hxp, hxp.symm, hgx, hgp, hgx.symm, hgp.symm, Option.map_some',
        Option.bind_eq_bind, Option.some_bind, if_true, if_false, reduceCtorEq, ne_eq,
        not_true_eq_false, not_false_eq_true, ite_true, ite_false]
      refine ⟨_, rfl, ?_, ?_, ?_, ?_, ?_, ?_, ?_⟩
      · simp [Same]
      · rfl
      · simp only [cell_set_same, cell_set_other, hx, hp, hxp, hxp.symm, hgx, hgp, hgx.symm,
          hgp.symm, hcg, Option.map_some', ne_eq, not_false_eq_true]
      · simp only [cell_set_same, cell_set_other, hx, hp, hxp, hxp.symm, hgx, hgp, hgx.symm,
          hgp.symm, hcg, Option.map_some', ne_eq, not_false_eq_true]
      · intro g' cg' h hc
        cases h
        rw [hcg] at hc
        cases hc
        simp only [cell_set_same, cell_set_other, hx, hp, hxp, hxp.symm, hgx, hgp, hgx.symm,
          hgp.symm, hcg, hl, Option.map_some', ne_eq, not_false_eq_true, if_true]
      · intro i' ci' h
        cases h
      · intro j h1 h2 h3 _
        have h5 : g ≠ j := fun h => h3 (by rw [h])
        simp only [cell_set_other, Ne.symm h1, Ne.symm h2, h5, ne_eq, not_false_eq_true]
    · simp only [rotate_right, relink_parent, parent_of_def, left_of_def, right_of_def, wr_def,
        set_parent, set_left, set_right, hx, hp, hxr, hg, hi, hcg, hl, cell_set_same,
        cell_set_other, hxp, hxp.symm, hgx, hgp, hgx.symm, hgp.symm, Option.map_some',
        Option.bind_eq_bind, Option.some_bind, if_true, if_false, reduceCtorEq, ne_eq,
        not_true_eq_false, not_false_eq_true, ite_true, ite_false]
      refine ⟨_, rfl, ?_, ?_, ?_, ?_, ?_, ?_, ?_⟩
      · simp [Same]
      · rfl
      · simp only [cell_set_same, cell_set_other, hx, hp, hxp, hxp.symm, hgx, hgp, hgx.symm,
          hgp.symm, hcg, Option.map_some', ne_eq, not_false_eq_true]
      · simp only [cell_set_same, cell_set_other, hx, hp, hxp, hxp.symm, hgx, hgp, hgx.symm,
          hgp.symm, hcg, Option.map_some', ne_eq, not_false_eq_true]
      · intro g' cg' h hc
        cases h
        rw [hcg] at hc
        cases hc
        simp only [cell_set_same, cell_set_other, hx, hp, hxp, hxp.symm, hgx, hgp, hgx.symm,
          hgp.symm, hcg, hl, Option.map_some', ne_eq, not_false_eq_true, if_false]
      · intro i' ci' h
        cases h
      · intro j h1 h2 h3 _
        have h5 : g ≠ j := fun h => h3 (by rw [h])
        simp only [cell_set_other, Ne.symm h1, Ne.symm h2, h5, ne_eq, not_false_eq_true]
  · obtain ⟨hgx, hgp, cg, hcg⟩ := hpar g hg
    obtain ⟨hix, hip, hig, ci, hci⟩ := hin i hi
    have hgi : g ≠ i := fun h => hig (by rw [hg, h])
    by_cases hl : cg.left = some x
    · simp only [rotate_right, relink_parent, parent_of_def, left_of_def, right_of_def, wr_def,
        set_parent, set_left, set_right, hx, hp, hxr, hg, hi, hcg, hci, hl, cell_set_same,
        cell_set_other, hxp, hxp.symm, hgx, hgp, hgx.symm, hgp.symm, hix, hip, hix.symm,
        hip.symm, hgi, hgi.symm, Option.map_some',
        Option.bind_eq_bind, Option.some_bind, if_true, if_false, reduceCtorEq, ne_eq,
        not_true_eq_false, not_false_eq_true, ite_true, ite_false]
      refine ⟨_, rfl, ?_, ?_, ?_, ?_, ?_, ?_, ?_⟩
      · simp [Same]
      · rfl
      · simp only [cell_set_same, cell_set_other, hx, hp, hxp, hxp.symm, hgx, hgp, hgx.symm,
          hgp.symm, hcg, hci, hix, hip, hix.symm, hip.symm, hgi, hgi.symm, Option.map_some',
          ne_eq, not_false_eq_true]
      · simp only [cell_set_same, cell_set_other, hx, hp, hxp, hxp.symm, hgx, hgp, hgx.symm,
          hgp.symm, hcg, hci, hix, hip, hix.symm, hip.symm, hgi, hgi.symm, Option.map_some',
          ne_eq, not_false_eq_true]
      · intro g' cg' h hc
        cases h
        rw [hcg] at hc
        cases hc
        simp only [cell_set_same, cell_set_other, hx, hp, hxp, hxp.symm, hgx, hgp, hgx.symm,
          hgp.symm, hcg, hci, hix, hip, hix.symm, hip.symm, hgi, hgi.symm, hl,
          Option.map_some', ne_eq, not_false_eq_true, if_true]
      · intro i' ci' h hc
        cases h
        rw [hci] at hc
        cases hc
        simp only [cell_set_same, cell_set_other, hx, hp, hxp, hxp.symm, hgx, hgp, hgx.symm,
          hgp.symm, hcg, hci, hix, hip, hix.symm, hip.symm, hgi, hgi.symm, Option.map_some',
          ne_eq, not_false_eq_true]
      · intro j h1 h2 h3 h4
        have h5 : g ≠ j := fun h => h3 (by rw [h])
        have h6 : i ≠ j := fun h => h4 (by rw [h])
        simp only [cell_set_other, Ne.symm h1, Ne.symm h2, h5, h6, ne_eq, not_false_eq_true]
    · simp only [rotate_right, relink_parent, parent_of_def, left_of_def, right_of_def, wr_def,
        set_parent, set_left, set_right, hx, hp, hxr, hg, hi, hcg, hci, hl, cell_set_same,
        cell_set_other, hxp, hxp.symm, hgx, hgp, hgx.symm, hgp.symm, hix, hip, hix.symm,
        hip.symm, hgi, hgi.symm, Option.map_some',
        Option.bind_eq_bind, Option.some_bind, if_true, if_false, reduceCtorEq, ne_eq,
        not_true_eq_false, not_false_eq_true, ite_true, ite_false]
      refine ⟨_, rfl, ?_, ?_, ?_, ?_, ?_, ?_, ?_⟩
      · simp [Same]
      · rfl
      · simp only [cell_set_same, cell_set_other, hx, hp, hxp, hxp.symm, hgx, hgp, hgx.symm,
          hgp.symm, hcg, hci, hix, hip, hix.symm, hip.symm, hgi, hgi.symm, Option.map_some',
          ne_eq, not_false_eq_true]
      · simp only [cell_set_same, cell_set_other, hx, hp, hxp, hxp.symm, hgx, hgp, hgx.symm,
          hgp.symm, hcg, hci, hix, hip, hix.symm, hip.symm, hgi, hgi.symm, Option.map_some',
          ne_eq, not_false_eq_true]
      · intro g' cg' h hc
        cases h
        rw [hcg] at hc
        cases hc
        simp only [cell_set_same, cell_set_other, hx, hp, hxp, hxp.symm, hgx, hgp, hgx.symm,
          hgp.symm, hcg, hci, hix, hip, hix.symm, hip.symm, hgi, hgi.symm, hl,
          Option.map_some', ne_eq, not_false_eq_true, if_false]
      · intro i' ci' h hc
        cases h
        rw [hci] at hc
        cases hc
        simp only [cell_set_same, cell_set_other, hx, hp, hxp, hxp.symm, hgx, hgp, hgx.symm,
          hgp.symm, hcg, hci, hix, hip, hix.symm, hip.symm, hgi, hgi.symm, Option.map_some',
          ne_eq, not_false_eq_true]
      · intro j h1 h2 h3 h4
        have h5 : g ≠ j := fun h => h3 (by rw [h])
        have h6 : i ≠ j := fun h => h4 (by rw [h])
        simp only [cell_set_other, Ne.symm h1, Ne.symm h2, h5, h6, ne_eq, not_false_eq_true]

/-! ## Footprints -/

theorem ptr_mem_addrs {S : Shape T} {a : Nat} (h : S.ptr = some a) : a ∈ S.addrs := by
  cases S with
  | nil => cases h
  | node l b v k r =>
    simp only [Shape.ptr, Option.some.injEq] at h
    subst h
    simp [Shape.addrs]

theorem path_parent_mem {c : List (Frame T)} {g : Nat} (h : path_parent c = some g) :
    g ∈ path_before c ++ path_after c := by
  cases c with
  | nil => cases h
  | cons f c =>
    simp only [path_parent, Option.some.injEq] at h
    subst h
    cases f <;> simp [path_before, path_after, Frame.before, Frame.after, Frame.addr]

theorem Rep_congr {s s' : List (avl_tree_node T)} {par : Ptr} {S : Shape T}
    (h : Rep s par S) (hs : ∀ a ∈ S.addrs, s'[a]? = s[a]?) : Rep s' par S := by
  induction S generalizing par with
  | nil => trivial
  | node l a v b r ihl ihr =>
    obtain ⟨h1, h2, h3⟩ := h
    refine ⟨?_, ihl h2 ?_, ihr h3 ?_⟩
    · rw [hs a (by simp [Shape.addrs])]
      exact h1
    · intro j hj
      exact hs j (by simp [Shape.addrs, hj])
    · intro j hj
      exact hs j (by simp [Shape.addrs, hj])

theorem RepPath_congr {s s' : List (avl_tree_node T)} {c : List (Frame T)} {child : Ptr}
    (h : RepPath s c child) (hs : ∀ a ∈ path_before c ++ path_after c, s'[a]? = s[a]?) :
    RepPath s' c child := by
  induction c generalizing child with
  | nil => trivial
  | cons f c ih =>
    cases f with
    | left a v b r =>
      obtain ⟨h1, h2, h3⟩ := h
      refine ⟨?_, Rep_congr h2 ?_, ih h3 ?_⟩
      · rw [hs a (by simp [path_before, path_after, Frame.before, Frame.after])]
        exact h1
      · intro j hj
        exact hs j (by simp [path_before, path_after, Frame.before, Frame.after, hj])
      · intro j hj
        refine hs j ?_
        simp only [List.mem_append] at hj
        rcases hj with hj | hj <;>
          simp [path_before, path_after, Frame.before, Frame.after, hj]
    | right l a v b =>
      obtain ⟨h1, h2, h3⟩ := h
      refine ⟨?_, Rep_congr h2 ?_, ih h3 ?_⟩
      · rw [hs a (by simp [path_before, path_after, Frame.before, Frame.after])]
        exact h1
      · intro j hj
        exact hs j (by simp [path_before, path_after, Frame.before, Frame.after, hj])
      · intro j hj
        refine hs j ?_
        simp only [List.mem_append] at hj
        rcases hj with hj | hj <;>
          simp [path_before, path_after, Frame.before, Frame.after, hj]

/-- Giving the root of a laid-out shape a new parent link. -/
theorem Rep_reparent {s s' : List (avl_tree_node T)} {par par' : Ptr} {S : Shape T}
    (h : Rep s par S) (hnd : S.addrs.Nodup)
    (hroot : ∀ i ci, S.ptr = some i → s[i]? = some ci →
      s'[i]? = some { ci with parent := par' })
    (hs : ∀ a ∈ S.addrs, S.ptr ≠ some a → s'[a]? = s[a]?) : Rep s' par' S := by
  cases S with
  | nil => trivial
  | node l a v b r =>
    obtain ⟨h1, h2, h3⟩ := h
    simp only [Shape.addrs, List.nodup_append, List.nodup_cons, List.disjoint_left,
      List.mem_cons, not_or] at hnd
    refine ⟨?_, Rep_congr h2 ?_, Rep_congr h3 ?_⟩
    · exact hroot a _ rfl h1
    · intro j hj
      refine hs j (by simp [Shape.addrs, hj]) ?_
      simp only [Shape.ptr, ne_eq, Option.some.injEq]
      intro e
      exact (hnd.2.2 hj).1 e.symm
    · intro j hj
      refine hs j (by simp [Shape.addrs, hj]) ?_
      simp only [Shape.ptr, ne_eq, Option.some.injEq]
      intro e
      exact hnd.2.1.1 (e ▸ hj)

/-- Redirecting the child link of the innermost node of a laid-out path. -/
theorem RepPath_rechild {s s' : List (avl_tree_node T)} {c : List (Frame T)} {x : Nat}
    {child' : Ptr} (h : RepPath s c (some x))
    (hnd : (path_before c ++ path_after c).Nodup)
    (hx : x ∉ path_before c ++ path_after c)
    (hpar : ∀ g cg, path_parent c = some g → s[g]? = some cg →
      s'[g]? = some (if cg.left = some x then { cg with left := child' }
        else { cg with right := child' }))
    (hs : ∀ a ∈ path_before c ++ path_after c, path_parent c ≠ some a → s'[a]? = s[a]?) :
    RepPath s' c child' := by
  cases c with
  | nil => trivial
  | cons f c =>
    cases f with
    | left a v b r =>
      obtain ⟨h1, h2, h3⟩ := h
      simp only [path_before, path_after, Frame.before, Frame.after, List.append_nil,
        List.nodup_append, List.nodup_cons, List.disjoint_left, List.mem_append,
        List.mem_cons, not_or, List.cons_append] at hnd hx
      have e := hpar a _ rfl h1
      simp only [if_true] at e
      refine ⟨e, Rep_congr h2 ?_, RepPath_congr h3 ?_⟩
      · intro j hj
        refine hs j (by simp [path_before, path_after, Frame.before, Frame.after, hj]) ?_
        simp only [path_parent, Frame.addr, ne_eq, Option.some.injEq]
        intro e2
        exact hnd.2.1.1.1 (e2 ▸ hj)
      · intro j hj
        simp only [List.mem_append] at hj
        refine hs j ?_ ?_
        · rcases hj with hj | hj <;>
            simp [path_before, path_after, Frame.before, Frame.after, hj]
        · simp only [path_parent, Frame.addr, ne_eq, Option.some.injEq]
          intro e2
          subst e2
          rcases hj with hj | hj
          · exact (hnd.2.2 hj).1 rfl
          · exact hnd.2.1.1.2 hj
    | right l a v b =>
      obtain ⟨h1, h2, h3⟩ := h
      simp only [path_before, path_after, Frame.before, Frame.after, List.nil_append,
        List.nodup_append, List.nodup_cons, List.disjoint_left, List.mem_append,
        List.mem_cons, not_or, List.mem_singleton, List.not_mem_nil, List.nodup_nil,
        not_false_eq_true, and_true, or_false, forall_eq_or_imp] at hnd hx
      have e := hpar a _ rfl h1
      have hl : l.ptr ≠ some x := fun hp => hx.1.2.1 (ptr_mem_addrs hp)
      simp only [hl, if_false] at e
      refine ⟨e, Rep_congr h2 ?_, RepPath_congr h3 ?_⟩
      · intro j hj
        refine hs j (by simp [path_before, path_after, Frame.before, Frame.after, hj]) ?_
        simp only [path_parent, Frame.addr, ne_eq, Option.some.injEq]
        intro e2
        subst e2
        exact (hnd.1.2.1.2.2 hj) rfl
      · intro j hj
        simp only [List.mem_append] at hj
        refine hs j ?_ ?_
        · rcases hj with hj | hj <;>
            simp [path_before, path_after, Frame.before, Frame.after, hj]
        · simp only [path_parent, Frame.addr, ne_eq, Option.some.injEq]
          intro e2
          subst e2
          rcases hj with hj | hj
          · exact (hnd.1.2.2 hj).2 rfl
          · exact hnd.2.2 (Or.inr (Or.inr rfl)) hj

/-! ## Distinct addresses -/

theorem one_le_count {l : List Nat} {a : Nat} (h : a ∈ l) : 1 ≤ l.count a :=
  List.count_pos_iff.mpr h

theorem not_mem_of_count {l : List Nat} {a : Nat} (h : l.count a = 0) : a ∉ l :=
  List.count_eq_zero.mp h

theorem five_regions {pb pa A B C : List Nat} {x p : Nat}
    (h : (pb ++ (A ++ x :: (B ++ p :: C)) ++ pa).Nodup) :
    x ≠ p ∧ (pb ++ pa).Nodup ∧ B.Nodup
      ∧ (∀ a ∈ pb ++ pa, a ≠ x ∧ a ≠ p ∧ a ∉ A ∧ a ∉ B ∧ a ∉ C)
      ∧ (∀ a ∈ A, a ≠ x ∧ a ≠ p ∧ a ∉ B)
      ∧ (∀ a ∈ B, a ≠ x ∧ a ≠ p)
      ∧ (∀ a ∈ C, a ≠ x ∧ a ≠ p ∧ a ∉ B) := by
  have key : ∀ a, pb.count a + A.count a + (if x = a then 1 else 0) + B.count a
      + (if p = a then 1 else 0) + C.count a + pa.count a ≤ 1 := by
    intro a
    have := List.nodup_iff_count_le_one.mp h a
    simp only [List.count_append, List.count_cons, beq_iff_eq] at this
    omega
  have mem : ∀ (l : List Nat) a, a ∈ l → 1 ≤ l.count a := fun l a ha =>
    List.count_pos_iff.mpr ha
  have nmem : ∀ (l : List Nat) a, l.count a = 0 → a ∉ l := fun l a ha =>
    List.count_eq_zero.mp ha
  refine ⟨?_, ?_, ?_, ?_, ?_, ?_, ?_⟩
  · intro e
    have := key x
    simp only [e, if_true] at this
    omega
  · rw [List.nodup_iff_count_le_one]
    intro a
    have := key a
    simp only [List.count_append]
    omega
  · rw [List.nodup_iff_count_le_one]
    intro a
    have := key a
    omega
  · intro a ha
    have k := key a
    have : 1 ≤ pb.count a + pa.count a := by
      rcases List.mem_append.mp ha with h1 | h1
      · have := mem _ _ h1
        omega
      · have := mem _ _ h1
        omega
    refine ⟨?_, ?_, nmem _ _ (by omega), nmem _ _ (by omega), nmem _ _ (by omega)⟩
    · rintro rfl
      simp only [if_true] at k
      omega
    · rintro rfl
      simp only [if_true] at k
      omega
  · intro a ha
    have k := key a
    have := mem _ _ ha
    refine ⟨?_, ?_, nmem _ _ (by omega)⟩
    · rintro rfl
      simp only [if_true] at k
      omega
    · rintro rfl
      simp only [if_true] at k
      omega
  · intro a ha
    have k := key a
    have := mem _ _ ha
    refine ⟨?_, ?_⟩
    · rintro rfl
      simp only [if_true] at k
      omega
    · rintro rfl
      simp only [if_true] at k
      omega
  · intro a ha
    have k := key a
    have := mem _ _ ha
    refine ⟨?_, ?_, nmem _ _ (by omega)⟩
    · rintro rfl
      simp only [if_true] at k
      omega
    · rintro rfl
      simp only [if_true] at k
      omega


/-! ## Moving the focus of a laid-out tree -/

theorem Lays.cell {t : avl_tree T} {c : List (Frame T)} {l r : Shape T} {a : Nat} {v : T}
    {b : Int} (h : Lays t c (Shape.node l a v b r)) :
    t.store[a]? = some { value := v, parent := path_parent c, left := l.ptr, right := r.ptr,
                         balance := b } :=
  h.sub_ok.1

theorem Lays_fill {t : avl_tree T} {c : List (Frame T)} (f : Frame T) {s : Shape T} :
    Lays t c (f.fill s) ↔ Lays t (f :: c) s := by
  cases f with
  | left a v b r =>
    constructor
    · intro h
      refine ⟨⟨h.sub_ok.1, h.sub_ok.2.2, h.path_ok⟩, h.sub_ok.2.1, h.root_ok, ?_⟩
      have := h.distinct
      simpa [Frame.fill, Shape.addrs, path_before, path_after, Frame.before, Frame.after]
        using this
    · intro h
      refine ⟨h.path_ok.2.2, ⟨h.path_ok.1, h.sub_ok, h.path_ok.2.1⟩, h.root_ok, ?_⟩
      have := h.distinct
      simpa [Frame.fill, Shape.addrs, path_before, path_after, Frame.before, Frame.after]
        using this
  | right l a v b =>
    constructor
    · intro h
      refine ⟨⟨h.sub_ok.1, h.sub_ok.2.1, h.path_ok⟩, h.sub_ok.2.2, h.root_ok, ?_⟩
      have := h.distinct
      simpa [Frame.fill, Shape.addrs, path_before, path_after, Frame.before, Frame.after]
        using this
    · intro h
      refine ⟨h.path_ok.2.2, ⟨h.path_ok.1, h.path_ok.2.1, h.sub_ok⟩, h.root_ok, ?_⟩
      have := h.distinct
      simpa [Frame.fill, Shape.addrs, path_before, path_after, Frame.before, Frame.after]
        using this

theorem Lays_plug {t : avl_tree T} (c : List (Frame T)) {s : Shape T} :
    Lays t [] (plug c s) ↔ Lays t c s := by
  induction c generalizing s with
  | nil => rfl
  | cons f c ih =>
    simp only [plug]
    rw [ih, Lays_fill]

theorem Same.refl (t : avl_tree T) : Same t t := ⟨rfl, rfl, rfl, rfl⟩

theorem Same.trans {t t' t'' : avl_tree T} (h : Same t t') (h' : Same t' t'') : Same t t'' :=
  ⟨h'.1.trans h.1, h'.2.1.trans h.2.1, h'.2.2.1.trans h.2.2.1, h'.2.2.2.trans h.2.2.2⟩

/-- The assignment `a->balance = b'` at the root of the focused shape. -/
theorem set_balance_focus {t : avl_tree T} {c : List (Frame T)} {l r : Shape T} {a : Nat}
    {v : T} {b : Int} (b' : Int) (h : Lays t c (Shape.node l a v b r)) :
    ∃ t', set_balance t (some a) b' = some t' ∧ Lays t' c (Shape.node l a v b' r)
      ∧ Same t t' := by
  have hc := h.cell
  have hnd := h.distinct
  have key : ∀ j, (path_before c).count j + l.addrs.count j + (if a = j then 1 else 0)
      + r.addrs.count j + (path_after c).count j ≤ 1 := by
    intro j
    have := List.nodup_iff_count_le_one.mp hnd j
    simp only [Shape.addrs, List.count_append, List.count_cons, beq_iff_eq] at this
    omega
  have ka := key a
  simp only [if_true] at ka
  refine ⟨{ t with store := t.store.set a (avl_tree_node.mk v (path_parent c) l.ptr r.ptr b') },
    ?_,
    ⟨?_, ⟨?_, ?_, ?_⟩, h.root_ok, hnd⟩, ?_⟩
  · simp only [set_balance, wr_def, hc, Option.map_some']
  · refine RepPath_set _ h.path_ok ?_
    simp only [List.mem_append, not_or]
    exact ⟨not_mem_of_count (by omega), not_mem_of_count (by omega)⟩
  · simp only [cell_set_same, hc, Option.map_some']
  · exact Rep_set _ h.sub_ok.2.1 (not_mem_of_count (by omega))
  · exact Rep_set _ h.sub_ok.2.2 (not_mem_of_count (by omega))
  · simp [Same]

/-! ## The two rotations on laid-out shapes -/

theorem RepPath_parent_cell {s : List (avl_tree_node T)} {c : List (Frame T)} {child : Ptr}
    {g : Nat} (h : RepPath s c child) (hg : path_parent c = some g) :
    ∃ cg, s[g]? = some cg := by
  cases c with
  | nil => cases hg
  | cons f c =>
    simp only [path_parent, Option.some.injEq] at hg
    subst hg
    cases f with
    | left a v b r => exact ⟨_, h.1⟩
    | right l a v b => exact ⟨_, h.1⟩

theorem Rep_root_cell {s : List (avl_tree_node T)} {par : Ptr} {S : Shape T} {i : Nat}
    (h : Rep s par S) (hi : S.ptr = some i) : ∃ ci, s[i]? = some ci := by
  cases S with
  | nil => cases hi
  | node l a v b r =>
    simp only [Shape.ptr, Option.some.injEq] at hi
    subst hi
    exact ⟨_, h.1⟩

theorem root_after_rotation {t t' : avl_tree T} {c : List (Frame T)} {x p : Nat}
    (h : t.root = path_root c (some x))
    (h' : t'.root = if path_parent c = none then some p else t.root) :
    t'.root = path_root c (some p) := by
  cases c with
  | nil => simpa [path_parent, path_root] using h'
  | cons f c =>
    simp only [path_parent, reduceCtorEq, if_false] at h'
    rw [h', h]
    rfl

theorem rotate_left_focus {t : avl_tree T} {c : List (Frame T)} {A B C : Shape T}
    {x p : Nat} {vx vp : T} {bx bp : Int}
    (h : Lays t c (Shape.node A x vx bx (Shape.node B p vp bp C))) :
    ∃ t', rotate_left t (some x) = some t'
      ∧ Lays t' c (Shape.node (Shape.node A x vx bx B) p vp bp C) ∧ Same t t' := by
  have hx := h.cell
  have hp : t.store[p]? = some _ := h.sub_ok.2.2.1
  have hA : Rep t.store (some x) A := h.sub_ok.2.1
  have hB : Rep t.store (some p) B := h.sub_ok.2.2.2.1
  have hC : Rep t.store (some p) C := h.sub_ok.2.2.2.2
  have hnd : (path_before c ++ (A.addrs ++ x :: (B.addrs ++ p :: C.addrs))
      ++ path_after c).Nodup := by
    have := h.distinct
    simpa [Shape.addrs] using this
  obtain ⟨hxp, hndp, hndB, hpath, hAf, hBf, hCf⟩ := five_regions hnd
  obtain ⟨t', e, same, hroot, cx', cp', hg', hi', hframe⟩ :=
    rotate_left_cells t x p _ _ hx hp rfl hxp
      (fun g hg => ⟨(hpath g (path_parent_mem hg)).1, (hpath g (path_parent_mem hg)).2.1,
        RepPath_parent_cell h.path_ok hg⟩)
      (fun i hi => ⟨(hBf i (ptr_mem_addrs hi)).1, (hBf i (ptr_mem_addrs hi)).2,
        fun hg => (hpath i (path_parent_mem hg)).2.2.2.1 (ptr_mem_addrs hi),
        Rep_root_cell hB hi⟩)
  have hfr : ∀ j, j ≠ x → j ≠ p → j ∉ path_before c ++ path_after c ∨ path_parent c ≠ some j →
      j ∉ B.addrs ∨ B.ptr ≠ some j → t'.store[j]? = t.store[j]? := by
    intro j h1 h2 h3 h4
    refine hframe j h1 h2 ?_ ?_
    · rcases h3 with h3 | h3
      · exact fun hg => h3 (path_parent_mem hg)
      · exact h3
    · rcases h4 with h4 | h4
      · exact fun hg => h4 (ptr_mem_addrs hg)
      · exact h4
  refine ⟨t', e, ⟨?_, ⟨cp', ⟨cx', ?_, ?_⟩, ?_⟩, root_after_rotation h.root_ok hroot, ?_⟩, same⟩
  · refine RepPath_rechild h.path_ok hndp ?_ hg' ?_
    · intro hm
      exact (hpath x hm).1 rfl
    · intro j hj hne
      exact hfr j (hpath j hj).1 (hpath j hj).2.1 (Or.inr hne) (Or.inl (hpath j hj).2.2.2.1)
  · refine Rep_congr hA ?_
    intro j hj
    exact hfr j (hAf j hj).1 (hAf j hj).2.1
      (Or.inl (fun hm => (hpath j hm).2.2.1 hj)) (Or.inl (hAf j hj).2.2)
  · refine Rep_reparent hB hndB hi' ?_
    intro j hj hne
    exact hfr j (hBf j hj).1 (hBf j hj).2
      (Or.inl (fun hm => (hpath j hm).2.2.2.1 hj)) (Or.inr hne)
  · refine Rep_congr hC ?_
    intro j hj
    exact hfr j (hCf j hj).1 (hCf j hj).2.1
      (Or.inl (fun hm => (hpath j hm).2.2.2.2 hj)) (Or.inl (hCf j hj).2.2)
  · simpa [Shape.addrs] using hnd

theorem rotate_right_focus {t : avl_tree T} {c : List (Frame T)} {A B C : Shape T}
    {x p : Nat} {vx vp : T} {bx bp : Int}
    (h : Lays t c (Shape.node (Shape.node A p vp bp B) x vx bx C)) :
    ∃ t', rotate_right t (some x) = some t'
      ∧ Lays t' c (Shape.node A p vp bp (Shape.node B x vx bx C)) ∧ Same t t' := by
  have hx := h.cell
  have hp : t.store[p]? = some _ := h.sub_ok.2.1.1
  have hA : Rep t.store (some p) A := h.sub_ok.2.1.2.1
  have hB : Rep t.store (some p) B := h.sub_ok.2.1.2.2
  have hC : Rep t.store (some x) C := h.sub_ok.2.2
  have hnd : (path_before c ++ (A.addrs ++ p :: (B.addrs ++ x :: C.addrs))
      ++ path_after c).Nodup := by
    have := h.distinct
    simpa [Shape.addrs] using this
  obtain ⟨hpx, hndp, hndB, hpath, hAf, hBf, hCf⟩ := five_regions hnd
  have hxp : x ≠ p := fun e => hpx e.symm
  obtain ⟨t', e, same, hroot, cx', cp', hg', hi', hframe⟩ :=
    rotate_right_cells t x p _ _ hx hp rfl hxp
      (fun g hg => ⟨(hpath g (path_parent_mem hg)).2.1, (hpath g (path_parent_mem hg)).1,
        RepPath_parent_cell h.path_ok hg⟩)
      (fun i hi => ⟨(hBf i (ptr_mem_addrs hi)).2, (hBf i (ptr_mem_addrs hi)).1,
        fun hg => (hpath i (path_parent_mem hg)).2.2.2.1 (ptr_mem_addrs hi),
        Rep_root_cell hB hi⟩)
  have hfr : ∀ j, j ≠ x → j ≠ p → j ∉ path_before c ++ path_after c ∨ path_parent c ≠ some j →
      j ∉ B.addrs ∨ B.ptr ≠ some j → t'.store[j]? = t.store[j]? := by
    intro j h1 h2 h3 h4
    refine hframe j h1 h2 ?_ ?_
    · rcases h3 with h3 | h3
      · exact fun hg => h3 (path_parent_mem hg)
      · exact h3
    · rcases h4 with h4 | h4
      · exact fun hg => h4 (ptr_mem_addrs hg)
      · exact h4
  refine ⟨t', e, ⟨?_, ⟨cp', ?_, ⟨cx', ?_, ?_⟩⟩, root_after_rotation h.root_ok hroot, ?_⟩, same⟩
  · refine RepPath_rechild h.path_ok hndp ?_ hg' ?_
    · intro hm
      exact (hpath x hm).2.1 rfl
    · intro j hj hne
      exact hfr j (hpath j hj).2.1 (hpath j hj).1 (Or.inr hne) (Or.inl (hpath j hj).2.2.2.1)
  · refine Rep_congr hA ?_
    intro j hj
    exact hfr j (hAf j hj).2.1 (hAf j hj).1
      (Or.inl (fun hm => (hpath j hm).2.2.1 hj)) (Or.inl (hAf j hj).2.2)
  · refine Rep_reparent hB hndB hi' ?_
    intro j hj hne
    exact hfr j (hBf j hj).2 (hBf j hj).1
      (Or.inl (fun hm => (hpath j hm).2.2.2.1 hj)) (Or.inr hne)
  · refine Rep_congr hC ?_
    intro j hj
    exact hfr j (hCf j hj).2.1 (hCf j hj).1
      (Or.inl (fun hm => (hpath j hm).2.2.2.2 hj)) (Or.inl (hCf j hj).2.2)
  · simpa [Shape.addrs] using hnd

/-! ## Reading the focused node -/

theorem Lays.left_of {t : avl_tree T} {c : List (Frame T)} {l r : Shape T} {a : Nat} {v : T}
    {b : Int} (h : Lays t c (Shape.node l a v b r)) : left_of t (some a) = some l.ptr := by
  simp only [left_of_def, h.cell, Option.map_some']

theorem Lays.right_of {t : avl_tree T} {c : List (Frame T)} {l r : Shape T} {a : Nat} {v : T}
    {b : Int} (h : Lays t c (Shape.node l a v b r)) : right_of t (some a) = some r.ptr := by
  simp only [right_of_def, h.cell, Option.map_some']

theorem Lays.parent_of {t : avl_tree T} {c : List (Frame T)} {l r : Shape T} {a : Nat} {v : T}
    {b : Int} (h : Lays t c (Shape.node l a v b r)) :
    parent_of t (some a) = some (path_parent c) := by
  simp only [parent_of_def, h.cell, Option.map_some']

theorem Lays.balance_of {t : avl_tree T} {c : List (Frame T)} {l r : Shape T} {a : Nat} {v : T}
    {b : Int} (h : Lays t c (Shape.node l a v b r)) : balance_of t (some a) = some b := by
  simp only [balance_of_def, h.cell, Option.map_some']

theorem Lays.value_of {t : avl_tree T} {c : List (Frame T)} {l r : Shape T} {a : Nat} {v : T}
    {b : Int} (h : Lays t c (Shape.node l a v b r)) : value_of t (some a) = some v := by
  simp only [value_of_def, h.cell, Option.map_some']

theorem Lays.to_left {t : avl_tree T} {c : List (Frame T)} {l r : Shape T} {a : Nat} {v : T}
    {b : Int} (h : Lays t c (Shape.node l a v b r)) : Lays t (Frame.left a v b r :: c) l :=
  (Lays_fill (Frame.left a v b r)).mp h

theorem Lays.to_right {t : avl_tree T} {c : List (Frame T)} {l r : Shape T} {a : Nat} {v : T}
    {b : Int} (h : Lays t c (Shape.node l a v b r)) : Lays t (Frame.right l a v b :: c) r :=
  (Lays_fill (Frame.right l a v b)).mp h

theorem Lays.of_left {t : avl_tree T} {c : List (Frame T)} {l r : Shape T} {a : Nat} {v : T}
    {b : Int} (h : Lays t (Frame.left a v b r :: c) l) : Lays t c (Shape.node l a v b r) :=
  (Lays_fill (Frame.left a v b r)).mpr h

theorem Lays.of_right {t : avl_tree T} {c : List (Frame T)} {l r : Shape T} {a : Nat} {v : T}
    {b : Int} (h : Lays t (Frame.right l a v b :: c) r) : Lays t c (Shape.node l a v b r) :=
  (Lays_fill (Frame.right l a v b)).mpr h

/-! ## The rotation branches of `rebalance_from` -/

theorem fix_left_heavy_focus {t : avl_tree T} {c : List (Frame T)} {sub r R : Shape T}
    {a : Nat} {v : T} {b : Int} (h : Lays t c (Shape.node sub a v b r))
    (hR : fix_left_shape sub a v r = some R) :
    ∃ t', fix_left_heavy t (some a) = some t' ∧ Lays t' c R ∧ Same t t' := by
  cases sub with
  | nil => cases hR
  | node sl sa sv sb sr =>
    unfold fix_left_heavy
    simp only [h.left_of, h.to_left.balance_of, Shape.ptr, Option.bind_eq_bind,
      Option.some_bind]
    by_cases hsb : sb = -1
    · simp only [fix_left_shape, hsb, if_true, Option.some.injEq] at hR
      subst hR
      simp only [hsb, if_true, zero_left_pair, Option.bind_eq_bind]
      obtain ⟨t1, e1, L1, S1⟩ := set_balance_focus 0 h
      simp only [e1, Option.some_bind, L1.left_of, Shape.ptr]
      obtain ⟨t2, e2, L2, S2⟩ := set_balance_focus 0 L1.to_left
      simp only [e2, Option.some_bind]
      obtain ⟨t3, e3, L3, S3⟩ := rotate_right_focus L2.of_left
      exact ⟨t3, e3, L3, (S1.trans S2).trans S3⟩
    · cases sr with
      | nil => simp [fix_left_shape, hsb] at hR
      | node pl pa pv pb pr =>
        simp only [fix_left_shape, hsb, if_false, Option.some.injEq] at hR
        subst hR
        have lr : ∀ {t1 : avl_tree T} {b1 b2 b3 : Int},
            Lays t1 c (Shape.node (Shape.node sl sa sv b2 (Shape.node pl pa pv b3 pr)) a v b1 r) →
            left_right_of t1 (some a) = some (some pa) := by
          intro t1 b1 b2 b3 L
          simp only [left_right_of, L.left_of, Shape.ptr, Option.bind_eq_bind,
            Option.some_bind, L.to_left.right_of]
        simp only [hsb, if_false, double_left_right, Option.bind_eq_bind, lr h,
          Option.some_bind, h.to_left.to_right.balance_of]
        obtain ⟨t1, e1, L1, S1⟩ := set_balance_focus (max 0 (-pb)) h
        simp only [e1, Option.some_bind, L1.left_of, Shape.ptr, lr L1,
          L1.to_left.to_right.balance_of]
        obtain ⟨t2, e2, L2, S2⟩ := set_balance_focus (min 0 (-pb)) L1.to_left
        simp only [e2, Option.some_bind, lr L2.of_left]
        obtain ⟨t3, e3, L3, S3⟩ := set_balance_focus 0 L2.to_right
        simp only [e3, Option.some_bind, L3.of_right.of_left.left_of, Shape.ptr]
        obtain ⟨t4, e4, L4, S4⟩ := rotate_left_focus L3.of_right
        simp only [e4, Option.some_bind]
        obtain ⟨t5, e5, L5, S5⟩ := rotate_right_focus L4.of_left
        exact ⟨t5, e5, L5, (((S1.trans S2).trans S3).trans S4).trans S5⟩

theorem fix_right_heavy_focus {t : avl_tree T} {c : List (Frame T)} {sub l R : Shape T}
    {a : Nat} {v : T} {b : Int} (h : Lays t c (Shape.node l a v b sub))
    (hR : fix_right_shape l a v sub = some R) :
    ∃ t', fix_right_heavy t (some a) = some t' ∧ Lays t' c R ∧ Same t t' := by
  cases sub with
  | nil => cases hR
  | node sl sa sv sb sr =>
    unfold fix_right_heavy
    simp only [h.right_of, h.to_right.balance_of, Shape.ptr, Option.bind_eq_bind,
      Option.some_bind]
    by_cases hsb : sb = 1
    · simp only [fix_right_shape, hsb, if_true, Option.some.injEq] at hR
      subst hR
      simp only [hsb, if_true, zero_right_pair, Option.bind_eq_bind]
      obtain ⟨t1, e1, L1, S1⟩ := set_balance_focus 0 h
      simp only [e1, Option.some_bind, L1.right_of, Shape.ptr]
      obtain ⟨t2, e2, L2, S2⟩ := set_balance_focus 0 L1.to_right
      simp only [e2, Option.some_bind]
      obtain ⟨t3, e3, L3, S3⟩ := rotate_left_focus L2.of_right
      exact ⟨t3, e3, L3, (S1.trans S2).trans S3⟩
    · cases sl with
      | nil => simp [fix_right_shape, hsb] at hR
      | node pl pa pv pb pr =>
        simp only [fix_right_shape, hsb, if_false, Option.some.injEq] at hR
        subst hR
        have rl : ∀ {t1 : avl_tree T} {b1 b2 b3 : Int},
            Lays t1 c (Shape.node l a v b1 (Shape.node (Shape.node pl pa pv b3 pr) sa sv b2 sr)) →
            right_left_of t1 (some a) = some (some pa) := by
          intro t1 b1 b2 b3 L
          simp only [right_left_of, L.right_of, Shape.ptr, Option.bind_eq_bind,
            Option.some_bind, L.to_right.left_of]
        simp only [hsb, if_false, double_right_left, Option.bind_eq_bind, rl h,
          Option.some_bind, h.to_right.to_left.balance_of]
        obtain ⟨t1, e1, L1, S1⟩ := set_balance_focus (min 0 (-pb)) h
        simp only [e1, Option.some_bind, L1.right_of, Shape.ptr, rl L1,
          L1.to_right.to_left.balance_of]
        obtain ⟨t2, e2, L2, S2⟩ := set_balance_focus (max 0 (-pb)) L1.to_right
        simp only [e2, Option.some_bind, rl L2.of_right]
        obtain ⟨t3, e3, L3, S3⟩ := set_balance_focus 0 L2.to_left
        simp only [e3, Option.some_bind, L3.of_left.of_right.right_of, Shape.ptr]
        obtain ⟨t4, e4, L4, S4⟩ := rotate_right_focus L3.of_left
        simp only [e4, Option.some_bind]
        obtain ⟨t5, e5, L5, S5⟩ := rotate_left_focus L4.of_right
        exact ⟨t5, e5, L5, (((S1.trans S2).trans S3).trans S4).trans S5⟩

/-! ## The walk of `rebalance_from` -/

theorem sibling_ptr_ne {t : avl_tree T} {c : List (Frame T)} {l sub : Shape T} {a : Nat}
    {v : T} {b : Int} (h : Lays t (Frame.right l a v b :: c) sub) (hs : sub.ptr ≠ none) :
    l.ptr ≠ sub.ptr := by
  intro e
  rcases hp : sub.ptr with _ | x
  · exact hs hp
  · rw [hp] at e
    have h1 := one_le_count (ptr_mem_addrs e)
    have h2 := one_le_count (ptr_mem_addrs hp)
    have := List.nodup_iff_count_le_one.mp h.distinct x
    simp only [path_before, path_after, Frame.before, Frame.after, List.count_append] at this
    omega

theorem rebalance_loop_sim (c : List (Frame T)) :
    ∀ (sub R : Shape T) (t : avl_tree T) (fuel : Nat), Lays t c sub → sub.ptr ≠ none →
      c.length < fuel → rebalance_walk c sub = some R →
      ∃ t', rebalance_loop fuel t sub.ptr (path_parent c) = some t' ∧ Lays t' [] R
        ∧ Same t t' := by
  induction c with
  | nil =>
    intro sub R t fuel h _ hf hR
    cases fuel with
    | zero => cases hf
    | succ fuel =>
      simp only [rebalance_walk, Option.some.injEq] at hR
      subst hR
      exact ⟨t, by simp [rebalance_loop, path_parent], h, Same.refl t⟩
  | cons f c ih =>
    intro sub R t fuel h hs hf hR
    cases fuel with
    | zero => cases hf
    | succ fuel =>
      have hf' : c.length < fuel := by
        simp only [List.length_cons] at hf
        omega
      cases f with
      | left a v b r =>
        have h0 := h.of_left
        obtain ⟨t1, e1, L1, S1⟩ := set_balance_focus (b - 1) h0
        simp only [rebalance_loop, path_parent, Frame.addr, reduceCtorEq, if_false,
          h0.left_of, h0.balance_of, Option.bind_eq_bind, Option.some_bind, if_true, e1,
          L1.balance_of]
        simp only [rebalance_walk] at hR
        by_cases hb0 : b - 1 = 0
        · simp only [hb0, if_true, Option.some.injEq] at hR
          subst hR
          simp only [hb0, if_true]
          rw [hb0] at L1
          exact ⟨t1, rfl, (Lays_plug c).mpr L1, S1⟩
        · simp only [hb0, if_false] at hR ⊢
          by_cases hb1 : b - 1 > 1
          · simp [hb1] at hR
          · simp only [hb1, if_false] at hR ⊢
            by_cases hb2 : b - 1 < -1
            · simp only [hb2, if_true, Option.map_eq_some'] at hR ⊢
              obtain ⟨R', hR', rfl⟩ := hR
              obtain ⟨t2, e2, L2, S2⟩ := fix_left_heavy_focus L1 hR'
              exact ⟨t2, e2, (Lays_plug c).mpr L2, S1.trans S2⟩
            · simp only [hb2, if_false] at hR ⊢
              simp only [L1.parent_of, Option.some_bind]
              obtain ⟨t2, e2, L2, S2⟩ := ih _ R t1 fuel L1 (by simp [Shape.ptr]) hf' hR
              exact ⟨t2, e2, L2, S1.trans S2⟩
      | right l a v b =>
        have h0 := h.of_right
        have hne := sibling_ptr_ne h hs
        obtain ⟨t1, e1, L1, S1⟩ := set_balance_focus (b + 1) h0
        simp only [rebalance_loop, path_parent, Frame.addr, reduceCtorEq, if_false,
          h0.left_of, h0.balance_of, Option.bind_eq_bind, Option.some_bind, hne, e1,
          L1.balance_of]
        simp only [rebalance_walk] at hR
        by_cases hb0 : b + 1 = 0
        · simp only [hb0, if_true, Option.some.injEq] at hR
          subst hR
          simp only [hb0, if_true]
          rw [hb0] at L1
          exact ⟨t1, rfl, (Lays_plug c).mpr L1, S1⟩
        · simp only [hb0, if_false] at hR ⊢
          by_cases hb1 : b + 1 > 1
          · simp only [hb1, if_true, Option.map_eq_some'] at hR ⊢
            obtain ⟨R', hR', rfl⟩ := hR
            obtain ⟨t2, e2, L2, S2⟩ := fix_right_heavy_focus L1 hR'
            exact ⟨t2, e2, (Lays_plug c).mpr L2, S1.trans S2⟩
          · simp only [hb1, if_false] at hR ⊢
            by_cases hb2 : b + 1 < -1
            · simp [hb2] at hR
            · simp only [hb2, if_false] at hR ⊢
              simp only [L1.parent_of, Option.some_bind]
              obtain ⟨t2, e2, L2, S2⟩ := ih _ R t1 fuel L1 (by simp [Shape.ptr]) hf' hR
              exact ⟨t2, e2, L2, S1.trans S2⟩

/-! ## The descent of `insert_node` -/

theorem locate_lays (compare : T → T → Bool) (v : T) {t : avl_tree T} (sub : Shape T) :
    ∀ (c c' : List (Frame T)), Lays t c sub → locate compare v sub c = Sum.inr c' →
      Lays t c' Shape.nil := by
  induction sub with
  | nil =>
    intro c c' h e
    simp only [locate, Sum.inr.injEq] at e
    subst e
    exact h
  | node l a w b r ihl ihr =>
    intro c c' h e
    simp only [locate] at e
    by_cases h1 : compare v w = true
    · simp only [h1, if_true] at e
      exact ihl _ _ h.to_left e
    · simp only [h1, if_false] at e
      by_cases h2 : compare w v = true
      · simp only [h2, if_true] at e
        exact ihr _ _ h.to_right e
      · simp [h2] at e

theorem locate_plug (compare : T → T → Bool) (v : T) (sub : Shape T) :
    ∀ (c c' : List (Frame T)), locate compare v sub c = Sum.inr c' →
      plug c' Shape.nil = plug c sub := by
  induction sub with
  | nil =>
    intro c c' e
    simp only [locate, Sum.inr.injEq] at e
    subst e
    rfl
  | node l a w b r ihl ihr =>
    intro c c' e
    simp only [locate] at e
    by_cases h1 : compare v w = true
    · simp only [h1, if_true] at e
      rw [ihl _ _ e]
      rfl
    · simp only [h1, if_false] at e
      by_cases h2 : compare w v = true
      · simp only [h2, if_true] at e
        rw [ihr _ _ e]
        rfl
      · simp [h2] at e

/-- The result of `descend` that corresponds to a result of `locate`. -/
theorem descend_sim (compare : T → T → Bool) (v : T) {t : avl_tree T} (sub : Shape T) :
    ∀ (c : List (Frame T)) (fuel : Nat), Lays t c sub → sub.height < fuel →
      descend compare t v fuel sub.ptr (path_parent c) (path_link c)
        = some (match locate compare v sub c with
            | Sum.inl a => Sum.inl (some a)
            | Sum.inr c' => Sum.inr (path_parent c', path_link c')) := by
  induction sub with
  | nil =>
    intro c fuel h hf
    cases fuel with
    | zero => cases hf
    | succ fuel => simp [descend, Shape.ptr, locate]
  | node l a w b r ihl ihr =>
    intro c fuel h hf
    cases fuel with
    | zero => cases hf
    | succ fuel =>
      simp only [Shape.height] at hf
      have hl : l.height < fuel := by omega
      have hr : r.height < fuel := by omega
      simp only [descend, Shape.ptr, h.value_of, Option.bind_eq_bind, Option.some_bind,
        locate]
      by_cases h1 : compare v w = true
      · simp only [h1, if_true, h.left_of, Option.some_bind]
        exact ihl _ fuel h.to_left hl
      · simp only [h1, if_false]
        by_cases h2 : compare w v = true
        · simp only [h2, if_true, h.right_of, Option.some_bind]
          exact ihr _ fuel h.to_right hr
        · simp only [h2, if_false]
          simp

/-! ## Bounds on the iteration budgets -/

theorem Rep_addr_lt {s : List (avl_tree_node T)} {par : Ptr} {S : Shape T}
    (h : Rep s par S) : ∀ a ∈ S.addrs, a < s.length := by
  induction S generalizing par with
  | nil => intro a ha; cases ha
  | node l a v b r ihl ihr =>
    intro j hj
    simp only [Shape.addrs, List.mem_append, List.mem_cons] at hj
    rcases hj with hj | hj | hj
    · exact ihl h.2.1 j hj
    · subst hj
      exact lt_of_cell h.1
    · exact ihr h.2.2 j hj

theorem RepPath_addr_lt {s : List (avl_tree_node T)} {c : List (Frame T)} {child : Ptr}
    (h : RepPath s c child) : ∀ a ∈ path_before c ++ path_after c, a < s.length := by
  induction c generalizing child with
  | nil => intro a ha; cases ha
  | cons f c ih =>
    cases f with
    | left g v b r =>
      intro j hj
      simp only [path_before, path_after, Frame.before, Frame.after, List.append_nil,
        List.mem_append, List.mem_cons] at hj
      rcases hj with hj | (hj | hj) | hj
      · exact ih h.2.2 j (List.mem_append.mpr (Or.inl hj))
      · subst hj
        exact lt_of_cell h.1
      · exact Rep_addr_lt h.2.1 j hj
      · exact ih h.2.2 j (List.mem_append.mpr (Or.inr hj))
    | right l g v b =>
      intro j hj
      simp only [path_before, path_after, Frame.before, Frame.after, List.nil_append,
        List.mem_append, List.mem_cons, List.mem_singleton, List.not_mem_nil, or_false]
        at hj
      rcases hj with (hj | hj | hj) | hj
      · exact ih h.2.2 j (List.mem_append.mpr (Or.inl hj))
      · exact Rep_addr_lt h.2.1 j hj
      · subst hj
        exact lt_of_cell h.1
      · exact ih h.2.2 j (List.mem_append.mpr (Or.inr hj))

theorem nodup_length_le {l : List Nat} {n : Nat} (hnd : l.Nodup) (hlt : ∀ a ∈ l, a < n) :
    l.length ≤ n := by
  have h1 : l.toFinset ⊆ Finset.range n := by
    intro a ha
    simp only [List.mem_toFinset] at ha
    simpa using hlt a ha
  have h2 := Finset.card_le_card h1
  rwa [List.toFinset_card_of_nodup hnd, Finset.card_range] at h2

theorem path_length_le (c : List (Frame T)) :
    c.length ≤ (path_before c ++ path_after c).length := by
  induction c with
  | nil => simp
  | cons f c ih =>
    cases f <;>
      simp only [path_before, path_after, Frame.before, Frame.after, List.length_append,
        List.length_cons, List.length_nil] at ih ⊢ <;> omega

theorem height_le_length (S : Shape T) : S.height ≤ S.addrs.length := by
  induction S with
  | nil => simp [Shape.height]
  | node l a v b r ihl ihr =>
    simp only [Shape.height, Shape.addrs, List.length_append, List.length_cons]
    omega

theorem Lays.addr_lt {t : avl_tree T} {c : List (Frame T)} {sub : Shape T} (h : Lays t c sub) :
    ∀ a ∈ path_before c ++ sub.addrs ++ path_after c, a < t.store.length := by
  intro a ha
  simp only [List.mem_append] at ha
  rcases ha with (ha | ha) | ha
  · exact RepPath_addr_lt h.path_ok a (List.mem_append.mpr (Or.inl ha))
  · exact Rep_addr_lt h.sub_ok a ha
  · exact RepPath_addr_lt h.path_ok a (List.mem_append.mpr (Or.inr ha))

theorem Lays.budget {t : avl_tree T} {c : List (Frame T)} {sub : Shape T} (h : Lays t c sub) :
    c.length + sub.height ≤ t.store.length := by
  have h1 := nodup_length_le h.distinct h.addr_lt
  have h2 := path_length_le c
  have h3 := height_le_length sub
  simp only [List.length_append] at h1 h2
  omega

/-! ## Allocating and attaching the new leaf -/

theorem cell_append_lt {s : List (avl_tree_node T)} {a : Nat} (x : avl_tree_node T)
    (h : a < s.length) : (s ++ [x])[a]? = s[a]? :=
  List.getElem?_append_left h

theorem Rep_append {s : List (avl_tree_node T)} {par : Ptr} {S : Shape T}
    (x : avl_tree_node T) (h : Rep s par S) : Rep (s ++ [x]) par S :=
  Rep_congr h (fun a ha => cell_append_lt x (Rep_addr_lt h a ha))

theorem RepPath_append {s : List (avl_tree_node T)} {c : List (Frame T)} {child : Ptr}
    (x : avl_tree_node T) (h : RepPath s c child) : RepPath (s ++ [x]) c child :=
  RepPath_congr h (fun a ha => cell_append_lt x (RepPath_addr_lt h a ha))

/-- The statements `*child_link = n; n->parent = parent;` on the tree with the new node
allocated at the next free address. -/
theorem attach_lays {t : avl_tree T} {c : List (Frame T)} (h : Lays t c Shape.nil) (v : T) :
    ∃ t2, (set_link (new_node t v).1 (path_link c) (some t.store.length)).bind
        (fun t1 => set_parent t1 (some t.store.length) (path_parent c)) = some t2
      ∧ Lays t2 c (Shape.node Shape.nil t.store.length v 0 Shape.nil)
      ∧ t2.minimum = t.minimum ∧ t2.maximum = t.maximum ∧ t2.node_count = t.node_count
      ∧ t2.store.length = t.store.length + 1 := by
  have hlt := h.addr_lt
  have hnd := h.distinct
  have hn : ∀ a ∈ path_before c ++ path_after c, a ≠ t.store.length := by
    intro a ha e
    have := hlt a (by
      simp only [Shape.addrs, List.append_nil]
      exact ha)
    omega
  have hnew : ((new_node t v).1.store)[t.store.length]? =
      some { value := v, parent := none, left := none, right := none, balance := 0 } := by
    simp only [new_node]
    exact List.getElem?_concat_length _ _
  have hnd' : (path_before c ++ (Shape.node Shape.nil t.store.length v 0
      (Shape.nil : Shape T)).addrs ++ path_after c).Nodup := by
    simp only [Shape.addrs, List.append_nil, List.nil_append] at hnd ⊢
    rw [List.nodup_iff_count_le_one] at hnd ⊢
    intro a
    have h1 := hnd a
    simp only [List.count_append, List.count_cons, List.count_nil, beq_iff_eq] at h1 ⊢
    by_cases e : t.store.length = a
    · have h2 : a ∉ path_before c ++ path_after c := fun hm => hn a hm e.symm
      simp only [List.mem_append, not_or] at h2
      have := List.count_eq_zero.mpr h2.1
      have := List.count_eq_zero.mpr h2.2
      simp only [e, if_true]
      omega
    · simp only [e, if_false]
      omega
  have hpath0 : RepPath (new_node t v).1.store c none := RepPath_append _ h.path_ok
  cases c with
  | nil =>
    refine ⟨{ (new_node t v).1 with
        store := (new_node t v).1.store.set t.store.length
          (avl_tree_node.mk v none none none 0), root := some t.store.length }, ?_,
      ⟨trivial, ⟨?_, trivial, trivial⟩, rfl, hnd'⟩, rfl, rfl, rfl, ?_⟩
    · simp only [path_link, set_link, path_parent, Option.bind_eq_bind, Option.some_bind,
        set_parent, wr_def, hnew, Option.map_some']
    · simp only [cell_set_same, hnew, Option.map_some', path_parent, Shape.ptr]
    · simp [new_node]
  | cons f c =>
    cases f with
    | left g vg bg r =>
      obtain ⟨hg, hr, hc⟩ := hpath0
      have hgn : g ≠ t.store.length := hn g (by
        simp [path_before, path_after, Frame.before, Frame.after])
      have key : ∀ j, (path_before c).count j + (if g = j then 1 else 0) + r.addrs.count j
          + (path_after c).count j ≤ 1 := by
        intro j
        have := List.nodup_iff_count_le_one.mp hnd j
        simp only [path_before, path_after, Frame.before, Frame.after, Shape.addrs,
          List.count_append, List.count_cons, List.count_nil, beq_iff_eq] at this
        omega
      have kg := key g
      simp only [if_true] at kg
      have kn : ∀ j, j ∈ path_before c ∨ j ∈ r.addrs ∨ j ∈ path_after c →
          j ≠ t.store.length := by
        intro j hj
        refine hn j ?_
        simp only [path_before, path_after, Frame.before, Frame.after, List.append_nil,
          List.mem_append, List.mem_cons]
        tauto
      refine ⟨{ (new_node t v).1 with
          store := ((new_node t v).1.store.set g
            (avl_tree_node.mk vg (path_parent c) (some t.store.length) r.ptr bg)).set
              t.store.length (avl_tree_node.mk v (some g) none none 0) }, ?_,
        ⟨⟨?_, ?_, ?_⟩, ⟨?_, trivial, trivial⟩, h.root_ok, hnd'⟩, rfl, rfl, rfl, ?_⟩
      · simp only [path_link, Frame.link, set_link, path_parent, Frame.addr,
          Option.bind_eq_bind, set_left, set_parent, wr_def, hg, Option.map_some',
          Option.some_bind, cell_set_other _ hgn, hnew]
      · simp only [cell_set_other _ hgn.symm, cell_set_same, hg, Option.map_some', Shape.ptr]
      · refine Rep_set _ (Rep_set _ hr (not_mem_of_count (by omega))) ?_
        intro hm
        exact kn _ (Or.inr (Or.inl hm)) rfl
      · refine RepPath_set _ (RepPath_set _ hc ?_) ?_
        · simp only [List.mem_append, not_or]
          exact ⟨not_mem_of_count (by omega), not_mem_of_count (by omega)⟩
        · simp only [List.mem_append, not_or]
          exact ⟨fun hm => kn _ (Or.inl hm) rfl, fun hm => kn _ (Or.inr (Or.inr hm)) rfl⟩
      · simp only [cell_set_same, cell_set_other _ hgn, hnew, Option.map_some', path_parent,
          Frame.addr, Shape.ptr]
      · simp [new_node]
    | right l g vg bg =>
      obtain ⟨hg, hl, hc⟩ := hpath0
      have hgn : g ≠ t.store.length := hn g (by
        simp [path_before, path_after, Frame.before, Frame.after])
      have key : ∀ j, (path_before c).count j + (if g = j then 1 else 0) + l.addrs.count j
          + (path_after c).count j ≤ 1 := by
        intro j
        have := List.nodup_iff_count_le_one.mp hnd j
        simp only [path_before, path_after, Frame.before, Frame.after, Shape.addrs,
          List.count_append, List.count_cons, List.count_nil, beq_iff_eq] at this
        omega
      have kg := key g
      simp only [if_true] at kg
      have kn : ∀ j, j ∈ path_before c ∨ j ∈ l.addrs ∨ j ∈ path_after c →
          j ≠ t.store.length := by
        intro j hj
        refine hn j ?_
        simp only [path_before, path_after, Frame.before, Frame.after, List.nil_append,
          List.mem_append, List.mem_cons, List.mem_singleton, List.not_mem_nil, or_false]
        tauto
      refine ⟨{ (new_node t v).1 with
          store := ((new_node t v).1.store.set g
            (avl_tree_node.mk vg (path_parent c) l.ptr (some t.store.length) bg)).set
              t.store.length (avl_tree_node.mk v (some g) none none 0) }, ?_,
        ⟨⟨?_, ?_, ?_⟩, ⟨?_, trivial, trivial⟩, h.root_ok, hnd'⟩, rfl, rfl, rfl, ?_⟩
      · simp only [path_link, Frame.link, set_link, path_parent, Frame.addr,
          Option.bind_eq_bind, set_right, set_parent, wr_def, hg, Option.map_some',
          Option.some_bind, cell_set_other _ hgn, hnew]
      · simp only [cell_set_other _ hgn.symm, cell_set_same, hg, Option.map_some', Shape.ptr]
      · refine Rep_set _ (Rep_set _ hl (not_mem_of_count (by omega))) ?_
        intro hm
        exact kn _ (Or.inr (Or.inl hm)) rfl
      · refine RepPath_set _ (RepPath_set _ hc ?_) ?_
        · simp only [List.mem_append, not_or]
          exact ⟨not_mem_of_count (by omega), not_mem_of_count (by omega)⟩
        · simp only [List.mem_append, not_or]
          exact ⟨fun hm => kn _ (Or.inl hm) rfl, fun hm => kn _ (Or.inr (Or.inr hm)) rfl⟩
      · simp only [cell_set_same, cell_set_other _ hgn, hnew, Option.map_some', path_parent,
          Frame.addr, Shape.ptr]
      · simp [new_node]

/-! ## What the rebalancing walk preserves -/

theorem fix_left_shape_addrs {sub r R : Shape T} {a : Nat} {v : T}
    (h : fix_left_shape sub a v r = some R) :
    R.addrs = sub.addrs ++ a :: r.addrs ∧ R.keys = sub.keys ++ v :: r.keys := by
  cases sub with
  | nil => cases h
  | node sl sa sv sb sr =>
    simp only [fix_left_shape] at h
    by_cases hsb : sb = -1
    · simp only [hsb, if_true, Option.some.injEq] at h
      subst h
      simp [Shape.addrs, Shape.keys]
    · simp only [hsb, if_false] at h
      cases sr with
      | nil => cases h
      | node pl pa pv pb pr =>
        simp only [Option.some.injEq] at h
        subst h
        simp [Shape.addrs, Shape.keys]

theorem fix_right_shape_addrs {sub l R : Shape T} {a : Nat} {v : T}
    (h : fix_right_shape l a v sub = some R) :
    R.addrs = l.addrs ++ a :: sub.addrs ∧ R.keys = l.keys ++ v :: sub.keys := by
  cases sub with
  | nil => cases h
  | node sl sa sv sb sr =>
    simp only [fix_right_shape] at h
    by_cases hsb : sb = 1
    · simp only [hsb, if_true, Option.some.injEq] at h
      subst h
      simp [Shape.addrs, Shape.keys]
    · simp only [hsb, if_false] at h
      cases sl with
      | nil => cases h
      | node pl pa pv pb pr =>
        simp only [Option.some.injEq] at h
        subst h
        simp [Shape.addrs, Shape.keys]

theorem rebalance_walk_addrs (c : List (Frame T)) :
    ∀ (sub R : Shape T), rebalance_walk c sub = some R →
      R.addrs = path_before c ++ sub.addrs ++ path_after c
        ∧ R.keys = path_keys_before c ++ sub.keys ++ path_keys_after c := by
  induction c with
  | nil =>
    intro sub R h
    simp only [rebalance_walk, Option.some.injEq] at h
    subst h
    simp [path_before, path_after, path_keys_before, path_keys_after]
  | cons f c ih =>
    intro sub R h
    cases f with
    | left a v b r =>
      simp only [rebalance_walk] at h
      by_cases hb0 : b - 1 = 0
      · simp only [hb0, if_true, Option.some.injEq] at h
        subst h
        simp [plug_addrs, plug_keys, Shape.addrs, Shape.keys, path_before, path_after,
          path_keys_before, path_keys_after, Frame.before, Frame.after, Frame.keys_before,
          Frame.keys_after]
      · simp only [hb0, if_false] at h
        by_cases hb1 : b - 1 > 1
        · simp [hb1] at h
        · simp only [hb1, if_false] at h
          by_cases hb2 : b - 1 < -1
          · simp only [hb2, if_true, Option.map_eq_some'] at h
            obtain ⟨R', hR', rfl⟩ := h
            obtain ⟨e1, e2⟩ := fix_left_shape_addrs hR'
            simp [plug_addrs, plug_keys, e1, e2, path_before, path_after,
              path_keys_before, path_keys_after, Frame.before, Frame.after,
              Frame.keys_before, Frame.keys_after]
          · simp only [hb2, if_false] at h
            obtain ⟨e1, e2⟩ := ih _ _ h
            simp [e1, e2, Shape.addrs, Shape.keys, path_before, path_after,
              path_keys_before, path_keys_after, Frame.before, Frame.after,
              Frame.keys_before, Frame.keys_after]
    | right l a v b =>
      simp only [rebalance_walk] at h
      by_cases hb0 : b + 1 = 0
      · simp only [hb0, if_true, Option.some.injEq] at h
        subst h
        simp [plug_addrs, plug_keys, Shape.addrs, Shape.keys, path_before, path_after,
          path_keys_before, path_keys_after, Frame.before, Frame.after, Frame.keys_before,
          Frame.keys_after]
      · simp only [hb0, if_false] at h
        by_cases hb1 : b + 1 > 1
        · simp only [hb1, if_true, Option.map_eq_some'] at h
          obtain ⟨R', hR', rfl⟩ := h
          obtain ⟨e1, e2⟩ := fix_right_shape_addrs hR'
          simp [plug_addrs, plug_keys, e1, e2, path_before, path_after,
            path_keys_before, path_keys_after, Frame.before, Frame.after,
            Frame.keys_before, Frame.keys_after]
        · simp only [hb1, if_false] at h
          by_cases hb2 : b + 1 < -1
          · simp [hb2] at h
          · simp only [hb2, if_false] at h
            obtain ⟨e1, e2⟩ := ih _ _ h
            simp [e1, e2, Shape.addrs, Shape.keys, path_before, path_after,
              path_keys_before, path_keys_after, Frame.before, Frame.after,
              Frame.keys_before, Frame.keys_after]

/-! ## Spines: the child link of the old extreme node -/

theorem path_before_nil {f : Frame T} {c : List (Frame T)} (h : path_before (f :: c) = []) :
    (∃ a v b r, f = Frame.left a v b r) ∧ path_before c = [] := by
  simp only [path_before, List.append_eq_nil] at h
  cases f with
  | left a v b r => exact ⟨⟨a, v, b, r, rfl⟩, h.1⟩
  | right l a v b => simp [Frame.before] at h

theorem path_after_nil {f : Frame T} {c : List (Frame T)} (h : path_after (f :: c) = []) :
    (∃ l a v b, f = Frame.right l a v b) ∧ path_after c = [] := by
  simp only [path_after, List.append_eq_nil] at h
  cases f with
  | left a v b r => simp [Frame.after] at h
  | right l a v b => exact ⟨⟨l, a, v, b, rfl⟩, h.2⟩

theorem left_spine_plug (c : List (Frame T)) :
    ∀ (X : Shape T), path_before c = [] → X.left_spine <:+ (plug c X).left_spine := by
  induction c with
  | nil =>
    intro X _
    exact List.suffix_refl _
  | cons f c ih =>
    intro X h
    obtain ⟨⟨a, v, b, r, rfl⟩, hc⟩ := path_before_nil h
    simp only [plug, Frame.fill]
    exact (List.suffix_cons a _).trans (ih (Shape.node X a v b r) hc)

theorem right_spine_plug (c : List (Frame T)) :
    ∀ (X : Shape T), path_after c = [] → X.right_spine <:+ (plug c X).right_spine := by
  induction c with
  | nil =>
    intro X _
    exact List.suffix_refl _
  | cons f c ih =>
    intro X h
    obtain ⟨⟨l, a, v, b, rfl⟩, hc⟩ := path_after_nil h
    simp only [plug, Frame.fill]
    exact (List.suffix_cons a _).trans (ih (Shape.node l a v b X) hc)

theorem fix_left_shape_spine {sub r R : Shape T} {a : Nat} {v : T}
    (h : fix_left_shape sub a v r = some R) : sub.left_spine <:+ R.left_spine := by
  cases sub with
  | nil => cases h
  | node sl sa sv sb sr =>
    simp only [fix_left_shape] at h
    by_cases hsb : sb = -1
    · simp only [hsb, if_true, Option.some.injEq] at h
      subst h
      exact List.suffix_refl _
    · simp only [hsb, if_false] at h
      cases sr with
      | nil => cases h
      | node pl pa pv pb pr =>
        simp only [Option.some.injEq] at h
        subst h
        exact List.suffix_cons _ _

theorem fix_right_shape_spine {sub l R : Shape T} {a : Nat} {v : T}
    (h : fix_right_shape l a v sub = some R) : sub.right_spine <:+ R.right_spine := by
  cases sub with
  | nil => cases h
  | node sl sa sv sb sr =>
    simp only [fix_right_shape] at h
    by_cases hsb : sb = 1
    · simp only [hsb, if_true, Option.some.injEq] at h
      subst h
      exact List.suffix_refl _
    · simp only [hsb, if_false] at h
      cases sl with
      | nil => cases h
      | node pl pa pv pb pr =>
        simp only [Option.some.injEq] at h
        subst h
        exact List.suffix_cons _ _

theorem walk_left_spine (c : List (Frame T)) :
    ∀ (sub R : Shape T), path_before c = [] → rebalance_walk c sub = some R →
      sub.left_spine <:+ R.left_spine := by
  induction c with
  | nil =>
    intro sub R _ h
    simp only [rebalance_walk, Option.some.injEq] at h
    subst h
    exact List.suffix_refl _
  | cons f c ih =>
    intro sub R hb h
    obtain ⟨⟨a, v, b, r, rfl⟩, hc⟩ := path_before_nil hb
    simp only [rebalance_walk] at h
    by_cases hb0 : b - 1 = 0
    · simp only [hb0, if_true, Option.some.injEq] at h
      subst h
      exact (List.suffix_cons a _).trans (left_spine_plug c (Shape.node sub a v 0 r) hc)
    · simp only [hb0, if_false] at h
      by_cases hb1 : b - 1 > 1
      · simp [hb1] at h
      · simp only [hb1, if_false] at h
        by_cases hb2 : b - 1 < -1
        · simp only [hb2, if_true, Option.map_eq_some'] at h
          obtain ⟨R', hR', rfl⟩ := h
          exact (fix_left_shape_spine hR').trans (left_spine_plug c _ hc)
        · simp only [hb2, if_false] at h
          exact (List.suffix_cons a _).trans (ih _ _ hc h)

theorem walk_right_spine (c : List (Frame T)) :
    ∀ (sub R : Shape T), path_after c = [] → rebalance_walk c sub = some R →
      sub.right_spine <:+ R.right_spine := by
  induction c with
  | nil =>
    intro sub R _ h
    simp only [rebalance_walk, Option.some.injEq] at h
    subst h
    exact List.suffix_refl _
  | cons f c ih =>
    intro sub R hb h
    obtain ⟨⟨l, a, v, b, rfl⟩, hc⟩ := path_after_nil hb
    simp only [rebalance_walk] at h
    by_cases hb0 : b + 1 = 0
    · simp only [hb0, if_true, Option.some.injEq] at h
      subst h
      exact (List.suffix_cons a _).trans (right_spine_plug c (Shape.node l a v 0 sub) hc)
    · simp only [hb0, if_false] at h
      by_cases hb1 : b + 1 > 1
      · simp only [hb1, if_true, Option.map_eq_some'] at h
        obtain ⟨R', hR', rfl⟩ := h
        exact (fix_right_shape_spine hR').trans (right_spine_plug c _ hc)
      · simp only [hb1, if_false] at h
        by_cases hb2 : b + 1 < -1
        · simp [hb2] at h
        · simp only [hb2, if_false] at h
          exact (List.suffix_cons a _).trans (ih _ _ hc h)

/-- After the walk from a leaf attached to the left of `m` along a path of left slots only,
`m` still precedes the leaf on the left spine. -/
theorem walk_left_spine_leaf {c : List (Frame T)} {m n : Nat} {v w : T} {b : Int}
    {r R : Shape T} (hc : path_before c = [])
    (h : rebalance_walk (Frame.left m w b r :: c)
      (Shape.node Shape.nil n v 0 Shape.nil) = some R) :
    [m, n] <:+ R.left_spine := by
  simp only [rebalance_walk] at h
  by_cases hb0 : b - 1 = 0
  · simp only [hb0, if_true, Option.some.injEq] at h
    subst h
    exact left_spine_plug c (Shape.node (Shape.node Shape.nil n v 0 Shape.nil) m w 0 r) hc
  · simp only [hb0, if_false] at h
    by_cases hb1 : b - 1 > 1
    · simp [hb1] at h
    · simp only [hb1, if_false] at h
      by_cases hb2 : b - 1 < -1
      · simp [hb2, fix_left_shape] at h
      · simp only [hb2, if_false] at h
        exact walk_left_spine c _ _ hc h

theorem walk_right_spine_leaf {c : List (Frame T)} {m n : Nat} {v w : T} {b : Int}
    {l R : Shape T} (hc : path_after c = [])
    (h : rebalance_walk (Frame.right l m w b :: c)
      (Shape.node Shape.nil n v 0 Shape.nil) = some R) :
    [m, n] <:+ R.right_spine := by
  simp only [rebalance_walk] at h
  by_cases hb0 : b + 1 = 0
  · simp only [hb0, if_true, Option.some.injEq] at h
    subst h
    exact right_spine_plug c (Shape.node l m w 0 (Shape.node Shape.nil n v 0 Shape.nil)) hc
  · simp only [hb0, if_false] at h
    by_cases hb1 : b + 1 > 1
    · simp [hb1, fix_right_shape] at h
    · simp only [hb1, if_false] at h
      by_cases hb2 : b + 1 < -1
      · simp [hb2] at h
      · simp only [hb2, if_false] at h
        exact walk_right_spine c _ _ hc h

theorem Rep_left_spine {s : List (avl_tree_node T)} {m n : Nat} (R : Shape T) :
    ∀ (par : Ptr), Rep s par R → [m, n] <:+ R.left_spine →
      ∃ cell, s[m]? = some cell ∧ cell.left = some n := by
  induction R with
  | nil =>
    intro par _ h
    simp [Shape.left_spine] at h
  | node l a v b r ihl _ =>
    intro par h hs
    simp only [Shape.left_spine] at hs
    rcases List.suffix_cons_iff.mp hs with e | hs'
    · simp only [List.cons.injEq] at e
      obtain ⟨rfl, e2⟩ := e
      refine ⟨_, h.1, ?_⟩
      cases l with
      | nil => simp [Shape.left_spine] at e2
      | node ll la lv lb lr =>
        simp only [Shape.left_spine, List.cons.injEq] at e2
        simp [Shape.ptr, e2.1]
    · exact ihl _ h.2.1 hs'

theorem Rep_right_spine {s : List (avl_tree_node T)} {m n : Nat} (R : Shape T) :
    ∀ (par : Ptr), Rep s par R → [m, n] <:+ R.right_spine →
      ∃ cell, s[m]? = some cell ∧ cell.right = some n := by
  induction R with
  | nil =>
    intro par _ h
    simp [Shape.right_spine] at h
  | node l a v b r _ ihr =>
    intro par h hs
    simp only [Shape.right_spine] at hs
    rcases List.suffix_cons_iff.mp hs with e | hs'
    · simp only [List.cons.injEq] at e
      obtain ⟨rfl, e2⟩ := e
      refine ⟨_, h.1, ?_⟩
      cases r with
      | nil => simp [Shape.right_spine] at e2
      | node rl ra rv rb rr =>
        simp only [Shape.right_spine, List.cons.injEq] at e2
        simp [Shape.ptr, e2.1]
    · exact ihr _ h.2.2 hs'

/-! ## `insert_node` on a laid-out tree -/

theorem attach_lays_steps {t : avl_tree T} {c : List (Frame T)} (h : Lays t c Shape.nil)
    (v : T) :
    ∃ ta t2, set_link (new_node t v).1 (path_link c) (some t.store.length) = some ta
      ∧ set_parent ta (some t.store.length) (path_parent c) = some t2
      ∧ Lays t2 c (Shape.node Shape.nil t.store.length v 0 Shape.nil)
      ∧ t2.minimum = t.minimum ∧ t2.maximum = t.maximum ∧ t2.node_count = t.node_count
      ∧ t2.store.length = t.store.length + 1 := by
  obtain ⟨t2, e, rest⟩ := attach_lays h v
  obtain ⟨ta, ea, e2⟩ := Option.bind_eq_some.mp e
  exact ⟨ta, t2, ea, e2, rest⟩

theorem Lays_new_node {t : avl_tree T} {c : List (Frame T)} {sub : Shape T} (v : T)
    (h : Lays t c sub) : Lays (new_node t v).1 c sub :=
  ⟨RepPath_append _ h.path_ok, Rep_append _ h.sub_ok, h.root_ok, h.distinct⟩

theorem Lays_of_store_root {t t' : avl_tree T} {c : List (Frame T)} {sub : Shape T}
    (h : Lays t c sub) (hs : t'.store = t.store) (hr : t'.root = t.root) : Lays t' c sub :=
  ⟨hs ▸ h.path_ok, hs ▸ h.sub_ok, hr.trans h.root_ok, h.distinct⟩

theorem frame_link_left {f : Frame T} {m : Nat} (h : f.link = Link.left_link m) :
    ∃ v b r, f = Frame.left m v b r := by
  cases f with
  | left a v b r =>
    simp only [Frame.link, Link.left_link.injEq] at h
    subst h
    exact ⟨v, b, r, rfl⟩
  | right l a v b => simp [Frame.link] at h

theorem frame_link_right {f : Frame T} {m : Nat} (h : f.link = Link.right_link m) :
    ∃ l v b, f = Frame.right l m v b := by
  cases f with
  | left a v b r => simp [Frame.link] at h
  | right l a v b =>
    simp only [Frame.link, Link.right_link.injEq] at h
    subst h
    exact ⟨l, v, b, rfl⟩

/-- The slot reached is the left slot of the first node in order exactly when nothing
precedes the slot. -/
theorem min_link_iff {f : Frame T} {c : List (Frame T)} {m : Nat}
    (hnd : (path_before (f :: c) ++ path_after (f :: c)).Nodup)
    (hm : (path_before (f :: c) ++ path_after (f :: c)).head? = some m) :
    path_link (f :: c) = Link.left_link m ↔ path_before (f :: c) = [] := by
  constructor
  · intro hl
    obtain ⟨v, b, r, rfl⟩ := frame_link_left hl
    by_contra hne
    have h1 : m ∈ path_before (Frame.left m v b r :: c) := by
      rcases hp : path_before (Frame.left m v b r :: c) with _ | ⟨x, xs⟩
      · exact absurd hp hne
      · rw [hp] at hm
        simp only [List.cons_append, List.head?_cons, Option.some.injEq] at hm
        rw [← hm, ← hp]
        rw [hp]
        exact List.mem_cons_self _ _
    have h2 : m ∈ path_after (Frame.left m v b r :: c) := by
      simp [path_after, Frame.after]
    have := List.nodup_iff_count_le_one.mp hnd m
    have := one_le_count h1
    have := one_le_count h2
    simp only [List.count_append] at *
    omega
  · intro hb
    obtain ⟨⟨a, v, b, r, rfl⟩, _⟩ := path_before_nil hb
    rw [hb] at hm
    simp only [path_after, Frame.after, List.nil_append, List.cons_append, List.head?_cons,
      Option.some.injEq] at hm
    subst hm
    rfl

/-- The slot reached is the right slot of the last node in order exactly when nothing follows
the slot. -/
theorem max_link_iff {f : Frame T} {c : List (Frame T)} {m : Nat}
    (hnd : (path_before (f :: c) ++ path_after (f :: c)).Nodup)
    (hm : (path_before (f :: c) ++ path_after (f :: c)).getLast? = some m) :
    path_link (f :: c) = Link.right_link m ↔ path_after (f :: c) = [] := by
  constructor
  · intro hl
    obtain ⟨l, v, b, rfl⟩ := frame_link_right hl
    by_contra hne
    have h1 : m ∈ path_after (Frame.right l m v b :: c) := by
      have := List.getLast?_append_of_ne_nil (path_before (Frame.right l m v b :: c)) hne
      rw [this] at hm
      exact List.mem_of_getLast?_eq_some hm
    have h2 : m ∈ path_before (Frame.right l m v b :: c) := by
      simp [path_before, Frame.before]
    have := List.nodup_iff_count_le_one.mp hnd m
    have := one_le_count h1
    have := one_le_count h2
    simp only [List.count_append] at *
    omega
  · intro hb
    obtain ⟨⟨l, a, v, b, rfl⟩, _⟩ := path_after_nil hb
    rw [hb] at hm
    simp only [path_before, Frame.before, List.append_nil, ← List.append_assoc,
      List.getLast?_append, List.getLast?_singleton] at hm
    have hm' : some a = some m := by simpa [Option.or] using hm
    simp only [Option.some.injEq] at hm'
    subst hm'
    rfl

theorem descend_root (compare : T → T → Bool) (v w : T) {t : avl_tree T} {S : Shape T}
    (h : Lays t [] S) :
    descend compare (new_node t w).1 v ((new_node t w).1.store.length + 1)
        (new_node t w).1.root none Link.root_link
      = some (match locate compare v S [] with
          | Sum.inl a => Sum.inl (some a)
          | Sum.inr c' => Sum.inr (path_parent c', path_link c')) := by
  have L1 := Lays_new_node w h
  have hb := L1.budget
  simp only [List.length_nil, Nat.zero_add] at hb
  have := descend_sim compare v S [] ((new_node t w).1.store.length + 1) L1 (by omega)
  have e := L1.root_ok
  simp only [path_root] at e
  rw [e]
  exact this

/-- The run of `insert_node` for a value that has an equivalent in the tree: the early
`return current`, with the tree untouched. -/
theorem insert_node_found (compare : T → T → Bool) {t : avl_tree T} {S : Shape T} {v : T}
    {a : Nat} (hl : Lays t [] S) (hloc : locate compare v S [] = Sum.inl a) :
    insert_node compare (new_node t v).1 (some t.store.length)
      = some ((new_node t v).1, some a) := by
  have hv : value_of (new_node t v).1 (some t.store.length) = some v := by
    simp only [value_of_def, new_node, List.getElem?_concat_length, Option.map_some']
  have hd := descend_root compare v v hl
  rw [hloc] at hd
  simp only [insert_node, hv, Option.bind_eq_bind, Option.some_bind, hd]

/-- The run of `insert_node` for a value with no equivalent in the tree. -/
theorem insert_node_fresh (compare : T → T → Bool) {t : avl_tree T} {S R : Shape T} {v : T}
    {c : List (Frame T)} (hl : Lays t [] S) (hmin : t.minimum = S.addrs.head?)
    (hmax : t.maximum = S.addrs.getLast?) (hloc : locate compare v S [] = Sum.inr c)
    (hR : rebalance_walk c (Shape.node Shape.nil t.store.length v 0 Shape.nil) = some R) :
    ∃ t', insert_node compare (new_node t v).1 (some t.store.length)
        = some (t', some t.store.length)
      ∧ Lays t' [] R ∧ t'.minimum = R.addrs.head? ∧ t'.maximum = R.addrs.getLast?
      ∧ t'.node_count = t.node_count + 1 ∧ t'.store.length = t.store.length + 1 := by
  have hv : value_of (new_node t v).1 (some t.store.length) = some v := by
    simp only [value_of_def, new_node, List.getElem?_concat_length, Option.map_some']
  have hd := descend_root compare v v hl
  rw [hloc] at hd
  have Lc : Lays t c Shape.nil := locate_lays compare v S [] c hl hloc
  have hS : S.addrs = path_before c ++ path_after c := by
    have := locate_plug compare v S [] c hloc
    simp only [plug] at this
    rw [← this, plug_addrs]
    simp [Shape.addrs]
  obtain ⟨hRa, -⟩ := rebalance_walk_addrs c _ _ hR
  simp only [Shape.addrs, List.append_nil, List.nil_append] at hRa
  obtain ⟨ta, t2, ea, e2, L2, m2, M2, n2, len2⟩ := attach_lays_steps Lc v
  simp only [insert_node, hv, Option.bind_eq_bind, Option.some_bind, hd, ea, e2]
  have hnd : (path_before c ++ path_after c).Nodup := by
    have := Lc.distinct
    simpa [Shape.addrs] using this
  cases c with
  | nil =>
    simp only [path_parent, if_true]
    simp only [rebalance_walk, Option.some.injEq] at hR
    subst hR
    have L3 : Lays { t2 with minimum := some t.store.length, maximum := some t.store.length }
        [] (Shape.node Shape.nil t.store.length v 0 Shape.nil) :=
      Lays_of_store_root L2 rfl rfl
    simp only [rebalance_from, L3.parent_of, path_parent, Option.bind_eq_bind,
      Option.some_bind, rebalance_loop, if_true, left_link_of, right_link_of,
      Option.map_some', path_link, reduceCtorEq, if_false]
    exact ⟨_, rfl, Lays_of_store_root L2 rfl rfl, by simp [Shape.addrs],
      by simp [Shape.addrs], n2 ▸ rfl, len2⟩
  | cons f c =>
    have hpp : path_parent (f :: c) ≠ none := by simp [path_parent]
    simp only [hpp, if_false]
    have hb := L2.budget
    simp only [Shape.height] at hb
    obtain ⟨t4, e4, L4, S4⟩ := rebalance_loop_sim (f :: c) _ R t2 (t2.store.length + 1) L2
      (by simp [Shape.ptr]) (by omega) hR
    simp only [Shape.ptr] at e4
    simp only [rebalance_from, L2.parent_of, Option.bind_eq_bind, Option.some_bind, e4]
    obtain ⟨hmin4, hmax4, hcnt4, hlen4⟩ := S4
    have hne : path_before (f :: c) ++ path_after (f :: c) ≠ [] := by
      cases f <;> simp [path_before, path_after, Frame.before, Frame.after]
    obtain ⟨m, hm⟩ : ∃ m, (path_before (f :: c) ++ path_after (f :: c)).head? = some m := by
      rcases hx : path_before (f :: c) ++ path_after (f :: c) with _ | ⟨x, xs⟩
      · exact absurd hx hne
      · exact ⟨x, rfl⟩
    obtain ⟨M, hM⟩ : ∃ M, (path_before (f :: c) ++ path_after (f :: c)).getLast? = some M := by
      refine ⟨(path_before (f :: c) ++ path_after (f :: c)).getLast hne, ?_⟩
      exact List.getLast?_eq_getLast _ hne
    have hmin' : t4.minimum = some m := by rw [hmin4, m2, hmin, hS, hm]
    have hmax' : t4.maximum = some M := by rw [hmax4, M2, hmax, hS, hM]
    simp only [hmin', hmax', left_link_of, right_link_of, Option.map_some', Option.some_bind]
    by_cases hlm : path_link (f :: c) = Link.left_link m
    · have hpb := (min_link_iff hnd hm).mp hlm
      obtain ⟨w, b, r, rfl⟩ := frame_link_left hlm
      obtain ⟨-, hc⟩ := path_before_nil hpb
      obtain ⟨cell, hcell, hleft⟩ :=
        Rep_left_spine R none L4.sub_ok (walk_left_spine_leaf hc hR)
      simp only [hlm, if_true, left_of_def, hcell, Option.map_some', Option.some_bind, hleft]
      refine ⟨_, rfl, Lays_of_store_root L4 rfl rfl, ?_, ?_, ?_, ?_⟩
      · simp [hRa, hpb]
      · show some M = _
        rw [hRa, ← hM, hpb]
        simp [path_after, Frame.after]
      · show t4.node_count + 1 = _
        rw [hcnt4, n2]
      · show t4.store.length = _
        rw [hlen4, len2]
    · have hpb : path_before (f :: c) ≠ [] := fun e => hlm ((min_link_iff hnd hm).mpr e)
      simp only [hlm, if_false]
      by_cases hrm : path_link (f :: c) = Link.right_link M
      · have hpa := (max_link_iff hnd hM).mp hrm
        obtain ⟨l, w, b, rfl⟩ := frame_link_right hrm
        obtain ⟨-, hc⟩ := path_after_nil hpa
        obtain ⟨cell, hcell, hright⟩ :=
          Rep_right_spine R none L4.sub_ok (walk_right_spine_leaf hc hR)
        simp only [hrm, if_true, right_of_def, hcell, Option.map_some', Option.some_bind,
          hright]
        refine ⟨_, rfl, Lays_of_store_root L4 rfl rfl, ?_, ?_, ?_, ?_⟩
        · show some m = _
          rw [hRa, ← hm, hpa]
          simp [List.head?_append_of_ne_nil _ hpb]
        · simp [hRa, hpa]
        · show t4.node_count + 1 = _
          rw [hcnt4, n2]
        · show t4.store.length = _
          rw [hlen4, len2]
      · have hpa : path_after (f :: c) ≠ [] := fun e => hrm ((max_link_iff hnd hM).mpr e)
        simp only [hrm, if_false]
        refine ⟨_, rfl, Lays_of_store_root L4 rfl rfl, ?_, ?_, ?_, ?_⟩
        · show some m = _
          rw [hRa, ← hm]
          simp [List.head?_append_of_ne_nil _ hpb]
        · show some M = _
          rw [hRa, ← hM, List.getLast?_append_of_ne_nil _ hpa,
            List.getLast?_append_of_ne_nil _ hpa]
        · show t4.node_count + 1 = _
          rw [hcnt4, n2]
        · show t4.store.length = _
          rw [hlen4, len2]

/-! ## The AVL invariant along the rebalancing walk -/

theorem plug_balanced (c : List (Frame T)) :
    ∀ (X : Shape T), (plug c X).Balanced ↔ X.Balanced ∧ PathBalanced c X.height := by
  induction c with
  | nil =>
    intro X
    simp [plug, PathBalanced]
  | cons f c ih =>
    intro X
    cases f with
    | left a v b r =>
      simp only [plug, Frame.fill, ih, Shape.Balanced, PathBalanced, Shape.height]
      tauto
    | right l a v b =>
      simp only [plug, Frame.fill, ih, Shape.Balanced, PathBalanced, Shape.height]
      tauto

theorem fix_left_shape_balanced {sub r : Shape T} {a : Nat} {v : T} {h : Nat}
    (hs : sub.Balanced) (hg : Grown sub) (hh : sub.height = h + 1) (hr : r.Balanced)
    (hrh : (r.height : Int) - (h : Int) = -1) :
    ∃ R, fix_left_shape sub a v r = some R ∧ R.Balanced ∧ R.height = h + 1 := by
  cases sub with
  | nil => cases hg
  | node sl sa sv sb sr =>
    obtain ⟨e, h1, h2, hsl, hsr⟩ := hs
    simp only [Shape.height] at hh
    simp only [Grown] at hg
    have hsb : sb ≠ 0 := by
      rcases hg with hg | ⟨rfl, rfl⟩
      · exact hg
      · simp only [Shape.height] at hh
        omega
    by_cases hm : sb = -1
    · have e0 : fix_left_shape (Shape.node sl sa sv sb sr) a v r
          = some (Shape.node sl sa sv 0 (Shape.node sr a v 0 r)) := by
        simp [fix_left_shape, hm]
      refine ⟨_, e0, ?_, ?_⟩
      · simp only [Shape.Balanced, Shape.height]
        refine ⟨?_, by omega, by omega, hsl, ?_, by omega, by omega, hsr, hr⟩ <;> omega
      · simp only [Shape.height]
        omega
    · have hp : sb = 1 := by omega
      cases sr with
      | nil =>
        simp only [Shape.height] at e
        omega
      | node pl pa pv pb pr =>
        obtain ⟨e', h1', h2', hpl, hpr⟩ := hsr
        simp only [Shape.height] at e hh
        have e0 : fix_left_shape (Shape.node sl sa sv sb (Shape.node pl pa pv pb pr)) a v r
            = some (Shape.node (Shape.node sl sa sv (min 0 (-pb)) pl) pa pv 0
                (Shape.node pr a v (max 0 (-pb)) r)) := by
          simp [fix_left_shape, hm]
        refine ⟨_, e0, ?_, ?_⟩
        · simp only [Shape.Balanced, Shape.height]
          refine ⟨?_, by omega, by omega, ⟨?_, ?_, ?_, hsl, hpl⟩, ?_, ?_, ?_, hpr, hr⟩ <;>
            omega
        · simp only [Shape.height]
          omega

theorem fix_right_shape_balanced {sub l : Shape T} {a : Nat} {v : T} {h : Nat}
    (hs : sub.Balanced) (hg : Grown sub) (hh : sub.height = h + 1) (hl : l.Balanced)
    (hlh : (h : Int) - (l.height : Int) = 1) :
    ∃ R, fix_right_shape l a v sub = some R ∧ R.Balanced ∧ R.height = h + 1 := by
  cases sub with
  | nil => cases hg
  | node sl sa sv sb sr =>
    obtain ⟨e, h1, h2, hsl, hsr⟩ := hs
    simp only [Shape.height] at hh
    simp only [Grown] at hg
    have hsb : sb ≠ 0 := by
      rcases hg with hg | ⟨rfl, rfl⟩
      · exact hg
      · simp only [Shape.height] at hh
        omega
    by_cases hm : sb = 1
    · have e0 : fix_right_shape l a v (Shape.node sl sa sv sb sr)
          = some (Shape.node (Shape.node l a v 0 sl) sa sv 0 sr) := by
        simp [fix_right_shape, hm]
      refine ⟨_, e0, ?_, ?_⟩
      · simp only [Shape.Balanced, Shape.height]
        refine ⟨?_, by omega, by omega, ⟨?_, by omega, by omega, hl, hsl⟩, hsr⟩ <;> omega
      · simp only [Shape.height]
        omega
    · have hp : sb = -1 := by omega
      cases sl with
      | nil =>
        simp only [Shape.height] at e
        omega
      | node pl pa pv pb pr =>
        obtain ⟨e', h1', h2', hpl, hpr⟩ := hsl
        simp only [Shape.height] at e hh
        have e0 : fix_right_shape l a v (Shape.node (Shape.node pl pa pv pb pr) sa sv sb sr)
            = some (Shape.node (Shape.node l a v (min 0 (-pb)) pl) pa pv 0
                (Shape.node pr sa sv (max 0 (-pb)) sr)) := by
          simp [fix_right_shape, hm]
        refine ⟨_, e0, ?_, ?_⟩
        · simp only [Shape.Balanced, Shape.height]
          refine ⟨?_, by omega, by omega, ⟨?_, ?_, ?_, hl, hpl⟩, ?_, ?_, ?_, hpr, hsr⟩ <;>
            omega
        · simp only [Shape.height]
          omega

/-- The rebalancing walk of an insertion runs to completion on an AVL tree and leaves an AVL
tree. -/
theorem rebalance_walk_balanced (c : List (Frame T)) :
    ∀ (sub : Shape T) (h : Nat), PathBalanced c h → sub.Balanced → Grown sub →
      sub.height = h + 1 → ∃ R, rebalance_walk c sub = some R ∧ R.Balanced := by
  induction c with
  | nil =>
    intro sub h _ hs _ _
    exact ⟨sub, rfl, hs⟩
  | cons f c ih =>
    intro sub h hp hs hg hh
    cases f with
    | left a v b r =>
      obtain ⟨e, h1, h2, hr, hc⟩ := hp
      simp only [rebalance_walk]
      by_cases hb0 : b - 1 = 0
      · refine ⟨plug c (Shape.node sub a v 0 r), by simp only [hb0, if_true], ?_⟩
        rw [plug_balanced]
        refine ⟨⟨by omega, by omega, by omega, hs, hr⟩, ?_⟩
        have : (Shape.node sub a v 0 r).height = max h r.height + 1 := by
          simp only [Shape.height]
          omega
        rw [this]
        exact hc
      · simp only [hb0, if_false]
        have hb1 : ¬ b - 1 > 1 := by omega
        simp only [hb1, if_false]
        by_cases hb2 : b - 1 < -1
        · simp only [hb2, if_true]
          obtain ⟨R', e', hR', hh'⟩ := fix_left_shape_balanced (a := a) (v := v) hs hg hh hr
            (by omega)
          refine ⟨plug c R', by simp [e'], ?_⟩
          rw [plug_balanced]
          refine ⟨hR', ?_⟩
          have : R'.height = max h r.height + 1 := by omega
          rw [this]
          exact hc
        · simp only [hb2, if_false]
          refine ih _ (max h r.height + 1) hc ⟨by omega, by omega, by omega, hs, hr⟩
            (Or.inl hb0) ?_
          simp only [Shape.height]
          omega
    | right l a v b =>
      obtain ⟨e, h1, h2, hl, hc⟩ := hp
      simp only [rebalance_walk]
      by_cases hb0 : b + 1 = 0
      · refine ⟨plug c (Shape.node l a v 0 sub), by simp only [hb0, if_true], ?_⟩
        rw [plug_balanced]
        refine ⟨⟨by omega, by omega, by omega, hl, hs⟩, ?_⟩
        have : (Shape.node l a v 0 sub).height = max l.height h + 1 := by
          simp only [Shape.height]
          omega
        rw [this]
        exact hc
      · simp only [hb0, if_false]
        by_cases hb1 : b + 1 > 1
        · simp only [hb1, if_true]
          obtain ⟨R', e', hR', hh'⟩ := fix_right_shape_balanced (a := a) (v := v) hs hg hh hl
            (by omega)
          refine ⟨plug c R', by simp [e'], ?_⟩
          rw [plug_balanced]
          refine ⟨hR', ?_⟩
          have : R'.height = max l.height h + 1 := by omega
          rw [this]
          exact hc
        · simp only [hb1, if_false]
          have hb2 : ¬ b + 1 < -1 := by omega
          simp only [hb2, if_false]
          refine ih _ (max l.height h + 1) hc ⟨by omega, by omega, by omega, hl, hs⟩
            (Or.inl hb0) ?_
          simp only [Shape.height]
          omega

/-! ## The search-tree invariant -/

theorem ordered_of_pairwise (compare : T → T → Bool) (S : Shape T)
    (h : S.keys.Pairwise (fun a b => compare a b = true)) : S.Ordered compare := by
  induction S with
  | nil => trivial
  | node l a v b r ihl ihr =>
    simp only [Shape.keys, List.pairwise_append, List.pairwise_cons, List.mem_cons] at h
    obtain ⟨h1, ⟨h2, h3⟩, h4⟩ := h
    exact ⟨fun x hx => h4 x hx v (Or.inl rfl), h2, ihl h1, ihr h3⟩

theorem pairwise_of_ordered (compare : T → T → Bool)
    (htrans : ∀ a b c, compare a b = true → compare b c = true → compare a c = true)
    (S : Shape T) (h : S.Ordered compare) :
    S.keys.Pairwise (fun a b => compare a b = true) := by
  induction S with
  | nil => exact List.Pairwise.nil
  | node l a v b r ihl ihr =>
    obtain ⟨h1, h2, h3, h4⟩ := h
    simp only [Shape.keys, List.pairwise_append, List.pairwise_cons, List.mem_cons]
    refine ⟨ihl h3, ⟨h2, ihr h4⟩, ?_⟩
    intro x hx y hy
    rcases hy with rfl | hy
    · exact h1 x hx
    · exact htrans x v y (h1 x hx) (h2 y hy)

theorem plug_ordered_keys (compare : T → T → Bool)
    (htrans : ∀ a b c, compare a b = true → compare b c = true → compare a c = true)
    {c : List (Frame T)} {sub : Shape T} (h : (plug c sub).Ordered compare) :
    sub.Ordered compare := by
  have := pairwise_of_ordered compare htrans _ h
  rw [plug_keys] at this
  exact ordered_of_pairwise compare sub
    ((List.pairwise_append.mp (List.pairwise_append.mp this).1).2.1)

/-- The comparisons made on the way down bound the value searched for: every key before the
slot reached compares less than it, and it compares less than every key after. -/
theorem locate_bounds (compare : T → T → Bool)
    (htrans : ∀ a b c, compare a b = true → compare b c = true → compare a c = true)
    (v : T) (sub : Shape T) :
    ∀ (c c' : List (Frame T)), sub.Ordered compare →
      (∀ x ∈ path_keys_before c, compare x v = true) →
      (∀ y ∈ path_keys_after c, compare v y = true) →
      locate compare v sub c = Sum.inr c' →
      (∀ x ∈ path_keys_before c', compare x v = true)
        ∧ (∀ y ∈ path_keys_after c', compare v y = true) := by
  induction sub with
  | nil =>
    intro c c' _ hb ha e
    simp only [locate, Sum.inr.injEq] at e
    subst e
    exact ⟨hb, ha⟩
  | node l a w b r ihl ihr =>
    intro c c' ho hb ha e
    obtain ⟨h1, h2, h3, h4⟩ := ho
    simp only [locate] at e
    by_cases c1 : compare v w = true
    · simp only [c1, if_true] at e
      refine ihl _ _ h3 ?_ ?_ e
      · simpa [path_keys_before, Frame.keys_before] using hb
      · intro y hy
        simp only [path_keys_after, Frame.keys_after, List.cons_append, List.mem_cons,
          List.mem_append] at hy
        rcases hy with rfl | hy | hy
        · exact c1
        · exact htrans v w y c1 (h2 y hy)
        · exact ha y hy
    · simp only [c1, if_false] at e
      by_cases c2 : compare w v = true
      · simp only [c2, if_true] at e
        refine ihr _ _ h4 ?_ ?_ e
        · intro x hx
          simp only [path_keys_before, Frame.keys_before, List.mem_append,
            List.mem_singleton] at hx
          rcases hx with hx | hx | rfl
          · exact hb x hx
          · exact htrans x w v (h1 x hx) c2
          · exact c2
        · simpa [path_keys_after, Frame.keys_after] using ha
      · simp [c2] at e

/-- A value with no equivalent among the keys is sent to a null slot. -/
theorem locate_fresh (compare : T → T → Bool) (v : T) (sub : Shape T) :
    ∀ (c : List (Frame T)), (∀ w ∈ sub.keys, ¬ equiv compare v w) →
      ∃ c', locate compare v sub c = Sum.inr c' := by
  induction sub with
  | nil =>
    intro c _
    exact ⟨c, rfl⟩
  | node l a w b r ihl ihr =>
    intro c h
    simp only [locate]
    by_cases c1 : compare v w = true
    · simp only [c1, if_true]
      exact ihl _ (fun x hx => h x (by simp [Shape.keys, hx]))
    · simp only [c1, if_false]
      by_cases c2 : compare w v = true
      · simp only [c2, if_true]
        exact ihr _ (fun x hx => h x (by simp [Shape.keys, hx]))
      · exfalso
        refine h w (by simp [Shape.keys]) ⟨?_, ?_⟩
        · simpa using c1
        · simpa using c2

/-- A value with an equivalent among the keys of a search tree is found by the descent. -/
theorem locate_dup (compare : T → T → Bool)
    (htrans : ∀ a b c, compare a b = true → compare b c = true → compare a c = true)
    (v : T) (sub : Shape T) :
    ∀ (c : List (Frame T)), sub.Ordered compare → (∃ w ∈ sub.keys, equiv compare v w) →
      ∃ a, locate compare v sub c = Sum.inl a := by
  induction sub with
  | nil =>
    intro c _ h
    obtain ⟨w, hw, _⟩ := h
    cases hw
  | node l a w b r ihl ihr =>
    intro c ho h
    obtain ⟨h1, h2, h3, h4⟩ := ho
    obtain ⟨x, hx, e1, e2⟩ := h
    simp only [Shape.keys, List.mem_append, List.mem_cons] at hx
    simp only [locate]
    by_cases c1 : compare v w = true
    · simp only [c1, if_true]
      refine ihl _ h3 ⟨x, ?_, e1, e2⟩
      rcases hx with hx | rfl | hx
      · exact hx
      · rw [c1] at e1
        cases e1
      · have := htrans v w x c1 (h2 x hx)
        rw [this] at e1
        cases e1
    · simp only [c1, if_false]
      by_cases c2 : compare w v = true
      · simp only [c2, if_true]
        refine ihr _ h4 ⟨x, ?_, e1, e2⟩
        rcases hx with hx | rfl | hx
        · have := htrans x w v (h1 x hx) c2
          rw [this] at e2
          cases e2
        · rw [c2] at e2
          cases e2
        · exact hx
      · simp only [c2, if_false]
        exact ⟨a, rfl⟩

/-- The node returned by a successful descent holds a value equivalent to the one searched
for. -/
theorem locate_found (compare : T → T → Bool) (v : T) {t : avl_tree T} (sub : Shape T) :
    ∀ (c : List (Frame T)) (a : Nat), Lays t c sub → locate compare v sub c = Sum.inl a →
      ∃ w, value_of t (some a) = some w ∧ equiv compare v w ∧ w ∈ sub.keys
        ∧ a ∈ sub.addrs := by
  induction sub with
  | nil =>
    intro c a _ e
    simp [locate] at e
  | node l x w b r ihl ihr =>
    intro c a h e
    simp only [locate] at e
    by_cases c1 : compare v w = true
    · simp only [c1, if_true] at e
      obtain ⟨u, hu, he, hm, ha⟩ := ihl _ _ h.to_left e
      exact ⟨u, hu, he, by simp [Shape.keys, hm], by simp [Shape.addrs, ha]⟩
    · simp only [c1, if_false] at e
      by_cases c2 : compare w v = true
      · simp only [c2, if_true] at e
        obtain ⟨u, hu, he, hm, ha⟩ := ihr _ _ h.to_right e
        exact ⟨u, hu, he, by simp [Shape.keys, hm], by simp [Shape.addrs, ha]⟩
      · simp only [c2, Bool.false_eq_true, if_false, Sum.inl.injEq] at e
        subst e
        refine ⟨w, h.value_of, ⟨?_, ?_⟩, by simp [Shape.keys], by simp [Shape.addrs]⟩
        · simpa using c1
        · simpa using c2

theorem count_eq_length (S : Shape T) : S.count = S.addrs.length := by
  induction S with
  | nil => rfl
  | node l a v b r ihl ihr =>
    simp only [Shape.count, Shape.addrs, List.length_append, List.length_cons, ihl, ihr]
    omega

theorem keys_length (S : Shape T) : S.keys.length = S.addrs.length := by
  induction S with
  | nil => rfl
  | node l a v b r ihl ihr =>
    simp only [Shape.keys, Shape.addrs, List.length_append, List.length_cons, ihl, ihr]

/-! ## Values stay at their addresses -/

theorem Rep_holds {s : List (avl_tree_node T)} {a : Nat} {v : T} (R : Shape T) :
    ∀ (par : Ptr), Rep s par R → R.Holds a v → ∃ cell, s[a]? = some cell ∧ cell.value = v := by
  induction R with
  | nil =>
    intro par _ h
    cases h
  | node l x w b r ihl ihr =>
    intro par h hh
    rcases hh with ⟨rfl, rfl⟩ | hh | hh
    · exact ⟨_, h.1, rfl⟩
    · exact ihl _ h.2.1 hh
    · exact ihr _ h.2.2 hh

theorem holds_plug (c : List (Frame T)) {a : Nat} {v : T} :
    ∀ (X : Shape T), X.Holds a v → (plug c X).Holds a v := by
  induction c with
  | nil =>
    intro X h
    exact h
  | cons f c ih =>
    intro X h
    cases f with
    | left x w b r => exact ih _ (Or.inr (Or.inl h))
    | right l x w b => exact ih _ (Or.inr (Or.inr h))

theorem fix_left_shape_holds {sub r R : Shape T} {x : Nat} {w : T} {a : Nat} {v : T}
    (h : fix_left_shape sub x w r = some R) (hh : sub.Holds a v) : R.Holds a v := by
  cases sub with
  | nil => cases h
  | node sl sa sv sb sr =>
    simp only [fix_left_shape] at h
    by_cases hsb : sb = -1
    · simp only [hsb, if_true, Option.some.injEq] at h
      subst h
      simp only [Shape.Holds] at hh ⊢
      tauto
    · simp only [hsb, if_false] at h
      cases sr with
      | nil => cases h
      | node pl pa pv pb pr =>
        simp only [Option.some.injEq] at h
        subst h
        simp only [Shape.Holds] at hh ⊢
        tauto

theorem fix_right_shape_holds {sub l R : Shape T} {x : Nat} {w : T} {a : Nat} {v : T}
    (h : fix_right_shape l x w sub = some R) (hh : sub.Holds a v) : R.Holds a v := by
  cases sub with
  | nil => cases h
  | node sl sa sv sb sr =>
    simp only [fix_right_shape] at h
    by_cases hsb : sb = 1
    · simp only [hsb, if_true, Option.some.injEq] at h
      subst h
      simp only [Shape.Holds] at hh ⊢
      tauto
    · simp only [hsb, if_false] at h
      cases sl with
      | nil => cases h
      | node pl pa pv pb pr =>
        simp only [Option.some.injEq] at h
        subst h
        simp only [Shape.Holds] at hh ⊢
        tauto

theorem rebalance_walk_holds (c : List (Frame T)) {a : Nat} {v : T} :
    ∀ (sub R : Shape T), rebalance_walk c sub = some R → sub.Holds a v → R.Holds a v := by
  induction c with
  | nil =>
    intro sub R h hh
    simp only [rebalance_walk, Option.some.injEq] at h
    subst h
    exact hh
  | cons f c ih =>
    intro sub R h hh
    cases f with
    | left x w b r =>
      simp only [rebalance_walk] at h
      by_cases hb0 : b - 1 = 0
      · simp only [hb0, if_true, Option.some.injEq] at h
        subst h
        exact holds_plug c _ (Or.inr (Or.inl hh))
      · simp only [hb0, if_false] at h
        by_cases hb1 : b - 1 > 1
        · simp [hb1] at h
        · simp only [hb1, if_false] at h
          by_cases hb2 : b - 1 < -1
          · simp only [hb2, if_true, Option.map_eq_some'] at h
            obtain ⟨R', hR', rfl⟩ := h
            exact holds_plug c _ (fix_left_shape_holds hR' hh)
          · simp only [hb2, if_false] at h
            exact ih _ _ h (Or.inr (Or.inl hh))
    | right l x w b =>
      simp only [rebalance_walk] at h
      by_cases hb0 : b + 1 = 0
      · simp only [hb0, if_true, Option.some.injEq] at h
        subst h
        exact holds_plug c _ (Or.inr (Or.inr hh))
      · simp only [hb0, if_false] at h
        by_cases hb1 : b + 1 > 1
        · simp only [hb1, if_true, Option.map_eq_some'] at h
          obtain ⟨R', hR', rfl⟩ := h
          exact holds_plug c _ (fix_right_shape_holds hR' hh)
        · simp only [hb1, if_false] at h
          by_cases hb2 : b + 1 < -1
          · simp [hb2] at h
          · simp only [hb2, if_false] at h
            exact ih _ _ h (Or.inr (Or.inr hh))

/-! ## `emplace` on a tree that satisfies the invariants -/

theorem Structural.lays {t : avl_tree T} {S : Shape T} (h : Structural t S) : Lays t [] S :=
  ⟨trivial, h.rep, h.root, by simpa [path_before, path_after] using h.nodup⟩

theorem pairwise_insert {r : T → T → Prop} {xs ys : List T} {v : T}
    (h : (xs ++ ys).Pairwise r) (hb : ∀ x ∈ xs, r x v) (ha : ∀ y ∈ ys, r v y) :
    (xs ++ v :: ys).Pairwise r := by
  rw [List.pairwise_append] at h ⊢
  refine ⟨h.1, List.pairwise_cons.mpr ⟨ha, h.2.1⟩, ?_⟩
  intro x hx y hy
  rcases List.mem_cons.mp hy with rfl | hy
  · exact hb x hx
  · exact h.2.2 x hx y hy

/-- The run of `emplace` when the descent ends at a null slot: a node is attached at the next
free address and the structural invariants are re-established, whatever the comparator. -/
theorem emplace_inr (compare : T → T → Bool) {t : avl_tree T} {S : Shape T} {v : T}
    {c : List (Frame T)} (hs : Structural t S) (hloc : locate compare v S [] = Sum.inr c) :
    ∃ t' R, emplace compare t v
        = some (t', { root := t'.root, current := some t.store.length }, true)
      ∧ Structural t' R
      ∧ rebalance_walk c (Shape.node Shape.nil t.store.length v 0 Shape.nil) = some R
      ∧ S.keys = path_keys_before c ++ path_keys_after c
      ∧ R.keys = path_keys_before c ++ v :: path_keys_after c
      ∧ S.addrs = path_before c ++ path_after c
      ∧ R.addrs = path_before c ++ t.store.length :: path_after c
      ∧ value_of t' (some t.store.length) = some v
      ∧ t'.store.length = t.store.length + 1 := by
  have hl := hs.lays
  have hplug := locate_plug compare v S [] c hloc
  simp only [plug] at hplug
  have hSk : S.keys = path_keys_before c ++ path_keys_after c := by
    rw [← hplug, plug_keys]
    simp [Shape.keys]
  have hSa : S.addrs = path_before c ++ path_after c := by
    rw [← hplug, plug_addrs]
    simp [Shape.addrs]
  have hbal : PathBalanced c 0 := by
    have := hs.balanced
    rw [← hplug, plug_balanced] at this
    exact this.2
  obtain ⟨R, hR, hRb⟩ := rebalance_walk_balanced c
    (Shape.node Shape.nil t.store.length v 0 Shape.nil) 0 hbal
    ⟨by simp [Shape.height], by omega, by omega, trivial, trivial⟩ (Or.inr ⟨rfl, rfl⟩)
    (by simp [Shape.height])
  obtain ⟨hRa, hRk⟩ := rebalance_walk_addrs c _ _ hR
  simp only [Shape.addrs, Shape.keys, List.append_nil, List.nil_append,
    List.append_assoc, List.singleton_append] at hRa hRk
  obtain ⟨t', e, L', hmin', hmax', hcnt', hlen'⟩ :=
    insert_node_fresh compare hl hs.minimum hs.maximum hloc hR
  have hval : value_of t' (some t.store.length) = some v := by
    obtain ⟨cell, hc, hv⟩ := Rep_holds R none L'.sub_ok
      (rebalance_walk_holds c _ _ hR (Or.inl ⟨rfl, rfl⟩))
    simp only [value_of_def, hc, Option.map_some', hv]
  refine ⟨t', R, ?_, ⟨L'.sub_ok, L'.root_ok, ?_, hRb, ?_, hmin', hmax'⟩, hR, hSk, hRk, hSa,
    hRa, hval, hlen'⟩
  · simp only [new_node] at e
    simp only [emplace, new_node, e, Option.bind_eq_bind, Option.some_bind, if_true]
  · have := L'.distinct
    simpa [path_before, path_after] using this
  · rw [hcnt', hs.count, count_eq_length, count_eq_length, hRa, hSa]
    simp only [List.length_append, List.length_cons]
    omega

/-- The run of `emplace` when the descent ends on a node: the new node is released again and
the tree is given back exactly as it was. -/
theorem emplace_inl (compare : T → T → Bool) {t : avl_tree T} {S : Shape T} {v : T} {a : Nat}
    (hs : Structural t S) (hloc : locate compare v S [] = Sum.inl a) :
    emplace compare t v = some (t, { root := t.root, current := some a }, false)
      ∧ ∃ w, value_of t (some a) = some w ∧ equiv compare v w ∧ w ∈ S.keys
        ∧ a ∈ S.addrs := by
  have hl := hs.lays
  obtain ⟨w, hw, he, hk, ha⟩ := locate_found compare v S [] a hl hloc
  have e := insert_node_found compare (v := v) hl hloc
  have hlt : a < t.store.length := Rep_addr_lt hs.rep a ha
  have hne : (some a : Ptr) ≠ some t.store.length := by
    simp only [ne_eq, Option.some.injEq]
    omega
  refine ⟨?_, w, hw, he, hk, ha⟩
  have hrd : rd (new_node t v).1 (some t.store.length)
      = some { value := v, parent := none, left := none, right := none, balance := 0 } := by
    simp only [rd, new_node]
    exact List.getElem?_concat_length _ _
  simp only [new_node] at e hrd
  simp only [emplace, new_node, e, Option.bind_eq_bind, Option.some_bind, hne, if_false,
    delete_node, hrd]
  simp

/-- The search-tree order survives an insertion at the slot the descent reaches. -/
theorem ordered_after_insert (compare : T → T → Bool)
    (htrans : ∀ a b c, compare a b = true → compare b c = true → compare a c = true)
    {S R : Shape T} {v : T} {c : List (Frame T)} (ho : S.Ordered compare)
    (hloc : locate compare v S [] = Sum.inr c)
    (hSk : S.keys = path_keys_before c ++ path_keys_after c)
    (hRk : R.keys = path_keys_before c ++ v :: path_keys_after c) : R.Ordered compare := by
  obtain ⟨hb, ha⟩ := locate_bounds compare htrans v S [] c ho
    (by simp [path_keys_before]) (by simp [path_keys_after]) hloc
  have hpw := pairwise_of_ordered compare htrans S ho
  rw [hSk] at hpw
  refine ordered_of_pairwise compare R ?_
  rw [hRk]
  exact pairwise_insert hpw hb ha

/-! ## The iterator's successor step -/

theorem ptr_eq_none {X : Shape T} : X.ptr = none ↔ X = Shape.nil := by
  cases X <;> simp [Shape.ptr]

theorem ptr_node (l r : Shape T) (a : Nat) (v : T) (b : Int) :
    (Shape.node l a v b r).ptr = some a := rfl

theorem addrs_ne_nil {X : Shape T} (h : X.ptr ≠ none) : X.addrs ≠ [] := by
  cases X with
  | nil => exact absurd rfl h
  | node l a v b r => simp [Shape.addrs]

theorem head_addrs_node (l r : Shape T) (a : Nat) (v : T) (b : Int) :
    (Shape.node l a v b r).addrs.head? = if l.ptr = none then some a else l.addrs.head? := by
  by_cases h : l.ptr = none
  · have := ptr_eq_none.mp h
    subst this
    simp [Shape.addrs, Shape.ptr]
  · simp only [h, if_false, Shape.addrs]
    exact List.head?_append_of_ne_nil _ (addrs_ne_nil h)

/-- The loop `while (current->left != nullptr)` ends on the first node in order. -/
theorem leftmost_loop_sim {t : avl_tree T} (X : Shape T) :
    ∀ (c : List (Frame T)) (fuel : Nat), Lays t c X → X.ptr ≠ none → X.height ≤ fuel →
      leftmost_loop t fuel X.ptr = some X.addrs.head? := by
  induction X with
  | nil =>
    intro c fuel _ h _
    exact absurd rfl h
  | node l a v b r ihl _ =>
    intro c fuel h _ hf
    cases fuel with
    | zero => simp [Shape.height] at hf
    | succ fuel =>
      simp only [Shape.height] at hf
      simp only [leftmost_loop, ptr_node, h.left_of, Option.bind_eq_bind, Option.some_bind,
        head_addrs_node]
      by_cases hl : l.ptr = none
      · simp [hl]
      · simp only [hl, ne_eq, not_false_eq_true, if_true, if_false]
        exact ihl _ fuel h.to_left hl (by omega)

theorem hole_ptr_ne {t : avl_tree T} {c : List (Frame T)} {r X : Shape T} {g : Nat} {w : T}
    {b : Int} (h : Lays t (Frame.left g w b r :: c) X) (hs : X.ptr ≠ none) :
    X.ptr ≠ r.ptr := by
  intro e
  rcases hp : X.ptr with _ | x
  · exact hs hp
  · rw [hp] at e
    have h1 := one_le_count (ptr_mem_addrs e.symm)
    have h2 := one_le_count (ptr_mem_addrs hp)
    have := List.nodup_iff_count_le_one.mp h.distinct x
    simp only [path_before, path_after, Frame.before, Frame.after, List.count_append,
      List.count_cons] at this
    omega

/-- The loop `while (parent_node != nullptr && current == parent_node->right)` ends on the
nearest ancestor whose left subtree holds the current node. -/
theorem climb_right_loop_sim {t : avl_tree T} (c : List (Frame T)) :
    ∀ (X : Shape T) (fuel : Nat), Lays t c X → X.ptr ≠ none → c.length < fuel →
      climb_right_loop t fuel X.ptr (path_parent c) = some (path_after c).head? := by
  induction c with
  | nil =>
    intro X fuel _ _ hf
    cases fuel with
    | zero => cases hf
    | succ fuel => simp [climb_right_loop, path_parent, path_after]
  | cons f c ih =>
    intro X fuel h hs hf
    cases fuel with
    | zero => cases hf
    | succ fuel =>
      simp only [List.length_cons] at hf
      cases f with
      | left g w b r =>
        have hne := hole_ptr_ne h hs
        simp only [climb_right_loop, path_parent, Frame.addr, reduceCtorEq, if_false,
          h.of_left.right_of, Option.bind_eq_bind, Option.some_bind, hne, path_after,
          Frame.after, List.cons_append, List.head?_cons]
      | right l g w b =>
        simp only [climb_right_loop, path_parent, Frame.addr, reduceCtorEq, if_false,
          h.of_right.right_of, Option.bind_eq_bind, Option.some_bind, if_true,
          h.of_right.parent_of, path_after, Frame.after, List.nil_append]
        exact ih _ fuel h.of_right (by simp [Shape.ptr]) (by omega)

/-- `operator++` on the position of a node: the next position is the first address that
follows the node in order, or the end position. -/
theorem iter_next_sim {t : avl_tree T} {c : List (Frame T)} {l r : Shape T} {a : Nat} {v : T}
    {b : Int} (h : Lays t c (Shape.node l a v b r)) (rt : Ptr) :
    iter_next t { root := rt, current := some a }
      = some { root := rt, current := (r.addrs ++ path_after c).head? } := by
  have hb := h.budget
  simp only [Shape.height] at hb
  simp only [iter_next, h.right_of, Option.bind_eq_bind, Option.some_bind]
  by_cases hr : r.ptr = none
  · have hr' := ptr_eq_none.mp hr
    subst hr'
    simp only [Shape.ptr, ne_eq, not_true_eq_false, if_false, h.parent_of, Option.some_bind,
      Shape.addrs, List.nil_append]
    have := climb_right_loop_sim c _ (t.store.length + 1) h (by simp [Shape.ptr])
      (by omega)
    simp only [ptr_node] at this
    simp only [this, Option.some_bind]
  · simp only [hr, ne_eq, not_false_eq_true, if_true]
    have := leftmost_loop_sim r _ (t.store.length + 1) h.to_right hr (by omega)
    simp only [this, Option.some_bind]
    rw [List.head?_append_of_ne_nil _ (addrs_ne_nil hr)]

/-! ## Ascending traversal -/

theorem focus_at {a : Nat} (X : Shape T) :
    ∀ (c0 : List (Frame T)), a ∈ X.addrs →
      ∃ c l v b r, plug c (Shape.node l a v b r) = plug c0 X := by
  induction X with
  | nil =>
    intro c0 h
    cases h
  | node l x w k r ihl ihr =>
    intro c0 h
    simp only [Shape.addrs, List.mem_append, List.mem_cons] at h
    rcases h with h | rfl | h
    · obtain ⟨c, l', v, b, r', e⟩ := ihl (Frame.left x w k r :: c0) h
      exact ⟨c, l', v, b, r', e⟩
    · exact ⟨c0, l, w, k, r, rfl⟩
    · obtain ⟨c, l', v, b, r', e⟩ := ihr (Frame.right l x w k :: c0) h
      exact ⟨c, l', v, b, r', e⟩

theorem split_unique {p1 p2 q1 q2 : List Nat} {a : Nat} (hnd : (p1 ++ a :: q1).Nodup)
    (e : p1 ++ a :: q1 = p2 ++ a :: q2) : q1 = q2 := by
  have h1 : a ∉ p1 := by
    intro hm
    have := List.nodup_iff_count_le_one.mp hnd a
    have := one_le_count hm
    simp only [List.count_append, List.count_cons_self] at *
    omega
  have h2 : a ∉ q1 := by
    intro hm
    have := List.nodup_iff_count_le_one.mp hnd a
    have := one_le_count hm
    simp only [List.count_append, List.count_cons_self] at *
    omega
  exact ((List.append_cons_inj_of_not_mem h1 h2).mp e).2.2

/-- Ascending traversal from the position of the first address of `post` visits exactly the
addresses of `post`, in order, and then reaches `end()`. -/
theorem walk_sim {A : Type} {t : avl_tree T} {S : Shape T} (f : avl_tree_iterator → Option A)
    (h : Lays t [] S) :
    ∀ (post : List Nat) (ks : List A) (pre : List Nat) (fuel : Nat), S.addrs = pre ++ post →
      List.Forall₂ (fun a k => f { root := t.root, current := some a } = some k) post ks →
      post.length < fuel →
      walk t f fuel { root := t.root, current := post.head? } = some ks := by
  intro post
  induction post with
  | nil =>
    intro ks pre fuel _ hk hf
    cases hk
    cases fuel with
    | zero => cases hf
    | succ fuel => simp [walk, end_]
  | cons a post ih =>
    intro ks pre fuel hS hk hf
    cases fuel with
    | zero => cases hf
    | succ fuel =>
      simp only [List.length_cons] at hf
      obtain ⟨k, ks', hfk, hk', rfl⟩ := List.forall₂_cons_left_iff.mp hk
      have ha : a ∈ S.addrs := by
        rw [hS]
        simp
      obtain ⟨c, l, v, b, r, e⟩ := focus_at S [] ha
      simp only [plug] at e
      have L : Lays t c (Shape.node l a v b r) := (Lays_plug c).mp (e ▸ h)
      have hnd : S.addrs.Nodup := by
        have := h.distinct
        simpa [path_before, path_after] using this
      have hsplit : S.addrs = (path_before c ++ l.addrs) ++ a :: (r.addrs ++ path_after c) := by
        rw [← e, plug_addrs]
        simp [Shape.addrs]
      have hpost : r.addrs ++ path_after c = post := by
        refine @split_unique (path_before c ++ l.addrs) pre (r.addrs ++ path_after c) post a
          (hsplit ▸ hnd) ?_
        rw [← hsplit, hS]
      have hne : ({ root := t.root, current := some a } : avl_tree_iterator) ≠ end_ t := by
        simp [end_]
      simp only [walk, List.head?_cons, hne, if_false, hfk, Option.bind_eq_bind,
        Option.some_bind, iter_next_sim L, hpost]
      have := ih ks' (pre ++ [a]) fuel (by rw [hS]; simp) hk' (by omega)
      simp only [this, Option.some_bind]

theorem Rep_values {s : List (avl_tree_node T)} (S : Shape T) :
    ∀ (par : Ptr), Rep s par S →
      List.Forall₂ (fun a k => (s[a]?).map (fun n => n.value) = some k) S.addrs S.keys := by
  induction S with
  | nil =>
    intro par _
    exact List.Forall₂.nil
  | node l a v b r ihl ihr =>
    intro par h
    simp only [Shape.addrs, Shape.keys]
    refine List.rel_append (ihl _ h.2.1) (List.Forall₂.cons ?_ (ihr _ h.2.2))
    simp only [h.1, Option.map_some']

/-- Data-model invariants make the ascending traversal read the keys in in-order. -/
theorem to_list_sim {t : avl_tree T} {S : Shape T}
    (h : Structural t S) : to_list t = some S.keys := by
  have hl := h.lays
  have hlen := nodup_length_le h.nodup (Rep_addr_lt h.rep)
  have := walk_sim (iter_deref t) hl S.addrs S.keys [] (t.store.length + 1) rfl
    (Rep_values S none h.rep) (by omega)
  simpa [to_list, begin_, h.minimum] using this

/-- Data-model invariants make the ascending traversal visit the node addresses in
in-order. -/
theorem positions_sim {t : avl_tree T} {S : Shape T}
    (h : Structural t S) :
    positions t = some (S.addrs.map (fun a => { root := t.root, current := some a })) := by
  have hl := h.lays
  have hlen := nodup_length_le h.nodup (Rep_addr_lt h.rep)
  have := walk_sim (A := avl_tree_iterator) some hl S.addrs
    (S.addrs.map (fun a => { root := t.root, current := some a })) [] (t.store.length + 1) rfl
    (by
      rw [List.forall₂_map_right_iff]
      exact List.forall₂_same.mpr (fun _ _ => rfl)) (by omega)
  simpa [positions, begin_, h.minimum] using this

/-! ## Sequences of insertions -/

theorem structural_empty : Structural (empty_tree : avl_tree T) Shape.nil :=
  ⟨trivial, rfl, List.nodup_nil, trivial, rfl, rfl, rfl⟩

theorem invariant_empty (compare : T → T → Bool) :
    Invariant compare (empty_tree : avl_tree T) Shape.nil :=
  ⟨structural_empty, trivial⟩

/-- One `insert` keeps the structural invariants, whatever the comparator. -/
theorem insert_structural (compare : T → T → Bool) {t : avl_tree T} {S : Shape T} (v : T)
    (hs : Structural t S) :
    ∃ t' S' it b, insert compare t v = some (t', it, b) ∧ Structural t' S' := by
  rcases hloc : locate compare v S [] with a | c
  · exact ⟨t, S, _, false, (emplace_inl compare hs hloc).1, hs⟩
  · obtain ⟨t', R, e, hs', -⟩ := emplace_inr compare hs hloc
    exact ⟨t', R, _, true, e, hs'⟩

/-- Any sequence of insertions runs to completion and keeps the structural invariants,
whatever the comparator. -/
theorem insert_all_structural (compare : T → T → Bool) (ks : List T) :
    ∀ (t : avl_tree T) (S : Shape T), Structural t S →
      ∃ t' S', insert_all compare t ks = some t' ∧ Structural t' S' := by
  induction ks with
  | nil =>
    intro t S hs
    exact ⟨t, S, rfl, hs⟩
  | cons v ks ih =>
    intro t S hs
    obtain ⟨t1, S1, it, b, e, hs1⟩ := insert_structural compare v hs
    obtain ⟨t2, S2, e2, hs2⟩ := ih t1 S1 hs1
    exact ⟨t2, S2, by simp only [insert_all, e, Option.bind_eq_bind, Option.some_bind, e2],
      hs2⟩

theorem any_equiv_iff (compare : T → T → Bool) (v : T) (acc : List T) :
    acc.any (fun x => !compare v x && !compare x v) = true ↔ ∃ w ∈ acc, equiv compare v w := by
  simp only [List.any_eq_true, Bool.and_eq_true, Bool.not_eq_true', equiv]

theorem kept_perm (compare : T → T → Bool) (ks : List T) :
    ∀ (acc acc' : List T), acc.Perm acc' → (kept compare acc ks).Perm (kept compare acc' ks) := by
  induction ks with
  | nil =>
    intro acc acc' h
    exact h
  | cons k ks ih =>
    intro acc acc' h
    have hany : acc.any (fun x => !compare k x && !compare x k)
        = acc'.any (fun x => !compare k x && !compare x k) := by
      rw [Bool.eq_iff_iff, any_equiv_iff, any_equiv_iff]
      constructor
      · rintro ⟨w, hw, he⟩
        exact ⟨w, h.mem_iff.mp hw, he⟩
      · rintro ⟨w, hw, he⟩
        exact ⟨w, h.mem_iff.mpr hw, he⟩
    simp only [kept, hany]
    split
    · exact ih _ _ h
    · exact ih _ _ (h.append_right [k])

/-- One `insert` keeps all five invariants, and the keys afterwards are the keys before
together with the inserted one unless it had an equivalent. -/
theorem insert_invariant (compare : T → T → Bool)
    (htrans : ∀ a b c, compare a b = true → compare b c = true → compare a c = true)
    {t : avl_tree T} {S : Shape T} (v : T) (hinv : Invariant compare t S) :
    ∃ t' S' it b, insert compare t v = some (t', it, b) ∧ Invariant compare t' S'
      ∧ S'.keys.Perm (kept compare S.keys [v]) := by
  rcases hloc : locate compare v S [] with a | c
  · obtain ⟨e, w, -, he, hk, -⟩ := emplace_inl compare hinv.toStructural hloc
    refine ⟨t, S, _, false, e, hinv, ?_⟩
    have : S.keys.any (fun x => !compare v x && !compare x v) = true :=
      (any_equiv_iff compare v S.keys).mpr ⟨w, hk, he⟩
    simp only [kept, this, if_true]
    exact List.Perm.refl _
  · obtain ⟨t', R, e, hs', -, hSk, hRk, -⟩ := emplace_inr compare hinv.toStructural hloc
    refine ⟨t', R, _, true, e,
      ⟨hs', ordered_after_insert compare htrans hinv.ordered hloc hSk hRk⟩, ?_⟩
    have : ¬ S.keys.any (fun x => !compare v x && !compare x v) = true := by
      rw [any_equiv_iff]
      intro h
      obtain ⟨a, ha⟩ := locate_dup compare htrans v S [] hinv.ordered h
      rw [hloc] at ha
      cases ha
    simp only [kept, this, if_false]
    rw [hRk, hSk]
    exact List.perm_middle.trans (List.perm_append_singleton v _).symm

theorem kept_cons (compare : T → T → Bool) (acc : List T) (k : T) (ks : List T) :
    kept compare acc (k :: ks) = kept compare (kept compare acc [k]) ks := by
  simp only [kept]
  split <;> rfl

/-- Any sequence of insertions under a transitive comparator runs to completion and keeps all
five invariants; the keys held afterwards are those of `kept`. -/
theorem insert_all_invariant (compare : T → T → Bool)
    (htrans : ∀ a b c, compare a b = true → compare b c = true → compare a c = true)
    (ks : List T) :
    ∀ (t : avl_tree T) (S : Shape T), Invariant compare t S →
      ∃ t' S', insert_all compare t ks = some t' ∧ Invariant compare t' S'
        ∧ S'.keys.Perm (kept compare S.keys ks) := by
  induction ks with
  | nil =>
    intro t S hs
    exact ⟨t, S, rfl, hs, List.Perm.refl _⟩
  | cons v ks ih =>
    intro t S hs
    obtain ⟨t1, S1, it, b, e, hs1, hp1⟩ := insert_invariant compare htrans v hs
    obtain ⟨t2, S2, e2, hs2, hp2⟩ := ih t1 S1 hs1
    refine ⟨t2, S2, by simp only [insert_all, e, Option.bind_eq_bind, Option.some_bind, e2],
      hs2, ?_⟩
    rw [kept_cons]
    exact hp2.trans (kept_perm compare ks _ _ hp1)

theorem equiv_symm {compare : T → T → Bool} {a b : T} (h : equiv compare a b) :
    equiv compare b a := ⟨h.2, h.1⟩

theorem kept_mem (compare : T → T → Bool) (ks : List T) :
    ∀ (acc : List T) (x : T), x ∈ kept compare acc ks → x ∈ acc ∨ x ∈ ks := by
  induction ks with
  | nil =>
    intro acc x h
    exact Or.inl h
  | cons k ks ih =>
    intro acc x h
    simp only [kept] at h
    split at h
    · rcases ih _ _ h with h | h
      · exact Or.inl h
      · exact Or.inr (List.mem_cons_of_mem _ h)
    · rcases ih _ _ h with h | h
      · rcases List.mem_append.mp h with h | h
        · exact Or.inl h
        · simp only [List.mem_singleton] at h
          exact Or.inr (h ▸ List.mem_cons_self _ _)
      · exact Or.inr (List.mem_cons_of_mem _ h)

theorem kept_acc_subset (compare : T → T → Bool) (ks : List T) :
    ∀ (acc : List T) (x : T), x ∈ acc → x ∈ kept compare acc ks := by
  induction ks with
  | nil =>
    intro acc x h
    exact h
  | cons k ks ih =>
    intro acc x h
    simp only [kept]
    split
    · exact ih _ _ h
    · exact ih _ _ (List.mem_append_left _ h)

/-- Every key of the sequence has an equivalent among the keys kept. -/
theorem kept_covers (compare : T → T → Bool) (hirr : ∀ a, compare a a = false)
    (ks : List T) :
    ∀ (acc : List T), ∀ k ∈ ks, ∃ r ∈ kept compare acc ks, equiv compare k r := by
  induction ks with
  | nil =>
    intro acc k hk
    cases hk
  | cons x ks ih =>
    intro acc k hk
    simp only [kept]
    rcases List.mem_cons.mp hk with rfl | hk
    · split
      · rename_i h
        obtain ⟨w, hw, he⟩ := (any_equiv_iff compare k acc).mp h
        exact ⟨w, kept_acc_subset compare ks _ _ hw, he⟩
      · exact ⟨k, kept_acc_subset compare ks _ _ (by simp), hirr k, hirr k⟩
    · split
      · exact ih _ k hk
      · exact ih _ k hk

/-- The keys kept are pairwise non-equivalent. -/
theorem kept_pairwise (compare : T → T → Bool) (ks : List T) :
    ∀ (acc : List T), acc.Pairwise (fun a b => ¬ equiv compare a b) →
      (kept compare acc ks).Pairwise (fun a b => ¬ equiv compare a b) := by
  induction ks with
  | nil =>
    intro acc h
    exact h
  | cons k ks ih =>
    intro acc h
    simp only [kept]
    split
    · exact ih _ h
    · rename_i hn
      refine ih _ ?_
      rw [List.pairwise_append]
      refine ⟨h, List.pairwise_singleton _ _, ?_⟩
      intro a ha b hb
      simp only [List.mem_singleton] at hb
      subst hb
      intro he
      exact hn ((any_equiv_iff compare b acc).mpr ⟨a, ha, equiv_symm he⟩)

/-- The keys kept of a sequence, in the order they were kept, form a subsequence of it. -/
theorem kept_sublist (compare : T → T → Bool) (ks : List T) :
    ∀ (acc : List T), ∃ rest, kept compare acc ks = acc ++ rest ∧ rest.Sublist ks := by
  induction ks with
  | nil =>
    intro acc
    exact ⟨[], by simp [kept], List.Sublist.refl _⟩
  | cons k ks ih =>
    intro acc
    simp only [kept]
    split
    · obtain ⟨rest, e, hs⟩ := ih acc
      exact ⟨rest, e, hs.cons k⟩
    · obtain ⟨rest, e, hs⟩ := ih (acc ++ [k])
      exact ⟨k :: rest, by simp [e], hs.cons₂ k⟩

/-- A sequence of pairwise non-equivalent keys is kept whole. -/
theorem kept_of_distinct (compare : T → T → Bool) (ks : List T) :
    ∀ (acc : List T), (acc ++ ks).Pairwise (fun a b => ¬ equiv compare a b) →
      kept compare acc ks = acc ++ ks := by
  induction ks with
  | nil =>
    intro acc _
    simp [kept]
  | cons k ks ih =>
    intro acc h
    have hn : ¬ acc.any (fun x => !compare k x && !compare x k) = true := by
      rw [any_equiv_iff]
      rintro ⟨w, hw, he⟩
      rw [List.pairwise_append] at h
      exact h.2.2 w hw k (List.mem_cons_self _ _) (equiv_symm he)
    simp only [kept, hn, if_false]
    rw [ih (acc ++ [k]) (by simpa using h)]
    simp

/-! ## The shape read off the store -/

theorem shape_from_eq {s : List (avl_tree_node T)} (S : Shape T) :
    ∀ (par : Ptr) (fuel : Nat), Rep s par S → S.height ≤ fuel → shape_from s fuel S.ptr = S := by
  induction S with
  | nil =>
    intro par fuel _ _
    cases fuel <;> rfl
  | node l a v b r ihl ihr =>
    intro par fuel h hf
    cases fuel with
    | zero => simp [Shape.height] at hf
    | succ fuel =>
      simp only [Shape.height] at hf
      simp only [ptr_node, shape_from, h.1]
      rw [ihl _ fuel h.2.1 (by omega), ihr _ fuel h.2.2 (by omega)]

/-- Under the structural invariants the shape reachable from `root` is the shape of the
invariant. -/
theorem shape_of_eq {t : avl_tree T} {S : Shape T} (h : Structural t S) : shape_of t = S := by
  have hb := h.lays.budget
  simp only [List.length_nil, Nat.zero_add] at hb
  simp only [shape_of, h.root]
  exact shape_from_eq S none _ h.rep hb

/-! ## Strictly increasing lists -/

/-- Two lists that are strictly increasing for an irreflexive transitive relation and have
the same elements are equal. -/
theorem sorted_ext {r : T → T → Prop} (hirr : ∀ a, ¬ r a a)
    (htrans : ∀ a b c, r a b → r b c → r a c) {l1 l2 : List T}
    (h1 : l1.Pairwise r) (h2 : l2.Pairwise r) (hm : ∀ x, x ∈ l1 ↔ x ∈ l2) : l1 = l2 := by
  have hne : ∀ a b, r a b → a ≠ b := by
    intro a b hab e
    subst e
    exact hirr a hab
  have hn1 : l1.Nodup := h1.imp (fun {a b} hab => hne a b hab)
  have hn2 : l2.Nodup := h2.imp (fun {a b} hab => hne a b hab)
  have hp : l1.Perm l2 := (List.perm_ext_iff_of_nodup hn1 hn2).mpr hm
  haveI : IsAntisymm T r := ⟨fun a b hab hba => absurd (htrans a b a hab hba) (hirr a)⟩
  exact List.eq_of_perm_of_sorted hp h1 h2

/-! ## Insertion on shapes -/

/-- A sequence of insertions computed on shapes is what the pointer code produces. -/
theorem insert_all_shape_sim (compare : T → T → Bool) (ks : List T) :
    ∀ (t : avl_tree T) (S S' : Shape T), Structural t S →
      insert_all_shape compare S t.store.length ks = some S' →
      ∃ t', insert_all compare t ks = some t' ∧ Structural t' S' := by
  induction ks with
  | nil =>
    intro t S S' hs h
    simp only [insert_all_shape, Option.some.injEq] at h
    subst h
    exact ⟨t, rfl, hs⟩
  | cons v ks ih =>
    intro t S S' hs h
    simp only [insert_all_shape, insert_shape] at h
    rcases hloc : locate compare v S [] with a | c
    · rw [hloc] at h
      simp only [Option.some_bind] at h
      obtain ⟨t2, e2, hs2⟩ := ih t S S' hs h
      have e := (emplace_inl compare hs hloc).1
      exact ⟨t2, by simp only [insert_all, insert, e, Option.bind_eq_bind, Option.some_bind,
        e2], hs2⟩
    · rw [hloc] at h
      obtain ⟨t1, R, e, hs1, hR, -, -, -, -, -, hlen⟩ := emplace_inr compare hs hloc
      simp only [hR, Option.map_some', Option.some_bind] at h
      rw [← hlen] at h
      obtain ⟨t2, e2, hs2⟩ := ih t1 R S' hs1 h
      exact ⟨t2, by simp only [insert_all, insert, e, Option.bind_eq_bind, Option.some_bind,
        e2], hs2⟩

/-! ## The last node in order -/

theorem getLast_addrs_node (l r : Shape T) (a : Nat) (v : T) (b : Int) :
    (Shape.node l a v b r).addrs.getLast?
      = if r.ptr = none then some a else r.addrs.getLast? := by
  by_cases h : r.ptr = none
  · have := ptr_eq_none.mp h
    subst this
    simp [Shape.addrs, Shape.ptr]
  · simp only [h, if_false, Shape.addrs]
    rw [List.getLast?_append_of_ne_nil _ (by simp)]
    exact List.getLast?_append_of_ne_nil [a] (addrs_ne_nil h)

/-- The loop `while (current->right != nullptr)` ends on the last node in order. -/
theorem rightmost_loop_sim {t : avl_tree T} (X : Shape T) :
    ∀ (c : List (Frame T)) (fuel : Nat), Lays t c X → X.ptr ≠ none → X.height ≤ fuel →
      rightmost_loop t fuel X.ptr = some X.addrs.getLast? := by
  induction X with
  | nil =>
    intro c fuel _ h _
    exact absurd rfl h
  | node l a v b r _ ihr =>
    intro c fuel h _ hf
    cases fuel with
    | zero => simp [Shape.height] at hf
    | succ fuel =>
      simp only [Shape.height] at hf
      simp only [rightmost_loop, ptr_node, h.right_of, Option.bind_eq_bind,
        Option.some_bind, getLast_addrs_node]
      by_cases hr : r.ptr = none
      · simp [hr]
      · simp only [hr, ne_eq, not_false_eq_true, if_true, if_false]
        exact ihr _ fuel h.to_right hr (by omega)

/-! ## The iterator's `height()` and the tree height -/

theorem height_loop_sim {t : avl_tree T} (c : List (Frame T)) :
    ∀ (l r : Shape T) (a : Nat) (v : T) (b : Int) (fuel k : Nat),
      Lays t c (Shape.node l a v b r) → c.length < fuel →
      height_loop t fuel (some a) k = some (k + c.length) := by
  induction c with
  | nil =>
    intro l r a v b fuel k h hf
    cases fuel with
    | zero => cases hf
    | succ fuel =>
      simp [height_loop, h.parent_of, path_parent]
  | cons f c ih =>
    intro l r a v b fuel k h hf
    cases fuel with
    | zero => cases hf
    | succ fuel =>
      simp only [List.length_cons] at hf
      simp only [height_loop, h.parent_of, path_parent, Option.bind_eq_bind,
        Option.some_bind, ne_eq, reduceCtorEq, not_false_eq_true, if_true, List.length_cons]
      cases f with
      | left g w bg rg =>
        simp only [Frame.addr]
        rw [ih _ _ g w bg fuel (k + 1) h.of_left (by omega)]
        congr 1
        omega
      | right lg g w bg =>
        simp only [Frame.addr]
        rw [ih _ _ g w bg fuel (k + 1) h.of_right (by omega)]
        congr 1
        omega

theorem depths_sim {t : avl_tree T} (X : Shape T) :
    ∀ (c : List (Frame T)) (rt : Ptr), Lays t c X →
      List.Forall₂ (fun a k => iter_height t { root := rt, current := some a } = some k)
        X.addrs (depths (c.length + 1) X) := by
  induction X with
  | nil =>
    intro c rt _
    exact List.Forall₂.nil
  | node l a v b r ihl ihr =>
    intro c rt h
    simp only [Shape.addrs, depths]
    refine List.rel_append (ihl _ rt h.to_left) (List.Forall₂.cons ?_ (ihr _ rt h.to_right))
    have hb := h.budget
    simp only [iter_height]
    rw [height_loop_sim c l r a v b _ 1 h (by omega)]
    congr 1
    omega

theorem foldr_max_append (A B : List Nat) :
    (A ++ B).foldr max 0 = max (A.foldr max 0) (B.foldr max 0) := by
  induction A with
  | nil => simp
  | cons x A ih =>
    simp only [List.cons_append, List.foldr_cons, ih]
    omega

theorem depths_max (X : Shape T) :
    ∀ (d : Nat), max d ((depths (d + 1) X).foldr max 0) = d + X.height := by
  induction X with
  | nil =>
    intro d
    simp [depths, Shape.height]
  | node l a v b r ihl ihr =>
    intro d
    have h1 := ihl (d + 1)
    have h2 := ihr (d + 1)
    simp only [depths, foldr_max_append, List.foldr_cons, Shape.height]
    omega

/-- Under the structural invariants the largest `height()` of a position is the height of
the shape. -/
theorem tree_height_sim {t : avl_tree T} {S : Shape T} (h : Structural t S) :
    tree_height t = some S.height := by
  have hl := h.lays
  have hlen := nodup_length_le h.nodup (Rep_addr_lt h.rep)
  have hw := walk_sim (iter_height t) hl S.addrs (depths 1 S) [] (t.store.length + 1) rfl
    (depths_sim S [] t.root hl) (by omega)
  have hm := depths_max S 0
  simp only [Nat.zero_add, Nat.zero_max] at hm
  simp only [tree_height, begin_, h.minimum, hw, Option.map_some', hm]

/-! ## The harness reference `sorted_unique` -/

theorem unique_cons_cons [DecidableEq T] (a b : T) (rest : List T) :
    unique (a :: b :: rest)
      = if a = b then unique (b :: rest) else a :: unique (b :: rest) := by
  rw [unique]

theorem unique_mem [DecidableEq T] (l : List T) : ∀ x, x ∈ unique l ↔ x ∈ l := by
  induction l with
  | nil =>
    intro x
    simp [unique]
  | cons a rest ih =>
    intro x
    cases rest with
    | nil => simp [unique]
    | cons b rest' =>
      rw [unique_cons_cons]
      by_cases hab : a = b
      · simp only [hab, if_true, ih x, List.mem_cons]
        tauto
      · simp only [hab, if_false, List.mem_cons, ih x]

theorem unique_pairwise [LinearOrder T] (l : List T)
    (h : l.Pairwise (fun a b => a ≤ b)) : (unique l).Pairwise (fun a b => a < b) := by
  induction l with
  | nil => simp [unique]
  | cons a rest ih =>
    cases rest with
    | nil => simp [unique]
    | cons b rest' =>
      obtain ⟨h1, h2⟩ := List.pairwise_cons.mp h
      rw [unique_cons_cons]
      by_cases hab : a = b
      · simp only [hab, if_true]
        exact ih h2
      · simp only [hab, if_false]
        refine List.pairwise_cons.mpr ⟨?_, ih h2⟩
        intro x hx
        have hx' := (unique_mem _ x).mp hx
        have hb : a < b := lt_of_le_of_ne (h1 b (List.mem_cons_self _ _)) hab
        rcases List.mem_cons.mp hx' with rfl | hx''
        · exact hb
        · exact lt_of_lt_of_le hb ((List.pairwise_cons.mp h2).1 x hx'')

theorem sorted_unique_pairwise [LinearOrder T] (input : List T) :
    (sorted_unique input).Pairwise (fun a b => a < b) :=
  unique_pairwise _ (List.sorted_insertionSort (fun a b => a ≤ b) input)

theorem sorted_unique_mem [LinearOrder T] (input : List T) (x : T) :
    x ∈ sorted_unique input ↔ x ∈ input := by
  simp only [sorted_unique, unique_mem]
  exact (List.perm_insertionSort (fun a b => a ≤ b) input).mem_iff

/-! ## Counting equivalence classes -/

/-- A family of pairwise non-equivalent keys each of which has an equivalent in a second
family is no longer than the second family. -/
theorem classes_le (compare : T → T → Bool) (hswo : StrictWeakOrder compare)
    (r1 : List T) :
    ∀ (r2 : List T), r1.Pairwise (fun a b => ¬ equiv compare a b) →
      (∀ a ∈ r1, ∃ b ∈ r2, equiv compare a b) → r1.length ≤ r2.length := by
  induction r1 with
  | nil =>
    intro r2 _ _
    exact Nat.zero_le _
  | cons a r1 ih =>
    intro r2 hp hc
    obtain ⟨b, hb, hab⟩ := hc a (List.mem_cons_self _ _)
    obtain ⟨s, u, rfl⟩ := List.append_of_mem hb
    obtain ⟨hp1, hp2⟩ := List.pairwise_cons.mp hp
    have := ih (s ++ u) hp2 (by
      intro x hx
      obtain ⟨y, hy, hxy⟩ := hc x (List.mem_cons_of_mem _ hx)
      refine ⟨y, ?_, hxy⟩
      rcases List.mem_append.mp hy with hy | hy
      · exact List.mem_append_left _ hy
      · rcases List.mem_cons.mp hy with rfl | hy
        · exact absurd (hswo.incomp_trans a y x hab (equiv_symm hxy)) (hp1 x hx)
        · exact List.mem_append_right _ hy)
    simp only [List.length_append, List.length_cons] at this ⊢
    omega

/-! ## Comparators -/

theorem swo_less [LinearOrder T] : StrictWeakOrder (less : T → T → Bool) := by
  refine ⟨?_, ?_, ?_⟩
  · intro a
    simp [less]
  · intro a b c h1 h2
    simp only [less, decide_eq_true_eq] at h1 h2 ⊢
    exact lt_trans h1 h2
  · intro a b c h1 h2
    simp only [equiv, less, decide_eq_false_iff_not, not_lt] at h1 h2 ⊢
    exact ⟨le_trans h2.1 h1.1, le_trans h1.2 h2.2⟩

theorem equiv_less_iff [LinearOrder T] (a b : T) : equiv less a b ↔ a = b := by
  simp only [equiv, less, decide_eq_false_iff_not, not_lt]
  constructor
  · rintro ⟨h1, h2⟩
    exact le_antisymm h2 h1
  · rintro rfl
    exact ⟨le_refl _, le_refl _⟩

theorem swo_asymm {compare : T → T → Bool} (hswo : StrictWeakOrder compare) {a b : T}
    (h : compare a b = true) : compare b a = false := by
  by_contra hn
  have hba : compare b a = true := by simpa using hn
  have := hswo.trans a b a h hba
  rw [hswo.irrefl a] at this
  cases this

/-- Two lists, strictly increasing under a strict weak order, in which every element of one
has an equivalent in the other are equivalent element for element. -/
theorem sorted_equiv (compare : T → T → Bool) (hswo : StrictWeakOrder compare)
    (l1 : List T) :
    ∀ (l2 : List T), l1.Pairwise (fun a b => compare a b = true) →
      l2.Pairwise (fun a b => compare a b = true) →
      (∀ x ∈ l1, ∃ y ∈ l2, equiv compare x y) → (∀ y ∈ l2, ∃ x ∈ l1, equiv compare y x) →
      List.Forall₂ (equiv compare) l1 l2 := by
  induction l1 with
  | nil =>
    intro l2 _ _ _ h21
    cases l2 with
    | nil => exact List.Forall₂.nil
    | cons y l2 =>
      obtain ⟨x, hx, _⟩ := h21 y (List.mem_cons_self _ _)
      cases hx
  | cons x l1 ih =>
    intro l2 hp1 hp2 h12 h21
    cases l2 with
    | nil =>
      obtain ⟨y, hy, _⟩ := h12 x (List.mem_cons_self _ _)
      cases hy
    | cons y l2 =>
      obtain ⟨hx1, hp1'⟩ := List.pairwise_cons.mp hp1
      obtain ⟨hy1, hp2'⟩ := List.pairwise_cons.mp hp2
      have hxy : equiv compare x y := by
        by_contra hne
        have hcases : compare x y = true ∨ compare y x = true := by
          by_contra hh
          simp only [not_or, Bool.not_eq_true] at hh
          exact hne ⟨hh.1, hh.2⟩
        rcases hcases with hlt | hlt
        · obtain ⟨y', hy', he⟩ := h12 x (List.mem_cons_self _ _)
          rcases List.mem_cons.mp hy' with rfl | hy''
          · exact hne he
          · have := hswo.trans x y y' hlt (hy1 y' hy'')
            rw [he.1] at this
            cases this
        · obtain ⟨x', hx', he⟩ := h21 y (List.mem_cons_self _ _)
          rcases List.mem_cons.mp hx' with rfl | hx''
          · exact hne (equiv_symm he)
          · have := hswo.trans y x x' hlt (hx1 x' hx'')
            rw [he.1] at this
            cases this
      refine List.Forall₂.cons hxy (ih l2 hp1' hp2' ?_ ?_)
      · intro a ha
        obtain ⟨z, hz, he⟩ := h12 a (List.mem_cons_of_mem _ ha)
        rcases List.mem_cons.mp hz with rfl | hz'
        · have h3 := (hswo.incomp_trans x z a hxy (equiv_symm he)).1
          rw [hx1 a ha] at h3
          cases h3
        · exact ⟨z, hz', he⟩
      · intro b hb
        obtain ⟨z, hz, he⟩ := h21 b (List.mem_cons_of_mem _ hb)
        rcases List.mem_cons.mp hz with rfl | hz'
        · have h3 := (hswo.incomp_trans y z b (equiv_symm hxy) (equiv_symm he)).1
          rw [hy1 b hb] at h3
          cases h3
        · exact ⟨z, hz', he⟩

theorem forall₂_eq_of_imp {r : T → T → Prop} (h : ∀ a b, r a b → a = b) {l1 l2 : List T}
    (hf : List.Forall₂ r l1 l2) : l1 = l2 := by
  induction hf with
  | nil => rfl
  | cons hab _ ih => rw [h _ _ hab, ih]

theorem forall₂_head {A B : Type} {r : A → B → Prop} {l1 : List A} {l2 : List B} {a : A}
    (hf : List.Forall₂ r l1 l2) (h : l1.head? = some a) :
    ∃ b, l2.head? = some b ∧ r a b := by
  cases hf with
  | nil => cases h
  | cons hab _ =>
    simp only [List.head?_cons, Option.some.injEq] at h
    subst h
    exact ⟨_, rfl, hab⟩

theorem forall₂_last {A B : Type} {r : A → B → Prop} {l1 : List A} {l2 : List B} {a : A}
    (hf : List.Forall₂ r l1 l2) (h : l1.getLast? = some a) :
    ∃ b, l2.getLast? = some b ∧ r a b := by
  induction hf with
  | nil => cases h
  | @cons x y xs ys hxy hrest ih =>
    cases hrest with
    | nil =>
      simp only [List.getLast?_singleton, Option.some.injEq] at h
      subst h
      exact ⟨y, rfl, hxy⟩
    | @cons x' y' xs' ys' hxy' hrest' =>
      rw [List.getLast?_cons_cons] at h ⊢
      exact ih h

/-- What a sequence of insertions into the empty tree under a strict weak order leaves: the
invariants, and keys that are strictly increasing and are those of `kept`. -/
theorem built (compare : T → T → Bool) (hswo : StrictWeakOrder compare) (keys : List T) :
    ∃ t S, insert_all compare empty_tree keys = some t ∧ Invariant compare t S
      ∧ to_list t = some S.keys ∧ S.keys.Pairwise (fun a b => compare a b = true)
      ∧ S.keys.Perm (kept compare [] keys) ∧ size t = S.keys.length
      ∧ shape_of t = S := by
  obtain ⟨t, S, e, hinv, hperm⟩ :=
    insert_all_invariant compare hswo.trans keys empty_tree Shape.nil (invariant_empty compare)
  refine ⟨t, S, e, hinv, to_list_sim hinv.toStructural,
    pairwise_of_ordered compare hswo.trans S hinv.ordered, hperm, ?_,
    shape_of_eq hinv.toStructural⟩
  simp only [size, hinv.count, count_eq_length, keys_length]

/-- Every key inserted has an equivalent among the keys stored, and every key stored was
inserted. -/
theorem built_members (compare : T → T → Bool) (hswo : StrictWeakOrder compare)
    (keys : List T) {l : List T} (h : l.Perm (kept compare [] keys)) :
    (∀ x ∈ l, x ∈ keys) ∧ (∀ k ∈ keys, ∃ r ∈ l, equiv compare k r) := by
  constructor
  · intro x hx
    rcases kept_mem compare keys [] x (h.mem_iff.mp hx) with h1 | h1
    · cases h1
    · exact h1
  · intro k hk
    obtain ⟨r, hr, he⟩ := kept_covers compare hswo.irrefl keys [] k hk
    exact ⟨r, h.mem_iff.mpr hr, he⟩

/-! ## Claims -/

/-- C1. For every finite list of keys of a totally ordered type, inserting the keys one by one
into an empty tree and then reading the container from `begin()` by repeated `++` until
`end()` yields exactly the list obtained by sorting the input and removing duplicates, and
the traversal visits `size()` elements. -/
theorem C1_insert_then_iterate_is_sorted_unique [LinearOrder T] (input : List T) :
    ∃ t, insert_all less empty_tree input = some t
      ∧ to_list t = some (sorted_unique input)
      ∧ (sorted_unique input).length = size t := by
  obtain ⟨t, S, e, -, hl, hpw, hperm, hsize, -⟩ := built less swo_less input
  obtain ⟨hm1, hm2⟩ := built_members less swo_less input hperm
  have hkeys : S.keys = sorted_unique input := by
    refine sorted_ext (r := fun a b => a < b) (fun a => lt_irrefl a)
      (fun a b c => lt_trans) ?_ (sorted_unique_pairwise input) ?_
    · exact hpw.imp (fun {a b} h => by simpa [less] using h)
    · intro x
      rw [sorted_unique_mem]
      constructor
      · exact hm1 x
      · intro hx
        obtain ⟨r, hr, he⟩ := hm2 x hx
        rw [(equiv_less_iff x r).mp he]
        exact hr
  exact ⟨t, e, by rw [hl, hkeys], by rw [← hkeys, hsize]⟩

/-- C2. For every tree satisfying the data-model invariants and every key that has no
equivalent key in the tree, `insert(key)` returns `inserted = true` together with a position
whose dereferenced value is the inserted key, `size()` grows by exactly one, and the keys
stored afterwards are the old keys plus that key, none lost and none duplicated (and the
invariants hold again). -/
theorem C2_insert_of_absent_key (compare : T → T → Bool) (hswo : StrictWeakOrder compare)
    (t : avl_tree T) (v : T) (ks : List T) (hwf : WellFormed compare t)
    (hks : to_list t = some ks) (hfresh : ∀ w ∈ ks, ¬ equiv compare v w) :
    ∃ t' it ks', insert compare t v = some (t', it, true)
      ∧ iter_deref t' it = some v
      ∧ size t' = size t + 1
      ∧ to_list t' = some ks' ∧ ks'.Perm (v :: ks)
      ∧ WellFormed compare t' := by
  obtain ⟨S, hinv⟩ := hwf
  have hl := to_list_sim hinv.toStructural
  rw [hks, Option.some.injEq] at hl
  subst hl
  obtain ⟨c, hloc⟩ := locate_fresh compare v S [] hfresh
  obtain ⟨t', R, e, hs', -, hSk, hRk, -, -, hval, -⟩ :=
    emplace_inr compare hinv.toStructural hloc
  refine ⟨t', _, R.keys, e, hval, ?_, to_list_sim hs', ?_,
    ⟨R, hs', ordered_after_insert compare hswo.trans hinv.ordered hloc hSk hRk⟩⟩
  · simp only [size, hs'.count, hinv.count, count_eq_length, ← keys_length, hRk, hSk,
      List.length_append, List.length_cons]
    omega
  · rw [hRk, hSk]
    exact List.perm_middle

/-- C3. For every tree satisfying the data-model invariants and every key equivalent under
`compare` to a key already stored, `insert(key)` returns `inserted = false` and the position
of an already-stored node holding an equivalent key, and returns the container exactly as it
was: the same store (every node's key, links and balance), root, minimum, maximum and
`size()`. -/
theorem C3_insert_of_present_key (compare : T → T → Bool) (hswo : StrictWeakOrder compare)
    (t : avl_tree T) (v : T) (ks : List T) (hwf : WellFormed compare t)
    (hks : to_list t = some ks) (hdup : ∃ w ∈ ks, equiv compare v w) :
    ∃ it w ps, insert compare t v = some (t, it, false)
      ∧ positions t = some ps ∧ it ∈ ps
      ∧ iter_deref t it = some w ∧ equiv compare v w := by
  obtain ⟨S, hinv⟩ := hwf
  have hl := to_list_sim hinv.toStructural
  rw [hks, Option.some.injEq] at hl
  subst hl
  obtain ⟨a, hloc⟩ := locate_dup compare hswo.trans v S [] hinv.ordered hdup
  obtain ⟨e, w, hw, he, -, ha⟩ := emplace_inl compare hinv.toStructural hloc
  refine ⟨_, w, _, e, positions_sim hinv.toStructural, ?_, hw, he⟩
  exact List.mem_map.mpr ⟨a, ha, rfl⟩

/-- The balance field stored at every address of a balanced laid-out shape is the height of
what hangs off its `right` link minus the height of what hangs off its `left` link. -/
theorem balance_at {t : avl_tree T} {S : Shape T} (hs : Structural t S) {a : Nat}
    (ha : a ∈ S.addrs) :
    ∃ n, rd t (some a) = some n
      ∧ n.balance = ((shape_from t.store t.store.length n.right).height : Int)
          - ((shape_from t.store t.store.length n.left).height : Int)
      ∧ -1 ≤ n.balance ∧ n.balance ≤ 1 := by
  obtain ⟨c, l, v, b, r, e⟩ := focus_at S [] ha
  simp only [plug] at e
  have L : Lays t c (Shape.node l a v b r) := (Lays_plug c).mp (e ▸ hs.lays)
  have hb := L.budget
  simp only [Shape.height] at hb
  have hbal : (Shape.node l a v b r).Balanced := by
    have := hs.balanced
    rw [← e, plug_balanced] at this
    exact this.1
  obtain ⟨e1, h1, h2, -, -⟩ := hbal
  refine ⟨_, L.cell, ?_, h1, h2⟩
  simp only []
  rw [shape_from_eq r (some a) _ L.sub_ok.2.2 (by omega),
    shape_from_eq l (some a) _ L.sub_ok.2.1 (by omega)]
  exact e1

/-- C4. After every sequence of insertions into the empty tree, whatever the comparator, every
node's stored balance field equals exactly the height of its right subtree minus the height of
its left subtree, computed from the actual tree shape, and that value is in `-1..1`; the nodes
in question are the `size()` positions of the container. -/
theorem C4_balance_fields_are_exact (compare : T → T → Bool) (keys : List T) :
    ∃ t ps, insert_all compare empty_tree keys = some t
      ∧ (shape_of t).Balanced
      ∧ positions t = some ps ∧ ps.length = size t
      ∧ ∀ it ∈ ps, ∃ n, rd t it.current = some n
          ∧ iter_balance t it = some n.balance
          ∧ n.balance = ((shape_from t.store t.store.length n.right).height : Int)
              - ((shape_from t.store t.store.length n.left).height : Int)
          ∧ -1 ≤ n.balance ∧ n.balance ≤ 1 := by
  obtain ⟨t, S, e, hs⟩ :=
    insert_all_structural compare keys empty_tree Shape.nil structural_empty
  refine ⟨t, _, e, by rw [shape_of_eq hs]; exact hs.balanced, positions_sim hs, ?_, ?_⟩
  · simp only [List.length_map, size, hs.count, count_eq_length]
  · intro it hit
    obtain ⟨a, ha, rfl⟩ := List.mem_map.mp hit
    obtain ⟨n, hn, h1, h2, h3⟩ := balance_at hs ha
    refine ⟨n, hn, ?_, h1, h2, h3⟩
    simp only [iter_balance, balance_of, hn, Option.map_some']

/-- C5. For every comparator that is a strict weak order and every sequence of insertions into
an empty tree, the keys visited by ascending iteration are strictly increasing under
`compare`: each visited key compares less than the next one (and than every later one). -/
theorem C5_iteration_strictly_increasing (compare : T → T → Bool)
    (hswo : StrictWeakOrder compare) (keys : List T) :
    ∃ t l, insert_all compare empty_tree keys = some t ∧ to_list t = some l
      ∧ l.Chain' (fun a b => compare a b = true)
      ∧ l.Pairwise (fun a b => compare a b = true) := by
  obtain ⟨t, S, e, -, hl, hpw, -⟩ := built compare hswo keys
  exact ⟨t, S.keys, e, hl, List.Pairwise.chain' hpw, hpw⟩

/-- C6. After any sequence of insertions into an empty tree, `size()` equals the number of
nodes reachable from `root`, which equals the number of pairwise non-equivalent keys in the
inserted sequence: the length of every family of pairwise non-equivalent inserted keys that
has an equivalent of each inserted key (such a family exists); in particular inserting `n`
pairwise non-equivalent keys in any order gives `size() = n`. -/
theorem C6_size_counts_distinct_keys (compare : T → T → Bool)
    (hswo : StrictWeakOrder compare) (keys : List T) :
    ∃ t, insert_all compare empty_tree keys = some t
      ∧ size t = (shape_of t).count
      ∧ (∀ reps : List T, (∀ r ∈ reps, r ∈ keys) →
          reps.Pairwise (fun a b => ¬ equiv compare a b) →
          (∀ k ∈ keys, ∃ r ∈ reps, equiv compare k r) → size t = reps.length)
      ∧ (∃ reps : List T, reps.Sublist keys
          ∧ reps.Pairwise (fun a b => ¬ equiv compare a b)
          ∧ (∀ k ∈ keys, ∃ r ∈ reps, equiv compare k r) ∧ size t = reps.length)
      ∧ (keys.Pairwise (fun a b => ¬ equiv compare a b) → size t = keys.length) := by
  obtain ⟨t, S, e, hinv, -, -, hperm, hsize, hshape⟩ := built compare hswo keys
  have hlen : size t = (kept compare [] keys).length := by rw [hsize, hperm.length_eq]
  have hkp := kept_pairwise compare keys [] List.Pairwise.nil
  have hkc := kept_covers compare hswo.irrefl keys []
  have hkm : ∀ x ∈ kept compare [] keys, x ∈ keys := by
    intro x hx
    rcases kept_mem compare keys [] x hx with h | h
    · cases h
    · exact h
  refine ⟨t, e, ?_, ?_, ?_, ?_⟩
  · rw [hshape]
    exact hinv.count
  · intro reps hin hp hc
    rw [hlen]
    refine le_antisymm ?_ ?_
    · exact classes_le compare hswo _ _ hkp (fun a ha => hc a (hkm a ha))
    · exact classes_le compare hswo _ _ hp (fun a ha => hkc a (hin a ha))
  · obtain ⟨rest, he, hsub⟩ := kept_sublist compare keys []
    simp only [List.nil_append] at he
    exact ⟨kept compare [] keys, he ▸ hsub, hkp, hkc, hlen⟩
  · intro hd
    rw [hlen, kept_of_distinct compare keys [] (by simpa using hd)]
    simp

/-- C7. After every sequence of insertions into the empty tree under a strict weak order, the
cached `minimum` and `maximum` are the leftmost and rightmost nodes reachable from `root`,
both null exactly when the tree is empty; on a non-empty tree `*begin()` is the least stored
key and `*--end()` is the greatest stored key. -/
theorem C7_minimum_maximum_caches (compare : T → T → Bool) (hswo : StrictWeakOrder compare)
    (keys : List T) :
    ∃ t, insert_all compare empty_tree keys = some t
      ∧ (t.minimum = none ↔ t.root = none) ∧ (t.maximum = none ↔ t.root = none)
      ∧ (t.root ≠ none →
          leftmost_loop t (t.store.length + 1) t.root = some t.minimum
          ∧ rightmost_loop t (t.store.length + 1) t.root = some t.maximum
          ∧ ∃ l lo hi it, to_list t = some l
            ∧ iter_deref t (begin_ t) = some lo
            ∧ iter_prev t (end_ t) = some it ∧ iter_deref t it = some hi
            ∧ lo ∈ l ∧ hi ∈ l
            ∧ ∀ k ∈ l, compare k lo = false ∧ compare hi k = false) := by
  obtain ⟨t, S, e, hinv, hl, hpw, -⟩ := built compare hswo keys
  have hs := hinv.toStructural
  have hL := hs.lays
  have hb := hL.budget
  simp only [List.length_nil, Nat.zero_add] at hb
  have hnil : S.addrs = [] ↔ S.ptr = none := by
    cases S <;> simp [Shape.addrs, Shape.ptr]
  refine ⟨t, e, ?_, ?_, ?_⟩
  · rw [hs.minimum, hs.root, List.head?_eq_none_iff, hnil]
  · rw [hs.maximum, hs.root, List.getLast?_eq_none_iff, hnil]
  · intro hroot
    rw [hs.root] at hroot
    have hlm := leftmost_loop_sim S [] (t.store.length + 1) hL hroot (by omega)
    have hrm := rightmost_loop_sim S [] (t.store.length + 1) hL hroot (by omega)
    rw [← hs.root, ← hs.minimum] at hlm
    rw [← hs.root, ← hs.maximum] at hrm
    refine ⟨hlm, hrm, ?_⟩
    have hne := addrs_ne_nil hroot
    obtain ⟨m, hm⟩ : ∃ m, S.addrs.head? = some m := by
      rcases hx : S.addrs with _ | ⟨x, xs⟩
      · exact absurd hx hne
      · exact ⟨x, rfl⟩
    obtain ⟨M, hM⟩ : ∃ M, S.addrs.getLast? = some M :=
      ⟨S.addrs.getLast hne, List.getLast?_eq_getLast _ hne⟩
    have hv := Rep_values S none hs.rep
    obtain ⟨lo, hlo, hlov⟩ := forall₂_head hv hm
    obtain ⟨hi, hhi, hhiv⟩ := forall₂_last hv hM
    have hlo_mem : lo ∈ S.keys := List.mem_of_mem_head? hlo
    have hhi_mem : hi ∈ S.keys := List.mem_of_getLast?_eq_some hhi
    refine ⟨S.keys, lo, hi, { root := t.root, current := some M }, hl, ?_, ?_, ?_, hlo_mem,
      hhi_mem, ?_⟩
    · simp only [iter_deref, begin_, hs.minimum, hm, value_of_def]
      exact hlov
    · simp only [iter_prev, end_, if_true, hrm, hs.maximum, hM, Option.bind_eq_bind,
        Option.some_bind]
    · simp only [iter_deref, value_of_def]
      exact hhiv
    · intro k hk
      constructor
      · rcases hx : S.keys with _ | ⟨x, xs⟩
        · rw [hx] at hk
          cases hk
        · rw [hx] at hlo hk hpw
          simp only [List.head?_cons, Option.some.injEq] at hlo
          subst hlo
          rcases List.mem_cons.mp hk with rfl | hk'
          · exact hswo.irrefl _
          · exact swo_asymm hswo ((List.pairwise_cons.mp hpw).1 k hk')
      · obtain ⟨init, hinit⟩ : ∃ init, S.keys = init ++ [hi] := by
          have hne' : S.keys ≠ [] := List.ne_nil_of_mem hk
          refine ⟨S.keys.dropLast, ?_⟩
          have h1 := List.dropLast_append_getLast hne'
          have h2 := List.getLast?_eq_getLast _ hne'
          rw [hhi, Option.some.injEq] at h2
          rw [h2]
          exact h1.symm
        rw [hinit] at hk hpw
        rcases List.mem_append.mp hk with hk' | hk'
        · exact swo_asymm hswo
            ((List.pairwise_append.mp hpw).2.2 k hk' hi (List.mem_singleton_self _))
        · simp only [List.mem_singleton] at hk'
          subst hk'
          exact hswo.irrefl _

/-- The sample container satisfies the data-model invariants under `<`. -/
theorem sample_tree_wf : WellFormed less sample_tree := by
  obtain ⟨t, S, e, hinv, -⟩ :=
    insert_all_invariant less (swo_less (T := Nat)).trans [2, 1, 3] empty_tree Shape.nil
      (invariant_empty less)
  have h : insert_all less (empty_tree : avl_tree Nat) [2, 1, 3] = some sample_tree := by decide
  rw [h, Option.some.injEq] at e
  exact ⟨S, e ▸ hinv⟩

/-- The comparator `less_half` is a strict weak order. -/
theorem swo_less_half : StrictWeakOrder less_half := by
  refine ⟨?_, ?_, ?_⟩
  · intro a
    simp [less_half]
  · intro a b c h1 h2
    simp only [less_half, decide_eq_true_eq] at h1 h2 ⊢
    exact lt_trans h1 h2
  · intro a b c h1 h2
    simp only [equiv, less_half, decide_eq_false_iff_not, not_lt] at h1 h2 ⊢
    exact ⟨le_trans h2.1 h1.1, le_trans h1.2 h2.2⟩

/-- Instance of C2: inserting the absent key 4 into the sample container `{1, 2, 3}`. -/
theorem C2_insert_of_absent_key_witness :
    ∃ t' it ks', insert less sample_tree 4 = some (t', it, true)
      ∧ iter_deref t' it = some 4
      ∧ size t' = size sample_tree + 1
      ∧ to_list t' = some ks' ∧ ks'.Perm (4 :: [1, 2, 3])
      ∧ WellFormed less t' :=
  C2_insert_of_absent_key less swo_less sample_tree 4 [1, 2, 3] sample_tree_wf (by decide)
    (by simp [equiv, less])

/-- Instance of C3: inserting the stored key 3 into the sample container `{1, 2, 3}`. -/
theorem C3_insert_of_present_key_witness :
    ∃ it w ps, insert less sample_tree 3 = some (sample_tree, it, false)
      ∧ positions sample_tree = some ps ∧ it ∈ ps
      ∧ iter_deref sample_tree it = some w ∧ equiv less 3 w :=
  C3_insert_of_present_key less swo_less sample_tree 3 [1, 2, 3] sample_tree_wf (by decide)
    ⟨3, by decide, by simp [equiv, less]⟩

/-- Instance of C5: the keys 5, 1, 3, 1 under `<`. -/
theorem C5_iteration_strictly_increasing_witness :
    ∃ t l, insert_all less (empty_tree : avl_tree Nat) [5, 1, 3, 1] = some t
      ∧ to_list t = some l
      ∧ l.Chain' (fun a b => less a b = true)
      ∧ l.Pairwise (fun a b => less a b = true) :=
  C5_iteration_strictly_increasing less swo_less [5, 1, 3, 1]

/-- Instance of C6: the keys 0, 1, 2, 3 under the comparison of halves, two classes. -/
theorem C6_size_counts_distinct_keys_witness :
    ∃ t, insert_all less_half empty_tree [0, 1, 2, 3] = some t
      ∧ size t = (shape_of t).count
      ∧ (∀ reps : List Nat, (∀ r ∈ reps, r ∈ [0, 1, 2, 3]) →
          reps.Pairwise (fun a b => ¬ equiv less_half a b) →
          (∀ k ∈ [0, 1, 2, 3], ∃ r ∈ reps, equiv less_half k r) → size t = reps.length)
      ∧ (∃ reps : List Nat, reps.Sublist [0, 1, 2, 3]
          ∧ reps.Pairwise (fun a b => ¬ equiv less_half a b)
          ∧ (∀ k ∈ [0, 1, 2, 3], ∃ r ∈ reps, equiv less_half k r) ∧ size t = reps.length)
      ∧ (([0, 1, 2, 3] : List Nat).Pairwise (fun a b => ¬ equiv less_half a b) →
          size t = ([0, 1, 2, 3] : List Nat).length) :=
  C6_size_counts_distinct_keys less_half swo_less_half [0, 1, 2, 3]

/-- Instance of C7: the keys 1 to 5 inserted in ascending order, which rotates twice. -/
theorem C7_minimum_maximum_caches_witness :
    ∃ t, insert_all less (empty_tree : avl_tree Nat) [1, 2, 3, 4, 5] = some t
      ∧ (t.minimum = none ↔ t.root = none) ∧ (t.maximum = none ↔ t.root = none)
      ∧ (t.root ≠ none →
          leftmost_loop t (t.store.length + 1) t.root = some t.minimum
          ∧ rightmost_loop t (t.store.length + 1) t.root = some t.maximum
          ∧ ∃ l lo hi it, to_list t = some l
            ∧ iter_deref t (begin_ t) = some lo
            ∧ iter_prev t (end_ t) = some it ∧ iter_deref t it = some hi
            ∧ lo ∈ l ∧ hi ∈ l
            ∧ ∀ k ∈ l, less k lo = false ∧ less hi k = false) :=
  C7_minimum_maximum_caches less swo_less [1, 2, 3, 4, 5]

/-- Running the insertions on the empty tree gives the container whose shape the functional
mirror computes. -/
theorem run_from_empty (compare : T → T → Bool) (ks : List T) {S : Shape T}
    (h : insert_all_shape compare Shape.nil 0 ks = some S) :
    ∃ t, insert_all compare empty_tree ks = some t ∧ Structural t S ∧ shape_of t = S
      ∧ size t = S.count := by
  obtain ⟨t, e, hs⟩ := insert_all_shape_sim compare ks empty_tree Shape.nil S structural_empty h
  exact ⟨t, e, hs, shape_of_eq hs, hs.count⟩

/-- C9. For every three keys `a < b < c` under a strict weak order, inserting them into an
empty tree in the order `(a, b, c)`, `(c, b, a)`, `(b, a, c)` or `(a, c, b)` yields in each
case the tree whose root holds `b`, whose left child holds `a` and whose right child holds
`c`, both children being leaves, with all three balance fields 0 and `size() = 3`; the nodes
keep the addresses given to them in insertion order. -/
theorem C9_three_key_orders (compare : T → T → Bool) (hswo : StrictWeakOrder compare)
    (a b c : T) (hab : compare a b = true) (hbc : compare b c = true) :
    (∃ t, insert_all compare empty_tree [a, b, c] = some t ∧ size t = 3
      ∧ shape_of t = Shape.node (Shape.node Shape.nil 0 a 0 Shape.nil) 1 b 0
          (Shape.node Shape.nil 2 c 0 Shape.nil))
    ∧ (∃ t, insert_all compare empty_tree [c, b, a] = some t ∧ size t = 3
      ∧ shape_of t = Shape.node (Shape.node Shape.nil 2 a 0 Shape.nil) 1 b 0
          (Shape.node Shape.nil 0 c 0 Shape.nil))
    ∧ (∃ t, insert_all compare empty_tree [b, a, c] = some t ∧ size t = 3
      ∧ shape_of t = Shape.node (Shape.node Shape.nil 1 a 0 Shape.nil) 0 b 0
          (Shape.node Shape.nil 2 c 0 Shape.nil))
    ∧ (∃ t, insert_all compare empty_tree [a, c, b] = some t ∧ size t = 3
      ∧ shape_of t = Shape.node (Shape.node Shape.nil 0 a 0 Shape.nil) 2 b 0
          (Shape.node Shape.nil 1 c 0 Shape.nil)) := by
  have hac := hswo.trans a b c hab hbc
  have hba := swo_asymm hswo hab
  have hcb := swo_asymm hswo hbc
  have hca := swo_asymm hswo hac
  have haa := hswo.irrefl a
  have hbb := hswo.irrefl b
  have hcc := hswo.irrefl c
  refine ⟨?_, ?_, ?_, ?_⟩
  · obtain ⟨t, e, -, hsh, hsz⟩ := run_from_empty compare [a, b, c]
      (S := Shape.node (Shape.node Shape.nil 0 a 0 Shape.nil) 1 b 0
        (Shape.node Shape.nil 2 c 0 Shape.nil))
      (by simp [insert_all_shape, insert_shape, locate, rebalance_walk, fix_left_shape,
        fix_right_shape, plug, Frame.fill, hab, hbc, hac, hba, hcb, hca, haa, hbb, hcc])
    exact ⟨t, e, hsz, hsh⟩
  · obtain ⟨t, e, -, hsh, hsz⟩ := run_from_empty compare [c, b, a]
      (S := Shape.node (Shape.node Shape.nil 2 a 0 Shape.nil) 1 b 0
        (Shape.node Shape.nil 0 c 0 Shape.nil))
      (by simp [insert_all_shape, insert_shape, locate, rebalance_walk, fix_left_shape,
        fix_right_shape, plug, Frame.fill, hab, hbc, hac, hba, hcb, hca, haa, hbb, hcc])
    exact ⟨t, e, hsz, hsh⟩
  · obtain ⟨t, e, -, hsh, hsz⟩ := run_from_empty compare [b, a, c]
      (S := Shape.node (Shape.node Shape.nil 1 a 0 Shape.nil) 0 b 0
        (Shape.node Shape.nil 2 c 0 Shape.nil))
      (by simp [insert_all_shape, insert_shape, locate, rebalance_walk, fix_left_shape,
        fix_right_shape, plug, Frame.fill, hab, hbc, hac, hba, hcb, hca, haa, hbb, hcc])
    exact ⟨t, e, hsz, hsh⟩
  · obtain ⟨t, e, -, hsh, hsz⟩ := run_from_empty compare [a, c, b]
      (S := Shape.node (Shape.node Shape.nil 0 a 0 Shape.nil) 2 b 0
        (Shape.node Shape.nil 1 c 0 Shape.nil))
      (by simp [insert_all_shape, insert_shape, locate, rebalance_walk, fix_left_shape,
        fix_right_shape, plug, Frame.fill, hab, hbc, hac, hba, hcb, hca, haa, hbb, hcc])
    exact ⟨t, e, hsz, hsh⟩

/-- Instance of C9: the keys 1, 2, 3 under `<`. -/
theorem C9_three_key_orders_witness :
    (∃ t, insert_all less empty_tree [1, 2, 3] = some t ∧ size t = 3
      ∧ shape_of t = Shape.node (Shape.node Shape.nil 0 1 0 Shape.nil) 1 2 0
          (Shape.node Shape.nil 2 3 0 Shape.nil))
    ∧ (∃ t, insert_all less empty_tree [3, 2, 1] = some t ∧ size t = 3
      ∧ shape_of t = Shape.node (Shape.node Shape.nil 2 1 0 Shape.nil) 1 2 0
          (Shape.node Shape.nil 0 3 0 Shape.nil))
    ∧ (∃ t, insert_all less empty_tree [2, 1, 3] = some t ∧ size t = 3
      ∧ shape_of t = Shape.node (Shape.node Shape.nil 1 1 0 Shape.nil) 0 2 0
          (Shape.node Shape.nil 2 3 0 Shape.nil))
    ∧ (∃ t, insert_all less empty_tree [1, 3, 2] = some t ∧ size t = 3
      ∧ shape_of t = Shape.node (Shape.node Shape.nil 0 1 0 Shape.nil) 2 2 0
          (Shape.node Shape.nil 1 3 0 Shape.nil)) :=
  C9_three_key_orders (less : Nat → Nat → Bool) swo_less 1 2 3 (by decide) (by decide)

/-- C10, as stated, fails: under the strict weak order that compares natural numbers by their
halves, the sequences `0, 1` and `1, 0` are permutations of each other, yet ascending
iteration gives `0` after the first and `1` after the second, since the key inserted first is
the one kept. -/
theorem C10_counterexample :
    StrictWeakOrder less_half ∧ List.Perm [0, 1] [1, 0]
      ∧ (insert_all less_half empty_tree [0, 1]).bind to_list = some [0]
      ∧ (insert_all less_half empty_tree [1, 0]).bind to_list = some [1] :=
  ⟨swo_less_half, List.Perm.swap 1 0 [], by decide, by decide⟩

/-- C10, amended. For every strict weak order and every two key sequences that are
permutations of each other, inserting each into its own empty tree gives two containers whose
ascending iteration sequences have the same length and are equivalent under `compare`,
element for element; they are identical, element for element, when equivalent keys are equal
(the comparator is a total order on the keys). -/
theorem C10_insertion_order_irrelevant (compare : T → T → Bool)
    (hswo : StrictWeakOrder compare) (ks1 ks2 : List T) (hperm : ks1.Perm ks2) :
    ∃ t1 t2 l1 l2, insert_all compare empty_tree ks1 = some t1
      ∧ insert_all compare empty_tree ks2 = some t2
      ∧ to_list t1 = some l1 ∧ to_list t2 = some l2
      ∧ l1.length = l2.length
      ∧ List.Forall₂ (equiv compare) l1 l2
      ∧ ((∀ a b, equiv compare a b → a = b) → l1 = l2) := by
  obtain ⟨t1, S1, e1, -, hl1, hpw1, hp1, -, -⟩ := built compare hswo ks1
  obtain ⟨t2, S2, e2, -, hl2, hpw2, hp2, -, -⟩ := built compare hswo ks2
  obtain ⟨hin1, hcov1⟩ := built_members compare hswo ks1 hp1
  obtain ⟨hin2, hcov2⟩ := built_members compare hswo ks2 hp2
  have hf : List.Forall₂ (equiv compare) S1.keys S2.keys :=
    sorted_equiv compare hswo S1.keys S2.keys hpw1 hpw2
      (fun x hx => hcov2 x (hperm.mem_iff.mp (hin1 x hx)))
      (fun y hy => hcov1 y (hperm.mem_iff.mpr (hin2 y hy)))
  exact ⟨t1, t2, S1.keys, S2.keys, e1, e2, hl1, hl2, hf.length_eq, hf,
    fun h => forall₂_eq_of_imp h hf⟩

/-- Instance of amended C10: the keys 3, 1, 2, 1 and 1, 2, 1, 3 under `<`. -/
theorem C10_insertion_order_irrelevant_witness :
    ∃ t1 t2 l1 l2, insert_all less (empty_tree : avl_tree Nat) [3, 1, 2, 1] = some t1
      ∧ insert_all less empty_tree [1, 2, 1, 3] = some t2
      ∧ to_list t1 = some l1 ∧ to_list t2 = some l2
      ∧ l1.length = l2.length
      ∧ List.Forall₂ (equiv less) l1 l2
      ∧ ((∀ a b : Nat, equiv less a b → a = b) → l1 = l2) :=
  C10_insertion_order_irrelevant less swo_less [3, 1, 2, 1] [1, 2, 1, 3] (by decide)

/-! ## The height of a balanced shape -/

/-- A balanced shape of height `h` has at least `fib (h + 2) - 1` nodes. -/
theorem fib_le_count (S : Shape T) : S.Balanced → Nat.fib (S.height + 2) ≤ S.count + 1 := by
  induction S with
  | nil =>
    intro _
    simp [Shape.height, Shape.count]
  | node l a v b r ihl ihr =>
    intro h
    obtain ⟨e, h1, h2, hl, hr⟩ := h
    have il := ihl hl
    have ir := ihr hr
    simp only [Shape.height, Shape.count]
    generalize l.height = p at *
    generalize r.height = q at *
    rcases Nat.lt_trichotomy p q with hlt | heq | hgt
    · have hq : q = p + 1 := by omega
      subst hq
      rw [max_eq_right (by omega)]
      have f : Nat.fib (p + 4) = Nat.fib (p + 2) + Nat.fib (p + 3) := Nat.fib_add_two
      have il2 : Nat.fib (p + 2) ≤ l.count + 1 := il
      have ir2 : Nat.fib (p + 3) ≤ r.count + 1 := ir
      show Nat.fib (p + 4) ≤ l.count + 1 + r.count + 1
      omega
    · subst heq
      rw [max_self]
      have f : Nat.fib (p + 3) = Nat.fib (p + 1) + Nat.fib (p + 2) := Nat.fib_add_two
      have m : Nat.fib (p + 1) ≤ Nat.fib (p + 2) := Nat.fib_le_fib_succ
      have il2 : Nat.fib (p + 2) ≤ l.count + 1 := il
      have ir2 : Nat.fib (p + 2) ≤ r.count + 1 := ir
      show Nat.fib (p + 3) ≤ l.count + 1 + r.count + 1
      omega
    · have hp : p = q + 1 := by omega
      subst hp
      rw [max_eq_left (by omega)]
      have f : Nat.fib (q + 4) = Nat.fib (q + 2) + Nat.fib (q + 3) := Nat.fib_add_two
      have il2 : Nat.fib (q + 3) ≤ l.count + 1 := il
      have ir2 : Nat.fib (q + 2) ≤ r.count + 1 := ir
      show Nat.fib (q + 4) ≤ l.count + 1 + r.count + 1
      omega

/-- From `2 ^ p ≤ x ^ q` to `p / q ≤ log₂ x`. -/
theorem le_logb_of_pow_le (x p q : Nat) (hq : 0 < q) (hx : 0 < x) (h : 2 ^ p ≤ x ^ q) :
    (p : ℝ) / q ≤ Real.logb 2 x := by
  have hx0 : (0 : ℝ) < x := by exact_mod_cast hx
  rw [Real.le_logb_iff_rpow_le (by norm_num) hx0]
  by_contra hc
  rw [not_le] at hc
  have hq0 : (q : ℝ) ≠ 0 := by
    have : (0 : ℝ) < q := by exact_mod_cast hq
    exact ne_of_gt this
  have h1 : (x : ℝ) ^ q < ((2 : ℝ) ^ ((p : ℝ) / q)) ^ q :=
    pow_lt_pow_left₀ hc (le_of_lt hx0) (by omega)
  have h2 : ((2 : ℝ) ^ ((p : ℝ) / q)) ^ q = (2 : ℝ) ^ p := by
    rw [← Real.rpow_natCast, ← Real.rpow_mul (by norm_num), div_mul_cancel₀ _ hq0,
      Real.rpow_natCast]
  have h3 : ((2 : ℝ) ^ p) ≤ (x : ℝ) ^ q := by exact_mod_cast h
  rw [h2] at h1
  exact absurd h3 (not_le.mpr h1)

/-- From `x ^ q < 2 ^ p` to `log₂ x < p / q`. -/
theorem logb_lt_of_pow_lt (x p q : Nat) (hq : 0 < q) (hx : 0 < x) (h : x ^ q < 2 ^ p) :
    Real.logb 2 x < (p : ℝ) / q := by
  have hx0 : (0 : ℝ) < x := by exact_mod_cast hx
  rw [Real.logb_lt_iff_lt_rpow (by norm_num) hx0]
  by_contra hc
  rw [not_lt] at hc
  have hq0 : (q : ℝ) ≠ 0 := by
    have : (0 : ℝ) < q := by exact_mod_cast hq
    exact ne_of_gt this
  have hpos : (0 : ℝ) ≤ (2 : ℝ) ^ ((p : ℝ) / q) := le_of_lt (Real.rpow_pos_of_pos (by norm_num) _)
  have h1 : ((2 : ℝ) ^ ((p : ℝ) / q)) ^ q ≤ (x : ℝ) ^ q := pow_le_pow_left₀ hpos hc q
  have h2 : ((2 : ℝ) ^ ((p : ℝ) / q)) ^ q = (2 : ℝ) ^ p := by
    rw [← Real.rpow_natCast, ← Real.rpow_mul (by norm_num), div_mul_cancel₀ _ hq0,
      Real.rpow_natCast]
  have h3 : (x : ℝ) ^ q < (2 : ℝ) ^ p := by exact_mod_cast h
  rw [h2] at h1
  exact absurd h1 (not_le.mpr h3)

/-- Fibonacci numbers from the twelfth on dominate `0.4473 * 1.618 ^ k`. -/
theorem fib_lower (k : Nat) :
    4473 * 809 ^ (k + 12) ≤ Nat.fib (k + 12) * 10000 * 500 ^ (k + 12)
      ∧ 4473 * 809 ^ (k + 13) ≤ Nat.fib (k + 13) * 10000 * 500 ^ (k + 13) := by
  induction k with
  | zero => exact ⟨by decide!, by decide!⟩
  | succ k ih =>
    obtain ⟨h1, h2⟩ := ih
    refine ⟨h2, ?_⟩
    have f : Nat.fib (k + 1 + 13) = Nat.fib (k + 12) + Nat.fib (k + 13) := Nat.fib_add_two
    rw [f]
    have e1 : 809 ^ (k + 1 + 13) = 809 ^ (k + 12) * 654481 := by
      rw [show k + 1 + 13 = (k + 12) + 2 from rfl, pow_add]
      norm_num
    have e2 : 809 ^ (k + 13) = 809 ^ (k + 12) * 809 := by
      rw [show k + 13 = (k + 12) + 1 from rfl, pow_succ]
    have e3 : 500 ^ (k + 1 + 13) = 500 ^ (k + 12) * 250000 := by
      rw [show k + 1 + 13 = (k + 12) + 2 from rfl, pow_add]
      norm_num
    have e4 : 500 ^ (k + 13) = 500 ^ (k + 12) * 500 := by
      rw [show k + 13 = (k + 12) + 1 from rfl, pow_succ]
    rw [e2, e4] at h2
    rw [e1, e3]
    generalize 809 ^ (k + 12) = A at *
    generalize 500 ^ (k + 12) = B at *
    generalize Nat.fib (k + 12) = F at *
    generalize Nat.fib (k + 13) = G at *
    nlinarith [h1, h2]

/-- Raising a lower bound `A * D ^ (n + 2) ≤ F * C * B ^ (n + 2)` to the power `m` and
cancelling, given lower bounds for `(A * D ^ 2) ^ m` and `D ^ m`. -/
theorem pow_transfer (F A B C D E1 E2 m n : Nat) (hB : 0 < B) (hC : 0 < C)
    (h : A * D ^ (n + 2) ≤ F * C * B ^ (n + 2))
    (c1 : E1 * (C * B ^ 2) ^ m ≤ (A * D ^ 2) ^ m) (c2 : E2 * B ^ m ≤ D ^ m) :
    E1 * E2 ^ n ≤ F ^ m := by
  have h1 : (A * D ^ (n + 2)) ^ m ≤ (F * C * B ^ (n + 2)) ^ m := Nat.pow_le_pow_left h m
  have h2 : (A * D ^ (n + 2)) ^ m = (A * D ^ 2) ^ m * (D ^ m) ^ n := by ring_nf
  have h3 : (F * C * B ^ (n + 2)) ^ m = F ^ m * ((C * B ^ 2) ^ m * (B ^ m) ^ n) := by ring_nf
  have h4 : (E2 * B ^ m) ^ n ≤ (D ^ m) ^ n := Nat.pow_le_pow_left c2 n
  have h5 : E1 * (C * B ^ 2) ^ m * (E2 * B ^ m) ^ n ≤ (A * D ^ 2) ^ m * (D ^ m) ^ n :=
    Nat.mul_le_mul c1 h4
  have h6 : E1 * (C * B ^ 2) ^ m * (E2 * B ^ m) ^ n
      = E1 * E2 ^ n * ((C * B ^ 2) ^ m * (B ^ m) ^ n) := by ring_nf
  have hK : 0 < (C * B ^ 2) ^ m * (B ^ m) ^ n := by positivity
  rw [h2, h3] at h1
  rw [h6] at h5
  exact Nat.le_of_mul_le_mul_right (le_trans h5 h1) hK

/-- The inequality behind the bound `h ≤ 1.4405 * log₂ (n + 2) - 0.3277`, in integers. -/
theorem knuth_pow (h : Nat) : 2 ^ (10000 * h + 3277) ≤ (Nat.fib (h + 2) + 1) ^ 14405 := by
  rcases Nat.lt_or_ge h 10 with hlt | hge
  · interval_cases h <;> decide!
  · obtain ⟨k, rfl⟩ : ∃ k, h = k + 10 := ⟨h - 10, by omega⟩
    have hf := (fib_lower k).1
    have key : 2 ^ 3277 * (2 ^ 10000) ^ (k + 10) ≤ Nat.fib (k + 12) ^ 14405 :=
      pow_transfer (Nat.fib (k + 12)) 4473 500 10000 809 (2 ^ 3277) (2 ^ 10000) 14405 (k + 10)
        (by decide) (by decide) hf (by decide!) (by decide!)
    have e : 2 ^ (10000 * (k + 10) + 3277) = 2 ^ 3277 * (2 ^ 10000) ^ (k + 10) := by
      rw [pow_add, pow_mul, mul_comm]
    rw [e]
    exact le_trans key (Nat.pow_le_pow_left (Nat.le_succ _) _)

/-- The inequality behind the bound `h ≤ 1.44 * log₂ (n + 2) - 0.328`, which holds up to
height 12. -/
theorem small_pow (h : Nat) (hh : h ≤ 12) :
    2 ^ (1000 * h + 328) ≤ (Nat.fib (h + 2) + 1) ^ 1440 := by
  interval_cases h <;> decide!

/-- A shape with at most 608 nodes whose height is `h` with `fib (h + 2) ≤ count + 1` has
height at most 12. -/
theorem height_le_twelve (h n : Nat) (hf : Nat.fib (h + 2) ≤ n + 1) (hn : n ≤ 608) : h ≤ 12 := by
  by_contra hc
  have h15 : Nat.fib 15 ≤ Nat.fib (h + 2) := Nat.fib_mono (by omega)
  have e : Nat.fib 15 = 610 := by decide
  omega

/-- The height bound with the constants 1.4405 and 0.3277. -/
theorem height_bound_real (h n : Nat) (hf : Nat.fib (h + 2) ≤ n + 1) :
    (h : ℝ) ≤ 1.4405 * Real.logb 2 ((n : ℝ) + 2) - 0.3277 := by
  have h1 : 2 ^ (10000 * h + 3277) ≤ (n + 2) ^ 14405 :=
    le_trans (knuth_pow h) (Nat.pow_le_pow_left (by omega) _)
  have h2 := le_logb_of_pow_le (n + 2) (10000 * h + 3277) 14405 (by decide) (by omega) h1
  rw [div_le_iff₀ (by norm_num)] at h2
  push_cast at h2
  linarith

/-- The height bound with the constants 1.44 and 0.328, up to 608 nodes. -/
theorem height_bound_small (h n : Nat) (hf : Nat.fib (h + 2) ≤ n + 1) (hn : n ≤ 608) :
    (h : ℝ) ≤ 1.44 * Real.logb 2 ((n : ℝ) + 2) - 0.328 := by
  have h1 : 2 ^ (1000 * h + 328) ≤ (n + 2) ^ 1440 :=
    le_trans (small_pow h (height_le_twelve h n hf hn)) (Nat.pow_le_pow_left (by omega) _)
  have h2 := le_logb_of_pow_le (n + 2) (1000 * h + 328) 1440 (by decide) (by omega) h1
  rw [div_le_iff₀ (by norm_num)] at h2
  push_cast at h2
  linarith

/-- `1.44 * log₂ 611 - 0.328 < 13`. -/
theorem bound_at_611 : ¬ ((13 : ℝ) ≤ 1.44 * Real.logb 2 ((609 : ℝ) + 2) - 0.328) := by
  have h := logb_lt_of_pow_lt 611 833 90 (by decide) (by decide) (by decide!)
  rw [lt_div_iff₀ (by norm_num)] at h
  push_cast at h
  have e : ((609 : ℝ) + 2) = 611 := by norm_num
  rw [e]
  intro hc
  linarith

/-- The functional mirror of the insertions of `fib_keys`: height 13 with 609 nodes. -/
theorem fib_keys_shape :
    (insert_all_shape less (Shape.nil : Shape Nat) 0 fib_keys).map
      (fun S => (S.height, S.count)) = some (13, 609) := by
  decide!

/-- C8, as stated, fails: inserting the 609 keys `fib_keys` into the empty tree gives a
container of `size() = 609` whose height (the largest iterator `height()`, the number of nodes
on the longest path from the root) is 13, above `1.44 * log2(609 + 2) - 0.328`, which is less
than 13. -/
theorem C8_counterexample :
    ∃ t h, insert_all less empty_tree fib_keys = some t ∧ size t = 609
      ∧ tree_height t = some h ∧ (shape_of t).height = h ∧ h = 13
      ∧ ¬ ((h : ℝ) ≤ 1.44 * Real.logb 2 ((size t : ℝ) + 2) - 0.328) := by
  have hS := fib_keys_shape
  rcases e : insert_all_shape less (Shape.nil : Shape Nat) 0 fib_keys with _ | S
  · rw [e] at hS
    cases hS
  · rw [e] at hS
    simp only [Option.map_some', Option.some.injEq, Prod.mk.injEq] at hS
    obtain ⟨t, ht, hs, hsh, hsz⟩ := run_from_empty less fib_keys e
    refine ⟨t, 13, ht, by rw [hsz, hS.2], ?_, by rw [hsh, hS.1], rfl, ?_⟩
    · rw [tree_height_sim hs, hS.1]
    · rw [hsz, hS.2]
      exact_mod_cast bound_at_611

/-- C8, amended. For every tree obtained from the empty tree by a sequence of insertions,
whatever the comparator, the tree height (the largest iterator `height()` of any node, which
is the number of nodes on the longest path from the root) is at most
`1.4405 * log2(size() + 2) - 0.3277`; it is at most `1.44 * log2(size() + 2) - 0.328` when
`size()` is at most 608. -/
theorem C8_height_bound (compare : T → T → Bool) (keys : List T) :
    ∃ t h, insert_all compare empty_tree keys = some t
      ∧ tree_height t = some h ∧ (shape_of t).height = h
      ∧ (h : ℝ) ≤ 1.4405 * Real.logb 2 ((size t : ℝ) + 2) - 0.3277
      ∧ (size t ≤ 608 → (h : ℝ) ≤ 1.44 * Real.logb 2 ((size t : ℝ) + 2) - 0.328) := by
  obtain ⟨t, S, e, hs⟩ :=
    insert_all_structural compare keys empty_tree Shape.nil structural_empty
  have hf : Nat.fib (S.height + 2) ≤ size t + 1 := by
    rw [size, hs.count]
    exact fib_le_count S hs.balanced
  exact ⟨t, S.height, e, tree_height_sim hs, by rw [shape_of_eq hs],
    height_bound_real _ _ hf, fun hn => height_bound_small _ _ hf hn⟩

/-! ## Lookup -/

theorem find_loop_sim (compare : T → T → Bool) (x : T) {t : avl_tree T} (sub : Shape T) :
    ∀ (c : List (Frame T)) (fuel : Nat), Lays t c sub → sub.height < fuel →
      find_loop compare t x fuel sub.ptr
        = some (match locate compare x sub c with
            | Sum.inl a => some a
            | Sum.inr _ => none) := by
  induction sub with
  | nil =>
    intro c fuel h hf
    cases fuel with
    | zero => cases hf
    | succ fuel => simp [find_loop, Shape.ptr, locate]
  | node l a w b r ihl ihr =>
    intro c fuel h hf
    cases fuel with
    | zero => cases hf
    | succ fuel =>
      simp only [Shape.height] at hf
      have hl : l.height < fuel := by omega
      have hr : r.height < fuel := by omega
      simp only [find_loop, Shape.ptr, h.value_of, Option.bind_eq_bind, Option.some_bind,
        locate]
      by_cases h1 : compare x w = true
      · simp only [h1, if_true, h.left_of, Option.some_bind]
        exact ihl _ fuel h.to_left hl
      · simp only [h1, if_false]
        by_cases h2 : compare w x = true
        · simp only [h2, if_true, h.right_of, Option.some_bind]
          exact ihr _ fuel h.to_right hr
        · simp only [h2, if_false]
          simp

theorem find_sim (compare : T → T → Bool) (x : T) {t : avl_tree T} {S : Shape T}
    (hs : Structural t S) :
    find compare t x
      = some { root := t.root,
               current := match locate compare x S [] with
                 | Sum.inl a => some a
                 | Sum.inr _ => none } := by
  have hl := hs.lays
  have hb := hl.budget
  simp only [List.length_nil, Nat.zero_add] at hb
  have e := find_loop_sim compare x S [] (t.store.length + 1) hl (by omega)
  rw [← hs.root] at e
  simp only [find, e, Option.map_some']

/-- Two members of a strictly increasing list that are equivalent to one key are equal. -/
theorem equiv_unique (compare : T → T → Bool) (hswo : StrictWeakOrder compare) {l : List T}
    (hpw : l.Pairwise (fun a b => compare a b = true)) {x w w' : T} (hw : w ∈ l) (hw' : w' ∈ l)
    (he : equiv compare x w) (he' : equiv compare x w') : w' = w := by
  by_contra hne
  have hsym : Symmetric (fun a b : T => compare a b = true ∨ compare b a = true) :=
    fun a b h => h.symm
  have hp : l.Pairwise (fun a b : T => compare a b = true ∨ compare b a = true) :=
    hpw.imp (fun {a b} h => Or.inl h)
  have h1 := hp.forall hsym hw' hw hne
  have h2 : equiv compare w' w := hswo.incomp_trans w' x w (equiv_symm he') he
  rcases h1 with h1 | h1
  · rw [h2.1] at h1
    cases h1
  · rw [h2.2] at h1
    cases h1

/-- C11. For every tree built by insertions under a strict weak order and every key,
`find(key)` returns the position of the stored node equivalent to the key when there is one
(it is a position of the ascending traversal, it is not `end()`, and the key it holds is the
only stored key equivalent to the given one) and `end()` when there is none, and `count(key)`
returns 1 in the first case and 0 in the second.  `find` and `count` are modelled from the
specification. -/
theorem C11_find_and_count (compare : T → T → Bool) (hswo : StrictWeakOrder compare)
    (keys : List T) (x : T) :
    ∃ t l, insert_all compare empty_tree keys = some t ∧ to_list t = some l
      ∧ ((∃ w ∈ l, equiv compare x w) →
          ∃ it w ps, find compare t x = some it ∧ positions t = some ps ∧ it ∈ ps
            ∧ it ≠ end_ t ∧ iter_deref t it = some w ∧ w ∈ l ∧ equiv compare x w
            ∧ (∀ w' ∈ l, equiv compare x w' → w' = w)
            ∧ count compare t x = some 1)
      ∧ ((∀ w ∈ l, ¬ equiv compare x w) →
          find compare t x = some (end_ t) ∧ count compare t x = some 0) := by
  obtain ⟨t, S, e, hinv, hl, hpw, -⟩ := built compare hswo keys
  have hs := hinv.toStructural
  have hf := find_sim compare x hs
  refine ⟨t, S.keys, e, hl, ?_, ?_⟩
  · intro hdup
    obtain ⟨a, hloc⟩ := locate_dup compare hswo.trans x S [] hinv.ordered hdup
    obtain ⟨w, hw, he, hk, ha⟩ := locate_found compare x S [] a hs.lays hloc
    rw [hloc] at hf
    have hne : ({ root := t.root, current := some a } : avl_tree_iterator) ≠ end_ t := by
      simp [end_]
    refine ⟨_, w, _, hf, positions_sim hs, List.mem_map.mpr ⟨a, ha, rfl⟩, hne, hw, hk, he,
      fun w' hw' he' => equiv_unique compare hswo hpw hk hw' he he', ?_⟩
    simp only [count, hf, Option.map_some', hne, if_false]
  · intro hfresh
    obtain ⟨c, hloc⟩ := locate_fresh compare x S [] hfresh
    rw [hloc] at hf
    refine ⟨hf, ?_⟩
    simp only [count, hf, Option.map_some', end_, if_true]

/-- Instance of C11: looking up 3 and 4 after inserting 5, 1, 3, 1 under `<`. -/
theorem C11_find_and_count_witness :
    ∃ t l, insert_all less (empty_tree : avl_tree Nat) [5, 1, 3, 1] = some t
      ∧ to_list t = some l
      ∧ ((∃ w ∈ l, equiv less 3 w) →
          ∃ it w ps, find less t 3 = some it ∧ positions t = some ps ∧ it ∈ ps
            ∧ it ≠ end_ t ∧ iter_deref t it = some w ∧ w ∈ l ∧ equiv less 3 w
            ∧ (∀ w' ∈ l, equiv less 3 w' → w' = w)
            ∧ count less t 3 = some 1)
      ∧ ((∀ w ∈ l, ¬ equiv less 3 w) →
          find less t 3 = some (end_ t) ∧ count less t 3 = some 0) :=
  C11_find_and_count less swo_less [5, 1, 3, 1] 3

/-! ## Construction forms -/

/-- `emplace_hint` leaves the state `emplace` leaves and returns the position it returns. -/
theorem emplace_hint_eq (compare : T → T → Bool) (t : avl_tree T) (pos : avl_tree_iterator)
    (v : T) :
    emplace_hint compare t pos v = (emplace compare t v).map (fun r => (r.1, r.2.1)) := by
  simp only [emplace_hint, emplace, Option.bind_eq_bind]
  rcases insert_node compare (new_node t v).1 (new_node t v).2 with _ | ⟨t1, ret⟩
  · rfl
  · simp only [Option.some_bind]
    by_cases h : ret = (new_node t v).2
    · subst h
      simp
    · have h' : (new_node t v).2 ≠ ret := fun e => h e.symm
      simp only [h, h', if_false, ne_eq, not_false_eq_true, if_true]
      rcases delete_node t1 (new_node t v).2 with _ | t2
      · rfl
      · rfl

theorem insert_range_eq (compare : T → T → Bool) (keys : List T) :
    ∀ t : avl_tree T, insert_range compare t keys = insert_all compare t keys := by
  induction keys with
  | nil =>
    intro t
    rfl
  | cons v vs ih =>
    intro t
    simp only [insert_range, insert_all, insert_hint, insert, emplace_hint_eq,
      Option.bind_eq_bind]
    rcases emplace compare t v with _ | ⟨t1, it, b⟩
    · rfl
    · simp only [Option.map_some', Option.some_bind]
      exact ih t1

theorem avl_tree_from_list_none (compare : T → T → Bool) (list : List T) :
    ∀ fuel, avl_tree_from_list compare fuel list = none := by
  intro fuel
  induction fuel with
  | zero => rfl
  | succ fuel ih => simpa only [avl_tree_from_list] using ih

/-- C12. The constructor from an iterator range and the member `insert` of a literal key list
reduce to repeated `insert`: each returns, with the state that inserting the keys one by one
in list order gives.  The constructor from a literal key list does not: it delegates to
itself and returns for no bound on the depth of the delegation, whatever the list. -/
theorem C12_construction_forms (compare : T → T → Bool) (keys : List T) :
    (avl_tree_from_range compare keys = insert_all compare empty_tree keys
      ∧ ∃ t, avl_tree_from_range compare keys = some t)
    ∧ (∀ t : avl_tree T, insert_list compare t keys = insert_all compare t keys)
    ∧ (∀ fuel, avl_tree_from_list compare fuel keys = none)
    ∧ (∀ fuel, avl_tree_from_list compare fuel keys ≠ insert_all compare empty_tree keys) := by
  obtain ⟨t, S, e, -⟩ :=
    insert_all_structural compare keys empty_tree Shape.nil structural_empty
  refine ⟨⟨insert_range_eq compare keys empty_tree, t, ?_⟩,
    fun u => insert_range_eq compare keys u, avl_tree_from_list_none compare keys, ?_⟩
  · rw [avl_tree_from_range, insert_range_eq, e]
  · intro fuel
    rw [avl_tree_from_list_none, e]
    exact fun h => Option.noConfusion h

/-! ## Teardown, one iteration at a time -/

theorem destroy_step_left {t : avl_tree T} {freed : List Nat} {a x : Nat}
    {ca cx : avl_tree_node T} (f : Nat) (ha : t.store[a]? = some ca) (hl : ca.left = some x)
    (hx : t.store[x]? = some cx) (hp : cx.parent = some a) (fa : a ∉ freed) (fx : x ∉ freed) :
    destroy_loop (f + 1) t freed (some a)
      = destroy_loop f { t with store := t.store.set a { ca with left := none } } freed
          (some x) := by
  simp only [destroy_loop, guard_live, live, detach_left, left_of_some ha, parent_of_some hx,
    hl, hp, set_left, wr_some _ ha, fa, fx, reduceCtorEq, if_false, if_true, decide_True,
    decide_not, not_false_eq_true, Option.bind_eq_bind, Option.some_bind, ne_eq, Bool.not_false,
    decide_False, Bool.not_eq_true', decide_eq_false_iff_not]

theorem destroy_step_right {t : avl_tree T} {freed : List Nat} {a x : Nat}
    {ca cx : avl_tree_node T} (f : Nat) (ha : t.store[a]? = some ca) (hl : ca.left = none)
    (hr : ca.right = some x) (hx : t.store[x]? = some cx) (hp : cx.parent = some a)
    (fa : a ∉ freed) (fx : x ∉ freed) :
    destroy_loop (f + 1) t freed (some a)
      = destroy_loop f { t with store := t.store.set a { ca with right := none } } freed
          (some x) := by
  simp only [destroy_loop, guard_live, live, detach_right, left_of_some ha, right_of_some ha,
    parent_of_some hx, hl, hr, hp, set_right, wr_some _ ha, fa, fx, reduceCtorEq, if_false,
    if_true, decide_True, decide_not, not_false_eq_true, Option.bind_eq_bind, Option.some_bind,
    ne_eq, Bool.not_false, decide_False, Bool.not_eq_true', decide_eq_false_iff_not,
    not_true_eq_false]

theorem destroy_step_release {t : avl_tree T} {freed : List Nat} {a : Nat}
    {ca : avl_tree_node T} (f : Nat) (ha : t.store[a]? = some ca) (hl : ca.left = none)
    (hr : ca.right = none) (fa : a ∉ freed) (hc : t.node_count ≠ 0) :
    destroy_loop (f + 1) t freed (some a)
      = destroy_loop f { t with node_count := t.node_count - 1 } (freed ++ [a]) ca.parent := by
  simp only [destroy_loop, guard_live, live, release_leaf, delete_tmp, left_of_some ha,
    right_of_some ha, parent_of_some ha, rd_some, ha, hl, hr, fa, hc, reduceCtorEq, if_false,
    if_true, decide_True, decide_not, not_false_eq_true, Option.bind_eq_bind, Option.some_bind,
    ne_eq, Bool.not_false, decide_False, Bool.not_eq_true', decide_eq_false_iff_not,
    not_true_eq_false, and_self]

theorem release_order_perm (S : Shape T) : S.release_order.Perm S.addrs := by
  induction S with
  | nil => exact List.Perm.refl _
  | node l a v b r ihl ihr =>
    simp only [Shape.release_order, Shape.addrs]
    have h1 : (l.release_order ++ r.release_order ++ [a]).Perm
        (l.release_order ++ (a :: r.release_order)) := by
      rw [List.append_assoc]
      exact List.Perm.append_left _ (List.perm_append_singleton a r.release_order)
    exact h1.trans (List.Perm.append ihl (List.Perm.cons a ihr))

theorem mem_release_order {S : Shape T} {x : Nat} : x ∈ S.release_order ↔ x ∈ S.addrs :=
  (release_order_perm S).mem_iff

/-! ## Teardown of a subtree -/

/-- Entering a child subtree from a node `a` and coming back: the part of `destroy_sub` that is
used once for each side. -/
theorem destroy_sub (sub : Shape T) :
    ∀ (par : Ptr) (t : avl_tree T) (freed : List Nat) (k : Nat),
      Rep t.store par sub → sub.addrs.Nodup → (∀ x ∈ sub.addrs, x ∉ freed) →
      sub.count ≤ t.node_count → sub.ptr ≠ none →
      ∃ t', destroy_loop (2 * sub.count + k) t freed sub.ptr
          = destroy_loop (k + 1) t' (freed ++ sub.release_order) par
        ∧ t'.store.length = t.store.length
        ∧ (∀ i, i ∉ sub.addrs → t'.store[i]? = t.store[i]?)
        ∧ (∀ i ∈ sub.addrs, ∃ n, t'.store[i]? = some n ∧ n.left = none ∧ n.right = none)
        ∧ t'.root = t.root ∧ t'.minimum = t.minimum ∧ t'.maximum = t.maximum
        ∧ t'.node_count + sub.count = t.node_count := by
  induction sub with
  | nil =>
    intro par t freed k _ _ _ _ hp
    exact absurd rfl hp
  | node l a v b r ihl ihr =>
    intro par t freed k hrep hnd hfr hcnt _
    obtain ⟨hcell, hrl, hrr⟩ := hrep
    simp only [Shape.addrs] at hnd hfr
    simp only [Shape.count] at hcnt
    obtain ⟨hndl, hndr', hdis⟩ := List.nodup_append.mp hnd
    obtain ⟨har, hndr⟩ := List.nodup_cons.mp hndr'
    have hal : a ∉ l.addrs := fun h => hdis h (List.mem_cons_self _ _)
    have hlr : ∀ x ∈ l.addrs, x ∉ r.addrs := fun x h1 h2 => hdis h1 (List.mem_cons_of_mem _ h2)
    have fa : a ∉ freed := hfr a (by simp)
    -- first the left subtree
    have stage1 : ∃ t1, destroy_loop (2 * (l.count + 1 + r.count) + k) t freed (some a)
          = destroy_loop (2 * r.count + 2 + k) t1 (freed ++ l.release_order) (some a)
        ∧ t1.store[a]? = some { value := v, parent := par, left := none, right := r.ptr,
                                balance := b }
        ∧ t1.store.length = t.store.length
        ∧ (∀ i, i ∉ l.addrs → i ≠ a → t1.store[i]? = t.store[i]?)
        ∧ (∀ i ∈ l.addrs, ∃ n, t1.store[i]? = some n ∧ n.left = none ∧ n.right = none)
        ∧ t1.root = t.root ∧ t1.minimum = t.minimum ∧ t1.maximum = t.maximum
        ∧ t1.node_count + l.count = t.node_count := by
      cases l with
      | nil =>
        refine ⟨t, ?_, hcell, rfl, fun _ _ _ => rfl, ?_, rfl, rfl, rfl, rfl⟩
        · simp only [Shape.count, Shape.release_order, List.append_nil]
          congr 1
          omega
        · intro i hi
          cases hi
      | node ll la lv lb lr =>
        have hla : la ∈ (Shape.node ll la lv lb lr).addrs := by simp [Shape.addrs]
        have hxa : la ≠ a := fun e => hal (e ▸ hla)
        have fx : la ∉ freed := hfr la (List.mem_append_left _ hla)
        have e1 := destroy_step_left (2 * (Shape.node ll la lv lb lr).count + (2 * r.count + 1 + k))
          hcell rfl hrl.1 rfl fa fx
        have hrep1 : Rep (t.store.set a (avl_tree_node.mk v par none r.ptr b)) (some a) (Shape.node ll la lv lb lr) :=
          Rep_set _ hrl hal
        obtain ⟨t1, e2, h1, h2, h3, h4, h5, h6, h7⟩ :=
          ihl (some a) { t with store := t.store.set a (avl_tree_node.mk v par none r.ptr b) } freed (2 * r.count + 1 + k) hrep1 hndl
            (fun x hx => hfr x (List.mem_append_left _ hx)) (by simp only []; omega)
            (by simp [Shape.ptr])
        refine ⟨t1, ?_, ?_, ?_, ?_, h3, h4, h5, h6, h7⟩
        · have ef : 2 * ((Shape.node ll la lv lb lr).count + 1 + r.count) + k
              = 2 * (Shape.node ll la lv lb lr).count + (2 * r.count + 1 + k) + 1 := by omega
          rw [ef, e1]
          rw [ptr_node] at e2
          rw [e2]
          congr 1
          omega
        · rw [h2 a hal]
          exact cell_set_self hcell
        · rw [h1]
          simp
        · intro i hi hia
          rw [h2 i hi]
          exact cell_set_ne _ (Ne.symm hia)
    obtain ⟨t1, e1, c1, len1, out1, in1, rt1, mn1, mx1, nc1⟩ := stage1
    have hrr1 : Rep t1.store (some a) r :=
      Rep_congr hrr (fun x hx => out1 x (fun h => hlr x h hx) (fun e => har (e ▸ hx)))
    have fa1 : a ∉ freed ++ l.release_order := by
      simp only [List.mem_append, mem_release_order, not_or]
      exact ⟨fa, hal⟩
    have fr1 : ∀ x ∈ r.addrs, x ∉ freed ++ l.release_order := by
      intro x hx
      simp only [List.mem_append, mem_release_order, not_or]
      exact ⟨hfr x (List.mem_append_right _ (List.mem_cons_of_mem _ hx)), fun h => hlr x h hx⟩
    -- then the right subtree
    have stage2 : ∃ t2, destroy_loop (2 * r.count + 2 + k) t1 (freed ++ l.release_order) (some a)
          = destroy_loop (k + 2) t2 (freed ++ l.release_order ++ r.release_order) (some a)
        ∧ t2.store[a]? = some { value := v, parent := par, left := none, right := none,
                                balance := b }
        ∧ t2.store.length = t1.store.length
        ∧ (∀ i, i ∉ r.addrs → i ≠ a → t2.store[i]? = t1.store[i]?)
        ∧ (∀ i ∈ r.addrs, ∃ n, t2.store[i]? = some n ∧ n.left = none ∧ n.right = none)
        ∧ t2.root = t1.root ∧ t2.minimum = t1.minimum ∧ t2.maximum = t1.maximum
        ∧ t2.node_count + r.count = t1.node_count := by
      cases r with
      | nil =>
        refine ⟨t1, ?_, c1, rfl, fun _ _ _ => rfl, ?_, rfl, rfl, rfl, rfl⟩
        · simp only [Shape.count, Shape.release_order, List.append_nil]
          congr 1
          omega
        · intro i hi
          cases hi
      | node rl ra rv rb rr =>
        have hra : ra ∈ (Shape.node rl ra rv rb rr).addrs := by simp [Shape.addrs]
        have fx : ra ∉ freed ++ l.release_order := fr1 ra hra
        have e2 := destroy_step_right (2 * (Shape.node rl ra rv rb rr).count + (k + 1))
          c1 rfl rfl hrr1.1 rfl fa1 fx
        have hrep2 : Rep (t1.store.set a (avl_tree_node.mk v par none none b)) (some a) (Shape.node rl ra rv rb rr) :=
          Rep_set _ hrr1 har
        obtain ⟨t2, e3, h1, h2, h3, h4, h5, h6, h7⟩ :=
          ihr (some a) { t1 with store := t1.store.set a (avl_tree_node.mk v par none none b) } (freed ++ l.release_order) (k + 1)
            hrep2 hndr fr1 (by simp only []; omega) (by simp [Shape.ptr])
        refine ⟨t2, ?_, ?_, ?_, ?_, h3, h4, h5, h6, h7⟩
        · have ef : 2 * (Shape.node rl ra rv rb rr).count + 2 + k
              = 2 * (Shape.node rl ra rv rb rr).count + (k + 1) + 1 := by omega
          rw [ef, e2]
          rw [ptr_node] at e3
          rw [e3]
        · rw [h2 a har]
          exact cell_set_self c1
        · rw [h1]
          simp
        · intro i hi hia
          rw [h2 i hi]
          exact cell_set_ne _ (Ne.symm hia)
    obtain ⟨t2, e2, c2, len2, out2, in2, rt2, mn2, mx2, nc2⟩ := stage2
    have fa2 : a ∉ freed ++ l.release_order ++ r.release_order := by
      simp only [List.mem_append, mem_release_order, not_or]
      exact ⟨⟨fa, hal⟩, har⟩
    -- last the node itself
    have e3 := destroy_step_release (k + 1) c2 rfl rfl fa2 (by omega)
    refine ⟨{ t2 with node_count := t2.node_count - 1 }, ?_, ?_, ?_, ?_, ?_, ?_, ?_, ?_⟩
    · simp only [Shape.count, ptr_node, Shape.release_order]
      rw [e1, e2, e3]
      simp only [List.append_assoc]
    · simp only [len2, len1]
    · intro i hi
      simp only [Shape.addrs, List.mem_append, List.mem_cons, not_or] at hi
      simp only []
      rw [out2 i hi.2.2 hi.2.1, out1 i hi.1 hi.2.1]
    · intro i hi
      simp only [Shape.addrs, List.mem_append, List.mem_cons] at hi
      simp only []
      rcases hi with hi | rfl | hi
      · rw [out2 i (hlr i hi) (fun e => hal (e ▸ hi))]
        exact in1 i hi
      · exact ⟨_, c2, rfl, rfl⟩
      · exact in2 i hi
    · simp only [rt2, rt1]
    · simp only [mn2, mn1]
    · simp only [mx2, mx1]
    · simp only [Shape.count]
      omega

/-! ## Teardown of the whole tree -/

theorem destroy_tree_sim {t : avl_tree T} {S : Shape T} (hs : Structural t S) :
    ∃ t', destroy_tree t = some (t', S.release_order)
      ∧ t'.root = none ∧ t'.minimum = none ∧ t'.maximum = none ∧ t'.node_count = 0
      ∧ t'.store.length = t.store.length
      ∧ (∀ i, i ∉ S.addrs → t'.store[i]? = t.store[i]?)
      ∧ (∀ i ∈ S.addrs, ∃ n, t'.store[i]? = some n ∧ n.left = none ∧ n.right = none) := by
  have hlen : S.count ≤ t.store.length := by
    rw [count_eq_length]
    exact nodup_length_le hs.nodup (Rep_addr_lt hs.rep)
  by_cases hnil : S.ptr = none
  · have hS : S = Shape.nil := ptr_eq_none.mp hnil
    subst hS
    have hc : t.node_count = 0 := hs.count
    refine ⟨{ t with root := none, maximum := none, minimum := none }, ?_, rfl, rfl, rfl, hc,
      rfl, fun _ _ => rfl, ?_⟩
    · simp only [destroy_tree, hs.root, Shape.ptr, destroy_loop, if_true, Option.bind_eq_bind,
        Option.some_bind, hc, Shape.release_order]
    · intro i hi
      cases hi
  · obtain ⟨t', e, h1, h2, h3, h4, h5, h6, h7⟩ :=
      destroy_sub S none { t with root := none, maximum := none, minimum := none } []
        (2 * t.store.length + 1 - 2 * S.count) hs.rep hs.nodup (fun _ _ h => by cases h)
        (by simp only [hs.count]; exact le_refl _) hnil
    have ef : 2 * S.count + (2 * t.store.length + 1 - 2 * S.count) = 2 * t.store.length + 1 := by
      omega
    rw [ef] at e
    have hc : t'.node_count = 0 := by
      have := hs.count
      simp only [] at h7
      omega
    have e' : destroy_loop (2 * t.store.length + 1)
        { t with root := none, maximum := none, minimum := none } [] S.ptr
        = some (t', S.release_order) := by
      rw [e]
      simp only [destroy_loop, if_true, List.nil_append]
    refine ⟨t', ?_, h4, h5, h6, hc, h1, h2, h3⟩
    simp only [destroy_tree, hs.root, e', Option.bind_eq_bind, Option.some_bind, hc, if_true]

/-- In the release order every child of a node comes before the node. -/
theorem release_children_first {s : List (avl_tree_node T)} (S : Shape T) :
    ∀ (par : Ptr), Rep s par S → ∀ a ∈ S.addrs, ∀ n, s[a]? = some n →
      ∀ c, (n.left = some c ∨ n.right = some c) →
        ∃ pre post, S.release_order = pre ++ a :: post ∧ c ∈ pre := by
  induction S with
  | nil =>
    intro par _ a ha
    cases ha
  | node l x v b r ihl ihr =>
    intro par hrep a ha n hn c hc
    obtain ⟨hcell, hrl, hrr⟩ := hrep
    simp only [Shape.addrs, List.mem_append, List.mem_cons] at ha
    simp only [Shape.release_order]
    rcases ha with ha | rfl | ha
    · obtain ⟨pre, post, e, hm⟩ := ihl _ hrl a ha n hn c hc
      exact ⟨pre, post ++ r.release_order ++ [x], by rw [e]; simp, hm⟩
    · rw [hcell, Option.some.injEq] at hn
      subst hn
      refine ⟨l.release_order ++ r.release_order, [], rfl, ?_⟩
      simp only [List.mem_append, mem_release_order]
      rcases hc with hc | hc
      · exact Or.inl (ptr_mem_addrs hc)
      · exact Or.inr (ptr_mem_addrs hc)
    · obtain ⟨pre, post, e, hm⟩ := ihr _ hrr a ha n hn c hc
      exact ⟨l.release_order ++ pre, post ++ [x], by rw [e]; simp,
        List.mem_append_right _ hm⟩

/-- C13. For every tree satisfying the data-model invariants, `clear()` returns and leaves the
container empty: `root`, `minimum` and `maximum` are null, `size() = 0` (the final assertion
`node_count == 0` of the routine holds), `empty()` is true and `begin()` equals `end()`. -/
theorem C13_clear_empties (compare : T → T → Bool) (t : avl_tree T)
    (hwf : WellFormed compare t) :
    ∃ t', clear t = some t' ∧ t'.root = none ∧ t'.minimum = none ∧ t'.maximum = none
      ∧ size t' = 0 ∧ empty t' = true ∧ begin_ t' = end_ t' := by
  obtain ⟨S, hinv⟩ := hwf
  obtain ⟨t', e, h1, h2, h3, h4, -⟩ := destroy_tree_sim hinv.toStructural
  refine ⟨t', by simp only [clear, e, Option.map_some'], h1, h2, h3, h4, ?_, ?_⟩
  · simp only [empty, h1, decide_True]
  · simp only [begin_, end_, h2]

/-- Instance of C13: clearing the sample container `{1, 2, 3}`. -/
theorem C13_clear_empties_witness :
    ∃ t', clear sample_tree = some t' ∧ t'.root = none ∧ t'.minimum = none
      ∧ t'.maximum = none ∧ size t' = 0 ∧ empty t' = true ∧ begin_ t' = end_ t' :=
  C13_clear_empties less sample_tree sample_tree_wf

/-- C19. For every tree satisfying the data-model invariants, the teardown loop of `clear()` and
of the destructor returns, having passed the node destructor's assertion
`left == nullptr && right == nullptr` at every release (a release that fails it, or that
releases a node a second time, is an invalid run of `destroy_tree`); the addresses it releases
are those of the nodes of the tree, each exactly once, every child of a node is released before
the node, and every released node is left with both child links null. -/
theorem C19_teardown_releases_once (compare : T → T → Bool) (t : avl_tree T)
    (hwf : WellFormed compare t) :
    ∃ t' freed, destroy_tree t = some (t', freed)
      ∧ freed.Nodup ∧ freed.Perm (shape_of t).addrs ∧ freed.length = size t
      ∧ (∀ a n c, a ∈ freed → rd t (some a) = some n → (n.left = some c ∨ n.right = some c) →
          ∃ pre post, freed = pre ++ a :: post ∧ c ∈ pre)
      ∧ (∀ a ∈ freed, ∃ n, rd t' (some a) = some n ∧ n.left = none ∧ n.right = none) := by
  obtain ⟨S, hinv⟩ := hwf
  have hs := hinv.toStructural
  obtain ⟨t', e, -, -, -, -, -, -, hnull⟩ := destroy_tree_sim hs
  have hperm := release_order_perm S
  refine ⟨t', S.release_order, e, hperm.nodup_iff.mpr hs.nodup, ?_, ?_, ?_, ?_⟩
  · rw [shape_of_eq hs]
    exact hperm
  · rw [hperm.length_eq, size, hs.count, count_eq_length]
  · intro a n c ha hn hc
    exact release_children_first S none hs.rep a (mem_release_order.mp ha) n hn c hc
  · intro a ha
    exact hnull a (mem_release_order.mp ha)

/-- Instance of C19: tearing down the sample container `{1, 2, 3}`. -/
theorem C19_teardown_releases_once_witness :
    ∃ t' freed, destroy_tree sample_tree = some (t', freed)
      ∧ freed.Nodup ∧ freed.Perm (shape_of sample_tree).addrs ∧ freed.length = size sample_tree
      ∧ (∀ a n c, a ∈ freed → rd sample_tree (some a) = some n →
          (n.left = some c ∨ n.right = some c) →
          ∃ pre post, freed = pre ++ a :: post ∧ c ∈ pre)
      ∧ (∀ a ∈ freed, ∃ n, rd t' (some a) = some n ∧ n.left = none ∧ n.right = none) :=
  C19_teardown_releases_once less sample_tree sample_tree_wf

/-! ## `operator--` -/

/-- The loop `while (current == tmp->left)` ends on the nearest ancestor whose right subtree
holds the current node, when there is one. -/
theorem climb_left_loop_sim {t : avl_tree T} (c : List (Frame T)) :
    ∀ (X : Shape T) (fuel : Nat), Lays t c X → X.ptr ≠ none → c.length < fuel →
      path_before c ≠ [] →
      climb_left_loop t fuel X.ptr (path_parent c) = some (path_before c).getLast? := by
  induction c with
  | nil =>
    intro X fuel _ _ _ hne
    exact absurd rfl hne
  | cons f c ih =>
    intro X fuel h hs hf hne
    cases fuel with
    | zero => cases hf
    | succ fuel =>
      simp only [List.length_cons] at hf
      cases f with
      | left g w b r =>
        simp only [path_before, Frame.before, List.append_nil] at hne ⊢
        simp only [climb_left_loop, path_parent, Frame.addr, h.of_left.left_of,
          Option.bind_eq_bind, Option.some_bind, if_true, h.of_left.parent_of]
        exact ih _ fuel h.of_left (by simp [Shape.ptr]) (by omega) hne
      | right l g w b =>
        have hne' : X.ptr ≠ l.ptr := fun e => sibling_ptr_ne h hs e.symm
        simp only [climb_left_loop, path_parent, Frame.addr, h.of_right.left_of,
          Option.bind_eq_bind, Option.some_bind, hne', if_false, path_before, Frame.before]
        rw [← List.append_assoc, List.getLast?_concat]

/-- `operator--` on the position of a node that is not the first in order: the position
reached is the last address that precedes the node in order. -/
theorem iter_prev_sim {t : avl_tree T} {c : List (Frame T)} {l r : Shape T} {a : Nat} {v : T}
    {b : Int} (h : Lays t c (Shape.node l a v b r)) (rt : Ptr)
    (hne : path_before c ++ l.addrs ≠ []) :
    iter_prev t { root := rt, current := some a }
      = some { root := rt, current := (path_before c ++ l.addrs).getLast? } := by
  have hb := h.budget
  simp only [Shape.height] at hb
  simp only [iter_prev, reduceCtorEq, if_false, h.left_of, Option.bind_eq_bind,
    Option.some_bind]
  by_cases hl : l.ptr = none
  · have hl' := ptr_eq_none.mp hl
    subst hl'
    simp only [Shape.addrs, List.append_nil] at hne ⊢
    simp only [Shape.ptr, ne_eq, not_true_eq_false, if_false, h.parent_of, Option.some_bind]
    have := climb_left_loop_sim c _ (t.store.length + 1) h (by simp [Shape.ptr]) (by omega) hne
    simp only [ptr_node] at this
    simp only [this, Option.some_bind]
  · simp only [hl, ne_eq, not_false_eq_true, if_true]
    have := rightmost_loop_sim l _ (t.store.length + 1) h.to_left hl (by omega)
    simp only [this, Option.some_bind]
    rw [List.getLast?_append_of_ne_nil _ (addrs_ne_nil hl)]

/-- `operator--` on `end()` of a non-empty tree reaches the last address in order. -/
theorem iter_prev_end {t : avl_tree T} {S : Shape T} (h : Lays t [] S) (hs : S.ptr ≠ none) :
    iter_prev t (end_ t) = some { root := t.root, current := S.addrs.getLast? } := by
  have hb := h.budget
  simp only [List.length_nil, Nat.zero_add] at hb
  have hr : t.root = S.ptr := h.root_ok
  have := rightmost_loop_sim S [] (t.store.length + 1) h hs (by omega)
  simp only [iter_prev, end_, if_true, hr, this, Option.bind_eq_bind, Option.some_bind]

theorem split_unique_pre {p1 p2 q1 q2 : List Nat} {a : Nat} (hnd : (p1 ++ a :: q1).Nodup)
    (e : p1 ++ a :: q1 = p2 ++ a :: q2) : p1 = p2 := by
  have hq := split_unique hnd e
  subst hq
  exact List.append_cancel_right e

/-- One `--` from the position that follows `x` in order reaches `x`. -/
theorem iter_prev_step {t : avl_tree T} {S : Shape T} (h : Lays t [] S) {pre post : List Nat}
    {x : Nat} (hS : S.addrs = pre ++ x :: post) :
    iter_prev t { root := t.root, current := post.head? }
      = some { root := t.root, current := some x } := by
  have hnd : S.addrs.Nodup := by
    have := h.distinct
    simpa [path_before, path_after] using this
  cases post with
  | nil =>
    have hs : S.ptr ≠ none := by
      intro e
      rw [ptr_eq_none.mp e] at hS
      simp [Shape.addrs] at hS
    have := iter_prev_end h hs
    simp only [end_] at this
    simp only [List.head?_nil, this, hS]
    rw [List.getLast?_append_of_ne_nil _ (List.cons_ne_nil _ _)]
    rfl
  | cons a post =>
    have ha : a ∈ S.addrs := by
      rw [hS]
      simp
    obtain ⟨c, l, v, b, r, e⟩ := focus_at S [] ha
    simp only [plug] at e
    have L : Lays t c (Shape.node l a v b r) := (Lays_plug c).mp (e ▸ h)
    have hsplit : S.addrs = (path_before c ++ l.addrs) ++ a :: (r.addrs ++ path_after c) := by
      rw [← e, plug_addrs]
      simp [Shape.addrs]
    have hpre : path_before c ++ l.addrs = pre ++ [x] := by
      refine @split_unique_pre (path_before c ++ l.addrs) (pre ++ [x])
        (r.addrs ++ path_after c) post a (hsplit ▸ hnd) ?_
      rw [← hsplit, hS]
      simp
    have hne : path_before c ++ l.addrs ≠ [] := by
      rw [hpre]
      simp
    simp only [List.head?_cons, iter_prev_sim L t.root hne, hpre, List.getLast?_concat]

/-- Descending traversal: `--` applied as many times as there are addresses before the
current position visits them in reverse order and ends on the first. -/
theorem walk_back_sim {A : Type} {t : avl_tree T} {S : Shape T}
    (f : avl_tree_iterator → Option A) (h : Lays t [] S) :
    ∀ (rpre : List Nat) (ks : List A) (post : List Nat), S.addrs = rpre.reverse ++ post →
      List.Forall₂ (fun a k => f { root := t.root, current := some a } = some k) rpre ks →
      walk_back t f rpre.length { root := t.root, current := post.head? }
        = some (ks, { root := t.root, current := S.addrs.head? }) := by
  intro rpre
  induction rpre with
  | nil =>
    intro ks post hS hk
    cases hk
    simp only [List.reverse_nil, List.nil_append] at hS
    simp only [List.length_nil, walk_back, hS]
  | cons x xs ih =>
    intro ks post hS hk
    obtain ⟨k, ks', hfk, hk', rfl⟩ := List.forall₂_cons_left_iff.mp hk
    have hS' : S.addrs = xs.reverse ++ x :: post := by
      rw [hS]
      simp
    have hstep := iter_prev_step h hS'
    have hrec := ih ks' (x :: post) hS' hk'
    simp only [List.head?_cons] at hrec
    simp only [List.length_cons, walk_back, hstep, hfk, hrec, Option.bind_eq_bind,
      Option.some_bind]

/-- The loop over reverse iterators visits the addresses before the wrapped position in
reverse order and stops at `rend()`. -/
theorem reverse_walk_sim {A : Type} {t : avl_tree T} {S : Shape T}
    (f : avl_tree_iterator → Option A) (hs : Structural t S) :
    ∀ (rpre : List Nat) (ks : List A) (post : List Nat) (fuel : Nat),
      S.addrs = rpre.reverse ++ post →
      List.Forall₂ (fun a k => f { root := t.root, current := some a } = some k) rpre ks →
      rpre.length < fuel →
      reverse_walk t f fuel { root := t.root, current := post.head? } = some ks := by
  have h := hs.lays
  intro rpre
  induction rpre with
  | nil =>
    intro ks post fuel hS hk hf
    cases hk
    simp only [List.reverse_nil, List.nil_append] at hS
    cases fuel with
    | zero => cases hf
    | succ fuel => simp only [reverse_walk, rend_, begin_, hs.minimum, hS, if_true]
  | cons x xs ih =>
    intro ks post fuel hS hk hf
    obtain ⟨k, ks', hfk, hk', rfl⟩ := List.forall₂_cons_left_iff.mp hk
    have hS' : S.addrs = xs.reverse ++ x :: post := by
      rw [hS]
      simp
    cases fuel with
    | zero => cases hf
    | succ fuel =>
      simp only [List.length_cons] at hf
      have hstep := iter_prev_step h hS'
      have hrec := ih ks' (x :: post) fuel hS' hk' (by omega)
      simp only [List.head?_cons] at hrec
      have hne : ({ root := t.root, current := post.head? } : avl_tree_iterator) ≠ rend_ t := by
        simp only [rend_, begin_, hs.minimum, ne_eq, avl_tree_iterator.mk.injEq, true_and]
        intro e
        have hnd := List.nodup_iff_count_le_one.mp hs.nodup
        rw [hS'] at e hnd
        cases post with
        | nil =>
          cases hx : xs.reverse with
          | nil => simp [hx] at e
          | cons y ys => simp [hx] at e
        | cons a post =>
          simp only [List.head?_cons] at e
          have h1 : a ∈ xs.reverse ++ [x] := by
            cases hx : xs.reverse with
            | nil =>
              rw [hx] at e
              simp only [List.nil_append, List.head?_cons, Option.some.injEq] at e
              simp [e]
            | cons y ys =>
              rw [hx] at e
              simp only [List.cons_append, List.head?_cons, Option.some.injEq] at e
              simp [e]
          have h2 := one_le_count h1
          have h3 := hnd a
          simp only [List.count_append, List.count_cons, List.count_nil, beq_self_eq_true,
            if_true] at h2 h3
          omega
      simp only [reverse_walk, hne, if_false, hstep, hfk, hrec, Option.bind_eq_bind,
        Option.some_bind]

/-- C14. For every tree built by insertions, starting at `end()` and applying `--` repeatedly
visits the positions, and so the stored keys, in exactly the reverse of the ascending iteration
order, and after `size()` steps the position equals `begin()`; on a non-empty tree the first
`--` lands on the rightmost node, which `maximum` caches; and the loop from `rbegin()` to
`rend()` reads the keys in descending order. -/
theorem C14_descending_traversal (compare : T → T → Bool) (keys : List T) :
    ∃ t l ps, insert_all compare empty_tree keys = some t
      ∧ to_list t = some l ∧ positions t = some ps ∧ ps.length = size t
      ∧ walk_back t some (size t) (end_ t) = some (ps.reverse, begin_ t)
      ∧ walk_back t (iter_deref t) (size t) (end_ t) = some (l.reverse, begin_ t)
      ∧ to_list_reverse t = some l.reverse
      ∧ (t.root ≠ none →
          iter_prev t (end_ t) = some { root := t.root, current := t.maximum }
            ∧ t.maximum ≠ none) := by
  obtain ⟨t, S, e, hs⟩ :=
    insert_all_structural compare keys empty_tree Shape.nil structural_empty
  have hL := hs.lays
  have hsz : size t = S.addrs.reverse.length := by
    simp only [size, hs.count, count_eq_length, List.length_reverse]
  have hS : S.addrs = S.addrs.reverse.reverse ++ [] := by simp
  have hend : end_ t = { root := t.root, current := ([] : List Nat).head? } := rfl
  have hbeg : begin_ t = { root := t.root, current := S.addrs.head? } := by
    simp only [begin_, hs.minimum]
  have hpos : List.Forall₂
      (fun a k => (some : avl_tree_iterator → Option avl_tree_iterator)
        { root := t.root, current := some a } = some k)
      S.addrs.reverse
      (S.addrs.map (fun a => ({ root := t.root, current := some a } : avl_tree_iterator))).reverse := by
    rw [List.forall₂_reverse_iff, List.forall₂_map_right_iff, List.forall₂_same]
    intro x _
    rfl
  have hval : List.Forall₂
      (fun a k => iter_deref t { root := t.root, current := some a } = some k)
      S.addrs.reverse S.keys.reverse := by
    rw [List.forall₂_reverse_iff]
    exact Rep_values S none hs.rep
  refine ⟨t, S.keys, _, e, to_list_sim hs, positions_sim hs, ?_, ?_, ?_, ?_, ?_⟩
  · simp only [List.length_map, size, hs.count, count_eq_length]
  · rw [hsz, hend, hbeg]
    exact walk_back_sim some hL _ _ [] hS hpos
  · rw [hsz, hend, hbeg]
    exact walk_back_sim (iter_deref t) hL _ _ [] hS hval
  · have hb := nodup_length_le hs.nodup (Rep_addr_lt hs.rep)
    exact reverse_walk_sim (iter_deref t) hs _ _ [] (t.store.length + 1) hS hval
      (by simp only [List.length_reverse]; omega)
  · intro hroot
    rw [hs.root] at hroot
    refine ⟨?_, ?_⟩
    · rw [iter_prev_end hL hroot, hs.maximum]
    · rw [hs.maximum]
      intro h
      exact addrs_ne_nil hroot (List.getLast?_eq_none_iff.mp h)

/-! ## Rotations -/

theorem sameData_refl (t : avl_tree T) : SameData t t := fun _ => rfl

theorem sameData_trans {t t' t'' : avl_tree T} (h : SameData t t') (h' : SameData t' t'') :
    SameData t t'' := fun i => (h' i).trans (h i)

theorem wr_keeps {t t' : avl_tree T} {p : Ptr} {f : avl_tree_node T → avl_tree_node T}
    (h : wr t p f = some t') (hf : ∀ n, (f n).value = n.value ∧ (f n).balance = n.balance) :
    SameData t t' := by
  cases p with
  | none => cases h
  | some a =>
    rw [wr_def] at h
    rcases hc : t.store[a]? with _ | n
    · rw [hc] at h
      cases h
    · rw [hc, Option.map_some', Option.some.injEq] at h
      subst h
      intro i
      simp only []
      by_cases hi : a = i
      · subst hi
        rw [cell_set_same, hc]
        simp only [Option.map_some', (hf n).1, (hf n).2]
      · rw [cell_set_other _ hi]

theorem set_parent_keeps {t t' : avl_tree T} {p q : Ptr} (h : set_parent t p q = some t') :
    SameData t t' := by
  unfold set_parent at h
  exact wr_keeps h (fun _ => ⟨rfl, rfl⟩)

theorem set_left_keeps {t t' : avl_tree T} {p q : Ptr} (h : set_left t p q = some t') :
    SameData t t' := by
  unfold set_left at h
  exact wr_keeps h (fun _ => ⟨rfl, rfl⟩)

theorem set_right_keeps {t t' : avl_tree T} {p q : Ptr} (h : set_right t p q = some t') :
    SameData t t' := by
  unfold set_right at h
  exact wr_keeps h (fun _ => ⟨rfl, rfl⟩)

theorem relink_parent_keeps {t t' : avl_tree T} {sp node pivot : Ptr}
    (h : relink_parent t sp node pivot = some t') : SameData t t' := by
  unfold relink_parent at h
  by_cases hsp : sp = none
  · simp only [hsp, if_true, Option.some.injEq] at h
    subst h
    exact sameData_refl t
  · simp only [hsp, if_false, Option.bind_eq_bind, Option.bind_eq_some] at h
    obtain ⟨spl, -, h⟩ := h
    by_cases hc : spl = node
    · simp only [hc, if_true] at h
      exact set_left_keeps h
    · simp only [hc, if_false] at h
      exact set_right_keeps h

/-- `rotate_left` writes links only: no key and no balance field changes. -/
theorem rotate_left_keeps {t t' : avl_tree T} {node : Ptr} (h : rotate_left t node = some t') :
    SameData t t' := by
  simp only [rotate_left, Option.bind_eq_bind, Option.bind_eq_some] at h
  obtain ⟨sp, -, pv, -, t1, h1, t2, h2, pl, -, t3, h3, nr, -, h⟩ := h
  have k3 := sameData_trans (sameData_trans (relink_parent_keeps h1) (set_parent_keeps h2))
    (set_right_keeps h3)
  by_cases hn : nr = none
  · simp only [hn, ne_eq, not_true_eq_false, if_false, Option.some_bind,
      Option.bind_eq_some] at h
    obtain ⟨t5, h5, h6⟩ := h
    exact sameData_trans (sameData_trans k3 (set_left_keeps h5)) (set_parent_keeps h6)
  · simp only [hn, ne_eq, not_false_eq_true, if_true, Option.bind_eq_some] at h
    obtain ⟨t4, h4, t5, h5, h6⟩ := h
    exact sameData_trans (sameData_trans (sameData_trans k3 (set_parent_keeps h4))
      (set_left_keeps h5)) (set_parent_keeps h6)

/-- `rotate_right` writes links only: no key and no balance field changes. -/
theorem rotate_right_keeps {t t' : avl_tree T} {node : Ptr}
    (h : rotate_right t node = some t') : SameData t t' := by
  simp only [rotate_right, Option.bind_eq_bind, Option.bind_eq_some] at h
  obtain ⟨sp, -, pv, -, t1, h1, t2, h2, pr, -, t3, h3, nl, -, h⟩ := h
  have k3 := sameData_trans (sameData_trans (relink_parent_keeps h1) (set_parent_keeps h2))
    (set_left_keeps h3)
  by_cases hn : nl = none
  · simp only [hn, ne_eq, not_true_eq_false, if_false, Option.some_bind,
      Option.bind_eq_some] at h
    obtain ⟨t5, h5, h6⟩ := h
    exact sameData_trans (sameData_trans k3 (set_right_keeps h5)) (set_parent_keeps h6)
  · simp only [hn, ne_eq, not_false_eq_true, if_true, Option.bind_eq_some] at h
    obtain ⟨t4, h4, t5, h5, h6⟩ := h
    exact sameData_trans (sameData_trans (sameData_trans k3 (set_parent_keeps h4))
      (set_right_keeps h5)) (set_parent_keeps h6)

theorem sample_tree_invariant : Invariant less sample_tree sample_shape := by
  obtain ⟨S, hinv⟩ := sample_tree_wf
  have e : S = sample_shape := by
    rw [← shape_of_eq hinv.toStructural]
    decide
  exact e ▸ hinv

/-- C15. `rotate_left(node)`, for a node laid out in a tree with a non-null right child
(the pivot), turns the subtree `node(A, pivot(B, C))` into `pivot(node(A, B), C)`: the pivot
takes the node's place in the former parent's child slot (it becomes `root` if the node was
the root), the node becomes the pivot's left child and `B` the node's right child; the
in-order key sequence of the tree is unchanged and no node's key or balance field is
modified.  `rotate_right` is the mirror image. -/
theorem C15_rotations {t u : avl_tree T} {c d : List (Frame T)} {A B C A' B' C' : Shape T}
    {x p x' p' : Nat} {vx vp vx' vp' : T} {bx bp bx' bp' : Int}
    (hl : Lays t c (Shape.node A x vx bx (Shape.node B p vp bp C)))
    (hr : Lays u d (Shape.node (Shape.node A' p' vp' bp' B') x' vx' bx' C')) :
    (∃ t', rotate_left t (some x) = some t'
      ∧ Lays t' c (Shape.node (Shape.node A x vx bx B) p vp bp C)
      ∧ rd t' (some p) = some (avl_tree_node.mk vp (path_parent c) (some x) C.ptr bp)
      ∧ rd t' (some x) = some (avl_tree_node.mk vx (some p) A.ptr B.ptr bx)
      ∧ t'.root = path_root c (some p)
      ∧ (plug c (Shape.node (Shape.node A x vx bx B) p vp bp C)).keys
          = (plug c (Shape.node A x vx bx (Shape.node B p vp bp C))).keys
      ∧ SameData t t' ∧ Same t t')
    ∧ (∃ u', rotate_right u (some x') = some u'
      ∧ Lays u' d (Shape.node A' p' vp' bp' (Shape.node B' x' vx' bx' C'))
      ∧ rd u' (some p') = some (avl_tree_node.mk vp' (path_parent d) A'.ptr (some x') bp')
      ∧ rd u' (some x') = some (avl_tree_node.mk vx' (some p') B'.ptr C'.ptr bx')
      ∧ u'.root = path_root d (some p')
      ∧ (plug d (Shape.node A' p' vp' bp' (Shape.node B' x' vx' bx' C'))).keys
          = (plug d (Shape.node (Shape.node A' p' vp' bp' B') x' vx' bx' C')).keys
      ∧ SameData u u' ∧ Same u u') := by
  constructor
  · obtain ⟨t', e, L, hsame⟩ := rotate_left_focus hl
    refine ⟨t', e, L, L.cell, L.to_left.cell, L.root_ok, ?_, rotate_left_keeps e, hsame⟩
    simp only [plug_keys, Shape.keys, List.append_assoc, List.cons_append]
  · obtain ⟨u', e, L, hsame⟩ := rotate_right_focus hr
    refine ⟨u', e, L, L.cell, L.to_right.cell, L.root_ok, ?_, rotate_right_keeps e, hsame⟩
    simp only [plug_keys, Shape.keys, List.append_assoc, List.cons_append]

/-- Instance of C15: both rotations at the root of the sample container `{1, 2, 3}`. -/
theorem C15_rotations_witness :
    (∃ t', rotate_left sample_tree (some 0) = some t'
      ∧ Lays t' [] (Shape.node (Shape.node (Shape.node Shape.nil 1 1 0 Shape.nil) 0 2 0
          Shape.nil) 2 3 0 Shape.nil)
      ∧ rd t' (some 2) = some (avl_tree_node.mk 3 none (some 0) none 0)
      ∧ rd t' (some 0) = some (avl_tree_node.mk 2 (some 2) (some 1) none 0)
      ∧ t'.root = some 2
      ∧ (Shape.node (Shape.node (Shape.node Shape.nil 1 1 0 Shape.nil) 0 2 0 Shape.nil) 2 3 0
          Shape.nil).keys = sample_shape.keys
      ∧ SameData sample_tree t' ∧ Same sample_tree t')
    ∧ (∃ u', rotate_right sample_tree (some 0) = some u'
      ∧ Lays u' [] (Shape.node Shape.nil 1 1 0 (Shape.node Shape.nil 0 2 0
          (Shape.node Shape.nil 2 3 0 Shape.nil)))
      ∧ rd u' (some 1) = some (avl_tree_node.mk 1 none none (some 0) 0)
      ∧ rd u' (some 0) = some (avl_tree_node.mk 2 (some 1) none (some 2) 0)
      ∧ u'.root = some 1
      ∧ (Shape.node Shape.nil 1 1 0 (Shape.node Shape.nil 0 2 0
          (Shape.node Shape.nil 2 3 0 Shape.nil))).keys = sample_shape.keys
      ∧ SameData sample_tree u' ∧ Same sample_tree u') :=
  C15_rotations (t := sample_tree) (u := sample_tree) (c := []) (d := [])
    sample_tree_invariant.toStructural.lays sample_tree_invariant.toStructural.lays

/-! ## `operator++` and the order -/

theorem path_keys_before_length (c : List (Frame T)) :
    (path_keys_before c).length = (path_before c).length := by
  induction c with
  | nil => rfl
  | cons f c ih =>
    cases f <;>
      simp [path_keys_before, path_before, Frame.keys_before, Frame.before, ih, keys_length]

/-- C17. For every tree satisfying the BST and parent-link invariants under a strict weak order
and every live position in it, `++` (which reads the tree and returns a position, without
writing anything) moves the position to the node holding the least stored key greater than
the current key, or to the end sentinel when the current node holds the greatest key. -/
theorem C17_successor (compare : T → T → Bool) (hswo : StrictWeakOrder compare)
    {t : avl_tree T} {S : Shape T} (hl : Lays t [] S) (ho : S.Ordered compare) {a : Nat}
    (ha : a ∈ S.addrs) :
    ∃ v, value_of t (some a) = some v ∧ v ∈ S.keys
      ∧ ((iter_next t { root := t.root, current := some a } = some (end_ t)
          ∧ ∀ k ∈ S.keys, compare v k = false)
        ∨ (∃ a' w, iter_next t { root := t.root, current := some a }
              = some { root := t.root, current := some a' }
            ∧ a' ∈ S.addrs ∧ value_of t (some a') = some w ∧ w ∈ S.keys
            ∧ compare v w = true
            ∧ ∀ k ∈ S.keys, compare v k = true → compare k w = false)) := by
  obtain ⟨c, l, v, b, r, e⟩ := focus_at S [] ha
  simp only [plug] at e
  have L : Lays t c (Shape.node l a v b r) := (Lays_plug c).mp (e ▸ hl)
  have hA : S.addrs = (path_before c ++ l.addrs) ++ a :: (r.addrs ++ path_after c) := by
    rw [← e, plug_addrs]
    simp [Shape.addrs]
  have hK : S.keys = (path_keys_before c ++ l.keys) ++ v :: (r.keys ++ path_keys_after c) := by
    rw [← e, plug_keys]
    simp [Shape.keys]
  have hlen : (path_before c ++ l.addrs).length = (path_keys_before c ++ l.keys).length := by
    simp only [List.length_append, path_keys_before_length, keys_length]
  have hv := Rep_values S none hl.sub_ok
  have hq : List.Forall₂ (fun a k => (t.store[a]?).map (fun n => n.value) = some k)
      (r.addrs ++ path_after c) (r.keys ++ path_keys_after c) := by
    have := List.forall₂_drop ((path_before c ++ l.addrs).length + 1) hv
    rw [hA, List.drop_append] at this
    rw [hK, hlen, List.drop_append] at this
    simpa using this
  have hpw := pairwise_of_ordered compare hswo.trans S ho
  rw [hK, List.pairwise_append] at hpw
  obtain ⟨-, hpw2, hpw3⟩ := hpw
  rw [List.pairwise_cons] at hpw2
  have hnext := iter_next_sim L t.root
  refine ⟨v, L.value_of, by rw [hK]; simp, ?_⟩
  rcases hQ : r.addrs ++ path_after c with _ | ⟨a', QA⟩
  · left
    rw [hQ] at hq hnext
    have hQK := List.forall₂_nil_left_iff.mp hq
    refine ⟨hnext, ?_⟩
    intro k hk
    rw [hK, hQK] at hk
    simp only [List.mem_append, List.mem_cons, List.not_mem_nil, or_false] at hk
    rcases hk with hk | rfl
    · exact swo_asymm hswo (hpw3 k (List.mem_append.mpr hk) v (List.mem_cons_self _ _))
    · exact hswo.irrefl _
  · right
    rw [hQ] at hq hnext
    obtain ⟨w, QK, hw, hrest, hQK⟩ := List.forall₂_cons_left_iff.mp hq
    refine ⟨a', w, hnext, ?_, hw, ?_, ?_, ?_⟩
    · rw [hA, hQ]
      simp
    · rw [hK, hQK]
      simp
    · exact hpw2.1 w (by rw [hQK]; exact List.mem_cons_self _ _)
    · intro k hk hvk
      rw [hK, hQK] at hk
      simp only [List.mem_append, List.mem_cons] at hk
      rcases hk with hk | rfl | rfl | hk
      · have := swo_asymm hswo (hpw3 k (List.mem_append.mpr hk) v (List.mem_cons_self _ _))
        rw [this] at hvk
        cases hvk
      · rw [hswo.irrefl] at hvk
        cases hvk
      · exact hswo.irrefl _
      · rw [hQK, List.pairwise_cons] at hpw2
        exact swo_asymm hswo (hpw2.2.1 k hk)

/-- Instance of C17: `++` from the root of the sample container `{1, 2, 3}`. -/
theorem C17_successor_witness :
    ∃ v, value_of sample_tree (some 0) = some v ∧ v ∈ sample_shape.keys
      ∧ ((iter_next sample_tree { root := sample_tree.root, current := some 0 }
            = some (end_ sample_tree)
          ∧ ∀ k ∈ sample_shape.keys, less v k = false)
        ∨ (∃ a' w, iter_next sample_tree { root := sample_tree.root, current := some 0 }
              = some { root := sample_tree.root, current := some a' }
            ∧ a' ∈ sample_shape.addrs ∧ value_of sample_tree (some a') = some w
            ∧ w ∈ sample_shape.keys ∧ less v w = true
            ∧ ∀ k ∈ sample_shape.keys, less v k = true → less k w = false)) :=
  C17_successor less swo_less sample_tree_invariant.toStructural.lays
    sample_tree_invariant.ordered (by decide)

/-! ## Parent links -/

theorem Rep_parent_links {s : List (avl_tree_node T)} (S : Shape T) :
    ∀ (par : Ptr), Rep s par S →
      (∀ i, S.ptr = some i → (s[i]?).map (fun n => n.parent) = some par)
      ∧ ∀ a ∈ S.addrs, ∀ n, s[a]? = some n →
          (∀ c, n.left = some c → (s[c]?).map (fun m => m.parent) = some (some a))
          ∧ (∀ c, n.right = some c → (s[c]?).map (fun m => m.parent) = some (some a)) := by
  induction S with
  | nil =>
    intro par _
    exact ⟨fun i h => (by cases h), fun a ha => (by cases ha)⟩
  | node l x v b r ihl ihr =>
    intro par h
    obtain ⟨hcell, hrl, hrr⟩ := h
    refine ⟨?_, ?_⟩
    · intro i hi
      simp only [ptr_node, Option.some.injEq] at hi
      subst hi
      rw [hcell]
      rfl
    · intro a ha n hn
      simp only [Shape.addrs, List.mem_append, List.mem_cons] at ha
      rcases ha with ha | rfl | ha
      · exact (ihl _ hrl).2 a ha n hn
      · rw [hcell, Option.some.injEq] at hn
        subst hn
        exact ⟨fun c hc => (ihl _ hrl).1 c hc, fun c hc => (ihr _ hrr).1 c hc⟩
      · exact (ihr _ hrr).2 a ha n hn

/-- In a laid-out shape the children of a node are nodes of the shape, and every node but the
top one has its parent in the shape, which holds it in one of its child links. -/
theorem Rep_child_links {s : List (avl_tree_node T)} (S : Shape T) :
    ∀ (par : Ptr), Rep s par S →
      ∀ a ∈ S.addrs, ∀ n, s[a]? = some n →
        (∀ c, n.left = some c → c ∈ S.addrs)
        ∧ (∀ c, n.right = some c → c ∈ S.addrs)
        ∧ (some a ≠ S.ptr → ∃ q m, n.parent = some q ∧ q ∈ S.addrs ∧ s[q]? = some m
            ∧ (m.left = some a ∨ m.right = some a)) := by
  induction S with
  | nil =>
    intro par _ a ha
    cases ha
  | node l x v b r ihl ihr =>
    intro par h a ha n hn
    obtain ⟨hcell, hrl, hrr⟩ := h
    have hpl := (Rep_parent_links l (some x) hrl).1
    have hpr := (Rep_parent_links r (some x) hrr).1
    have hx : x ∈ (Shape.node l x v b r).addrs := by simp [Shape.addrs]
    simp only [Shape.addrs, List.mem_append, List.mem_cons] at ha
    rcases ha with ha | rfl | ha
    · obtain ⟨k1, k2, k3⟩ := ihl _ hrl a ha n hn
      refine ⟨fun c hc => ?_, fun c hc => ?_, fun _ => ?_⟩
      · simp only [Shape.addrs, List.mem_append, List.mem_cons]
        exact Or.inl (k1 c hc)
      · simp only [Shape.addrs, List.mem_append, List.mem_cons]
        exact Or.inl (k2 c hc)
      · by_cases htop : some a = l.ptr
        · have := hpl a htop.symm
          rw [hn, Option.map_some', Option.some.injEq] at this
          exact ⟨x, _, this, hx, hcell, Or.inl htop.symm⟩
        · obtain ⟨q, m, e1, e2, e3, e4⟩ := k3 htop
          refine ⟨q, m, e1, ?_, e3, e4⟩
          simp only [Shape.addrs, List.mem_append, List.mem_cons]
          exact Or.inl e2
    · rw [hcell, Option.some.injEq] at hn
      subst hn
      refine ⟨fun c hc => ?_, fun c hc => ?_, fun hne => ?_⟩
      · simp only [Shape.addrs, List.mem_append, List.mem_cons]
        exact Or.inl (ptr_mem_addrs hc)
      · simp only [Shape.addrs, List.mem_append, List.mem_cons]
        exact Or.inr (Or.inr (ptr_mem_addrs hc))
      · exact absurd rfl hne
    · obtain ⟨k1, k2, k3⟩ := ihr _ hrr a ha n hn
      refine ⟨fun c hc => ?_, fun c hc => ?_, fun _ => ?_⟩
      · simp only [Shape.addrs, List.mem_append, List.mem_cons]
        exact Or.inr (Or.inr (k1 c hc))
      · simp only [Shape.addrs, List.mem_append, List.mem_cons]
        exact Or.inr (Or.inr (k2 c hc))
      · by_cases htop : some a = r.ptr
        · have := hpr a htop.symm
          rw [hn, Option.map_some', Option.some.injEq] at this
          exact ⟨x, _, this, hx, hcell, Or.inr htop.symm⟩
        · obtain ⟨q, m, e1, e2, e3, e4⟩ := k3 htop
          refine ⟨q, m, e1, ?_, e3, e4⟩
          simp only [Shape.addrs, List.mem_append, List.mem_cons]
          exact Or.inr (Or.inr e2)

/-- C18. After every sequence of insertions into the empty tree, whatever rotations they
performed and whatever the comparator, the parent links are consistent with the child links:
`root->parent` is null, and for every node `n` of the tree with a non-null left or right child
`c`, `c->parent` is `n`.  The nodes of the tree are those reached from `root` through child
links alone (`shape_of`); there are `size()` of them, and they are the positions of the
ascending traversal. -/
theorem C18_parent_links (compare : T → T → Bool) (keys : List T) :
    ∃ t ps, insert_all compare empty_tree keys = some t
      ∧ (t.root ≠ none → parent_of t t.root = some none)
      ∧ (shape_of t).addrs.length = size t
      ∧ (shape_of t).addrs.Nodup
      ∧ (∀ a ∈ (shape_of t).addrs, ∃ n, rd t (some a) = some n
          ∧ (n.left ≠ none → parent_of t n.left = some (some a))
          ∧ (n.right ≠ none → parent_of t n.right = some (some a))
          ∧ (∀ c, n.left = some c → c ∈ (shape_of t).addrs)
          ∧ (∀ c, n.right = some c → c ∈ (shape_of t).addrs)
          ∧ (some a ≠ t.root → ∃ q m, n.parent = some q ∧ q ∈ (shape_of t).addrs
              ∧ rd t (some q) = some m ∧ (m.left = some a ∨ m.right = some a)))
      ∧ positions t = some ps
      ∧ ps = (shape_of t).addrs.map (fun a => { root := t.root, current := some a })
      ∧ ps.length = size t
      ∧ ∀ it ∈ ps, ∃ n, rd t it.current = some n
          ∧ (n.left ≠ none → parent_of t n.left = some it.current)
          ∧ (n.right ≠ none → parent_of t n.right = some it.current) := by
  obtain ⟨t, S, e, hs⟩ :=
    insert_all_structural compare keys empty_tree Shape.nil structural_empty
  obtain ⟨h1, h2⟩ := Rep_parent_links S none hs.rep
  have hsh := shape_of_eq hs
  have hsz : S.addrs.length = size t := by
    simp only [size, hs.count, count_eq_length]
  have hnode : ∀ a ∈ S.addrs, ∃ n, rd t (some a) = some n
      ∧ (n.left ≠ none → parent_of t n.left = some (some a))
      ∧ (n.right ≠ none → parent_of t n.right = some (some a)) := by
    intro a ha
    have hlt := Rep_addr_lt hs.rep a ha
    obtain ⟨n, hn⟩ : ∃ n, t.store[a]? = some n :=
      ⟨t.store[a], List.getElem?_eq_getElem hlt⟩
    obtain ⟨hL, hR⟩ := h2 a ha n hn
    refine ⟨n, hn, ?_, ?_⟩
    · intro hne
      rcases hc : n.left with _ | c
      · exact absurd hc hne
      · rw [parent_of_def]
        exact hL c hc
    · intro hne
      rcases hc : n.right with _ | c
      · exact absurd hc hne
      · rw [parent_of_def]
        exact hR c hc
  have hup := Rep_child_links S none hs.rep
  refine ⟨t, _, e, ?_, by rw [hsh]; exact hsz, by rw [hsh]; exact hs.nodup, ?_,
    positions_sim hs, by rw [hsh], by rw [List.length_map]; exact hsz, ?_⟩
  · intro hroot
    rcases hr : t.root with _ | i
    · exact absurd hr hroot
    · rw [parent_of_def]
      exact h1 i (by rw [← hs.root, hr])
  · rw [hsh]
    intro a ha
    obtain ⟨n, hn, hl, hr⟩ := hnode a ha
    obtain ⟨hcl, hcr, hpar⟩ := hup a ha n hn
    refine ⟨n, hn, hl, hr, hcl, hcr, ?_⟩
    intro hne
    exact hpar (by rw [← hs.root]; exact hne)
  · intro it hit
    obtain ⟨a, ha, rfl⟩ := List.mem_map.mp hit
    exact hnode a ha

/-! ## The rebalancing walk, iteration by iteration -/

/-- The record of iterations is additional: the state `rebalance_trace` returns is the one
`rebalance_loop` returns. -/
theorem rebalance_trace_fst (fuel : Nat) :
    ∀ (t : avl_tree T) (last cur : Ptr),
      (rebalance_trace fuel t last cur).map Prod.fst = rebalance_loop fuel t last cur := by
  induction fuel with
  | zero =>
    intro t last cur
    rfl
  | succ fuel ih =>
    intro t last cur
    simp only [rebalance_trace, rebalance_loop]
    by_cases hc : cur = none
    · simp only [hc, if_true, Option.map_some']
    · simp only [hc, if_false, Option.bind_eq_bind]
      rcases left_of t cur with _ | l
      · rfl
      · simp only [Option.some_bind]
        rcases balance_of t cur with _ | b
        · rfl
        · simp only [Option.some_bind]
          by_cases hl : l = last
          · simp only [hl, if_true]
            generalize set_balance t cur (b - 1) = o
            rcases o with _ | t1
            · rfl
            · simp only [Option.some_bind]
              rcases balance_of t1 cur with _ | b1
              · rfl
              · simp only [Option.some_bind]
                by_cases h0 : b1 = 0
                · simp only [h0, if_true, Option.map_some']
                · simp only [h0, if_false]
                  by_cases h1 : b1 > 1
                  · simp only [h1, if_true, Option.map_map]
                    rcases fix_right_heavy t1 cur with _ | t2
                    · rfl
                    · rfl
                  · simp only [h1, if_false]
                    by_cases h2 : b1 < -1
                    · simp only [h2, if_true, Option.map_map]
                      rcases fix_left_heavy t1 cur with _ | t2
                      · rfl
                      · rfl
                    · simp only [h2, if_false]
                      rcases parent_of t1 cur with _ | p
                      · rfl
                      · simp only [Option.some_bind]
                        rw [← ih t1 cur p]
                        rcases rebalance_trace fuel t1 cur p with _ | ⟨t2, log⟩
                        · rfl
                        · rfl
          · simp only [hl, if_false]
            generalize set_balance t cur (b + 1) = o
            rcases o with _ | t1
            · rfl
            · simp only [Option.some_bind]
              rcases balance_of t1 cur with _ | b1
              · rfl
              · simp only [Option.some_bind]
                by_cases h0 : b1 = 0
                · simp only [h0, if_true, Option.map_some']
                · simp only [h0, if_false]
                  by_cases h1 : b1 > 1
                  · simp only [h1, if_true, Option.map_map]
                    rcases fix_right_heavy t1 cur with _ | t2
                    · rfl
                    · rfl
                  · simp only [h1, if_false]
                    by_cases h2 : b1 < -1
                    · simp only [h2, if_true, Option.map_map]
                      rcases fix_left_heavy t1 cur with _ | t2
                      · rfl
                      · rfl
                    · simp only [h2, if_false]
                      rcases parent_of t1 cur with _ | p
                      · rfl
                      · simp only [Option.some_bind]
                        rw [← ih t1 cur p]
                        rcases rebalance_trace fuel t1 cur p with _ | ⟨t2, log⟩
                        · rfl
                        · rfl

theorem height_plug (c : List (Frame T)) :
    ∀ (s : Shape T), (plug c s).height = path_height c s.height := by
  induction c with
  | nil =>
    intro s
    rfl
  | cons f c ih =>
    intro s
    cases f with
    | left a v b r =>
      simp only [plug, Frame.fill, ih, path_height, Frame.sibling, Shape.height]
    | right l a v b =>
      simp only [plug, Frame.fill, ih, path_height, Frame.sibling, Shape.height, max_comm]

theorem pathBalanced_append (below : List (Frame T)) :
    ∀ (above : List (Frame T)) (h : Nat), PathBalanced (below ++ above) h →
      PathBalanced above (path_height below h) := by
  induction below with
  | nil =>
    intro above h hp
    exact hp
  | cons f below ih =>
    intro above h hp
    cases f with
    | left a v b r =>
      simp only [List.cons_append, PathBalanced] at hp
      exact ih above _ hp.2.2.2.2
    | right l a v b =>
      simp only [List.cons_append, PathBalanced] at hp
      simp only [path_height, Frame.sibling]
      rw [max_comm]
      exact ih above _ hp.2.2.2.2

/-- What the branch `_current->balance < -1` reads is there: the left child has grown to a
height of at least two, so its balance is `-1` or `1` and on the heavy side it has a child. -/
theorem left_ready {t : avl_tree T} {c : List (Frame T)} {sub r : Shape T} {a : Nat} {v : T}
    {b : Int} (h : Lays t c (Shape.node sub a v b r)) (hs : sub.Balanced) (hg : Grown sub)
    (hh : 2 ≤ sub.height) : LeftHeavyReady t (some a) := by
  cases sub with
  | nil => cases hg
  | node sl sa sv sb sr =>
    obtain ⟨e, h1, h2, hsl, hsr⟩ := hs
    simp only [Shape.height] at hh
    simp only [Grown] at hg
    have hsb : sb ≠ 0 := by
      rcases hg with hg | ⟨rfl, rfl⟩
      · exact hg
      · simp only [Shape.height] at hh
        omega
    refine ⟨sa, sb, h.left_of, h.to_left.balance_of, by omega, ?_⟩
    intro hb1
    cases sr with
    | nil =>
      simp only [Shape.height] at e
      omega
    | node pl pa pv pb pr => exact ⟨pa, h.to_left.right_of⟩

/-- What the branch `_current->balance > 1` reads is there. -/
theorem right_ready {t : avl_tree T} {c : List (Frame T)} {sub l : Shape T} {a : Nat} {v : T}
    {b : Int} (h : Lays t c (Shape.node l a v b sub)) (hs : sub.Balanced) (hg : Grown sub)
    (hh : 2 ≤ sub.height) : RightHeavyReady t (some a) := by
  cases sub with
  | nil => cases hg
  | node sl sa sv sb sr =>
    obtain ⟨e, h1, h2, hsl, hsr⟩ := hs
    simp only [Shape.height] at hh
    simp only [Grown] at hg
    have hsb : sb ≠ 0 := by
      rcases hg with hg | ⟨rfl, rfl⟩
      · exact hg
      · simp only [Shape.height] at hh
        omega
    refine ⟨sa, sb, h.right_of, h.to_right.balance_of, by omega, ?_⟩
    intro hb1
    cases sl with
    | nil =>
      simp only [Shape.height] at e
      omega
    | node pl pa pv pb pr => exact ⟨pa, h.to_right.left_of⟩

theorem rotate_left_pivot {t t' : avl_tree T} {node : Ptr} (h : rotate_left t node = some t') :
    ∃ p, right_of t node = some (some p) := by
  simp only [rotate_left, Option.bind_eq_bind, Option.bind_eq_some] at h
  obtain ⟨sp, -, pv, hpv, t1, -, t2, h2, -⟩ := h
  cases pv with
  | none => simp [set_parent, wr] at h2
  | some p => exact ⟨p, hpv⟩

theorem rotate_right_pivot {t t' : avl_tree T} {node : Ptr}
    (h : rotate_right t node = some t') : ∃ p, left_of t node = some (some p) := by
  simp only [rotate_right, Option.bind_eq_bind, Option.bind_eq_some] at h
  obtain ⟨sp, -, pv, hpv, t1, -, t2, h2, -⟩ := h
  cases pv with
  | none => simp [set_parent, wr] at h2
  | some p => exact ⟨p, hpv⟩

/-- The walk of `rebalance_from` above a subtree that has just grown by one level, iteration
by iteration: it passes the frames `below` (each left with balance `1` or `-1`), and either
runs off the root or stops at one frame, by a balance that became `0` or by one call of
`fix_right_heavy` or `fix_left_heavy`, leaving there a subtree `X` of the height the place had
before; the frames `above` are not visited. -/
theorem rebalance_trace_sim (c : List (Frame T)) :
    ∀ (sub : Shape T) (k : Nat) (t : avl_tree T) (fuel : Nat),
      Lays t c sub → sub.Balanced → Grown sub → sub.height = k + 1 → PathBalanced c k →
      c.length < fuel →
      ∃ t' passes rest below above X,
        rebalance_trace fuel t sub.ptr (path_parent c) = some (t', passes ++ rest)
        ∧ c = below ++ above
        ∧ (passes ++ rest).map Prod.fst = below.map (fun f => some f.addr)
        ∧ Lays t' above X ∧ X.Balanced ∧ Same t t'
        ∧ (∀ e ∈ passes, balance_of e.2 e.1 = some 1 ∨ balance_of e.2 e.1 = some (-1))
        ∧ rest.length ≤ 1
        ∧ (∀ e ∈ rest, (balance_of e.2 e.1 = some 0
              ∨ (balance_of e.2 e.1 = some 2 ∧ RightHeavyReady e.2 e.1)
              ∨ (balance_of e.2 e.1 = some (-2) ∧ LeftHeavyReady e.2 e.1))
            ∧ X.height = path_height below k)
        ∧ (rest = [] → above = [] ∧ X.height = path_height below k + 1) := by
  induction c with
  | nil =>
    intro sub k t fuel h hs _ hh _ hf
    cases fuel with
    | zero => cases hf
    | succ fuel =>
      refine ⟨t, [], [], [], [], sub, by simp [rebalance_trace, path_parent], rfl, rfl, h, hs,
        Same.refl t, ?_, by simp, ?_, ?_⟩
      · intro e he
        cases he
      · intro e he
        cases he
      · intro _
        exact ⟨rfl, by simp only [path_height, hh]⟩
  | cons f c ih =>
    intro sub k t fuel h hs hg hh hp hf
    have hsp : sub.ptr ≠ none := by
      cases sub with
      | nil => cases hg
      | node _ _ _ _ _ => simp [Shape.ptr]
    cases fuel with
    | zero => cases hf
    | succ fuel =>
      have hf' : c.length < fuel := by
        simp only [List.length_cons] at hf
        omega
      cases f with
      | left a v b r =>
        obtain ⟨e, h1, h2, hr, hc⟩ := hp
        have h0 := h.of_left
        obtain ⟨t1, e1, L1, S1⟩ := set_balance_focus (b - 1) h0
        simp only [rebalance_trace, path_parent, Frame.addr, reduceCtorEq, if_false,
          h0.left_of, h0.balance_of, Option.bind_eq_bind, Option.some_bind, if_true, e1,
          L1.balance_of]
        by_cases hb0 : b - 1 = 0
        · simp only [hb0, if_true]
          have hB := L1.balance_of
          rw [hb0] at L1 hB
          refine ⟨t1, [], [(some a, t1)], [Frame.left a v b r], c, Shape.node sub a v 0 r, rfl,
            rfl, rfl, L1, ⟨by omega, by omega, by omega, hs, hr⟩, S1, ?_, by simp, ?_, ?_⟩
          · intro x hx
            cases hx
          · intro x hx
            simp only [List.mem_singleton] at hx
            subst hx
            refine ⟨Or.inl hB, ?_⟩
            simp only [Shape.height, path_height, Frame.sibling]
            omega
          · intro hx
            cases hx
        · simp only [hb0, if_false]
          have hb1 : ¬ b - 1 > 1 := by omega
          simp only [hb1, if_false]
          by_cases hb2 : b - 1 < -1
          · simp only [hb2, if_true]
            obtain ⟨R', e', hR', hh'⟩ := fix_left_shape_balanced (a := a) (v := v) hs hg hh hr
              (by omega)
            obtain ⟨t2, e2, L2, S2⟩ := fix_left_heavy_focus L1 e'
            have hB := L1.balance_of
            have hm : b - 1 = -2 := by omega
            rw [hm] at hB
            refine ⟨t2, [], [(some a, t1)], [Frame.left a v b r], c, R',
              by simp only [e2, Option.map_some', List.nil_append], rfl, rfl, L2, hR',
              S1.trans S2, ?_, by simp, ?_, ?_⟩
            · intro x hx
              cases hx
            · intro x hx
              simp only [List.mem_singleton] at hx
              subst hx
              refine ⟨Or.inr (Or.inr ⟨hB, left_ready L1 hs hg (by omega)⟩), ?_⟩
              simp only [path_height, Frame.sibling]
              omega
            · intro hx
              cases hx
          · simp only [hb2, if_false]
            simp only [L1.parent_of, Option.some_bind]
            have hm : b - 1 = -1 := by omega
            have hB := L1.balance_of
            rw [hm] at hB
            obtain ⟨t2, passes, rest, below, above, X, e2, hca, hmap, L2, hX, S2, hpas, hlen,
                hrest, hnil⟩ :=
              ih (Shape.node sub a v (b - 1) r) (max k r.height + 1) t1 fuel L1
                ⟨by omega, by omega, by omega, hs, hr⟩ (Or.inl hb0)
                (by simp only [Shape.height]; omega) hc hf'
            rw [ptr_node] at e2
            refine ⟨t2, (some a, t1) :: passes, rest, Frame.left a v b r :: below, above, X,
              by simp only [e2, Option.some_bind, List.cons_append], by rw [hca]; rfl, ?_, L2,
              hX, S1.trans S2, ?_, hlen, ?_, ?_⟩
            · simp only [List.cons_append, List.map_cons, hmap, Frame.addr]
            · intro x hx
              rcases List.mem_cons.mp hx with rfl | hx
              · exact Or.inr hB
              · exact hpas x hx
            · intro x hx
              exact hrest x hx
            · intro hx
              exact hnil hx
      | right l a v b =>
        obtain ⟨e, h1, h2, hlb, hc⟩ := hp
        have h0 := h.of_right
        have hne := sibling_ptr_ne h hsp
        obtain ⟨t1, e1, L1, S1⟩ := set_balance_focus (b + 1) h0
        simp only [rebalance_trace, path_parent, Frame.addr, reduceCtorEq, if_false,
          h0.left_of, h0.balance_of, Option.bind_eq_bind, Option.some_bind, hne, e1,
          L1.balance_of]
        by_cases hb0 : b + 1 = 0
        · simp only [hb0, if_true]
          have hB := L1.balance_of
          rw [hb0] at L1 hB
          refine ⟨t1, [], [(some a, t1)], [Frame.right l a v b], c, Shape.node l a v 0 sub, rfl,
            rfl, rfl, L1, ⟨by omega, by omega, by omega, hlb, hs⟩, S1, ?_, by simp, ?_, ?_⟩
          · intro x hx
            cases hx
          · intro x hx
            simp only [List.mem_singleton] at hx
            subst hx
            refine ⟨Or.inl hB, ?_⟩
            simp only [Shape.height, path_height, Frame.sibling]
            omega
          · intro hx
            cases hx
        · simp only [hb0, if_false]
          by_cases hb1 : b + 1 > 1
          · simp only [hb1, if_true]
            obtain ⟨R', e', hR', hh'⟩ := fix_right_shape_balanced (a := a) (v := v) hs hg hh hlb
              (by omega)
            obtain ⟨t2, e2, L2, S2⟩ := fix_right_heavy_focus L1 e'
            have hB := L1.balance_of
            have hm : b + 1 = 2 := by omega
            rw [hm] at hB
            refine ⟨t2, [], [(some a, t1)], [Frame.right l a v b], c, R',
              by simp only [e2, Option.map_some', List.nil_append], rfl, rfl, L2, hR',
              S1.trans S2, ?_, by simp, ?_, ?_⟩
            · intro x hx
              cases hx
            · intro x hx
              simp only [List.mem_singleton] at hx
              subst hx
              refine ⟨Or.inr (Or.inl ⟨hB, right_ready L1 hs hg (by omega)⟩), ?_⟩
              simp only [path_height, Frame.sibling]
              omega
            · intro hx
              cases hx
          · simp only [hb1, if_false]
            have hb2 : ¬ b + 1 < -1 := by omega
            simp only [hb2, if_false]
            simp only [L1.parent_of, Option.some_bind]
            have hm : b + 1 = 1 := by omega
            have hB := L1.balance_of
            rw [hm] at hB
            obtain ⟨t2, passes, rest, below, above, X, e2, hca, hmap, L2, hX, S2, hpas, hlen,
                hrest, hnil⟩ :=
              ih (Shape.node l a v (b + 1) sub) (max l.height k + 1) t1 fuel L1
                ⟨by omega, by omega, by omega, hlb, hs⟩ (Or.inl hb0)
                (by simp only [Shape.height]; omega) hc hf'
            rw [ptr_node] at e2
            have hph : ∀ bl : List (Frame T),
                path_height (Frame.right l a v b :: bl) k = path_height bl (max l.height k + 1) := by
              intro bl
              simp only [path_height, Frame.sibling, max_comm]
            refine ⟨t2, (some a, t1) :: passes, rest, Frame.right l a v b :: below, above, X,
              by simp only [e2, Option.some_bind, List.cons_append], by rw [hca]; rfl, ?_, L2,
              hX, S1.trans S2, ?_, hlen, ?_, ?_⟩
            · simp only [List.cons_append, List.map_cons, hmap, Frame.addr]
            · intro x hx
              rcases List.mem_cons.mp hx with rfl | hx
              · exact Or.inl hB
              · exact hpas x hx
            · intro x hx
              rw [hph]
              exact hrest x hx
            · intro hx
              rw [hph]
              exact hnil hx

theorem attached_tree_lays :
    Lays attached_tree attached_path (Shape.node Shape.nil 2 3 0 Shape.nil) := by
  refine ⟨?_, ?_, ?_, ?_⟩
  · simp [RepPath, Rep, attached_tree, attached_path, Shape.ptr, path_parent, Frame.addr]
  · simp [Rep, attached_tree, attached_path, Shape.ptr, path_parent, Frame.addr]
  · simp [attached_tree, attached_path, path_root, Frame.addr]
  · simp [attached_path, path_before, path_after, Frame.before, Frame.after, Shape.addrs]

theorem attached_path_balanced : (plug attached_path (Shape.nil : Shape Nat)).Balanced := by
  simp [attached_path, plug, Frame.fill, Shape.Balanced, Shape.height]

/-- The walk of `rebalance_from` from a newly attached leaf, in a tree that satisfied the AVL
invariant before the attachment. -/
theorem rebalance_from_trace_sim {t : avl_tree T} {c : List (Frame T)} {n : Nat} {v : T}
    (hl : Lays t c (Shape.node Shape.nil n v 0 Shape.nil))
    (hb : (plug c Shape.nil).Balanced) :
    ∃ t' passes rest below above X,
      rebalance_from t (some n) = some t'
      ∧ rebalance_from_trace t (some n) = some (t', passes ++ rest)
      ∧ c = below ++ above
      ∧ (passes ++ rest).map Prod.fst = below.map (fun f => some f.addr)
      ∧ Lays t' above X ∧ X.Balanced ∧ Same t t'
      ∧ (∀ e ∈ passes, balance_of e.2 e.1 = some 1 ∨ balance_of e.2 e.1 = some (-1))
      ∧ rest.length ≤ 1
      ∧ (∀ e ∈ rest, (balance_of e.2 e.1 = some 0
            ∨ (balance_of e.2 e.1 = some 2 ∧ RightHeavyReady e.2 e.1)
            ∨ (balance_of e.2 e.1 = some (-2) ∧ LeftHeavyReady e.2 e.1))
          ∧ X.height = path_height below 0)
      ∧ (rest = [] → above = [] ∧ X.height = path_height below 0 + 1) := by
  have hp := ((plug_balanced c Shape.nil).mp hb).2
  simp only [Shape.height] at hp
  have hbud := hl.budget
  simp only [Shape.height] at hbud
  obtain ⟨t', passes, rest, below, above, X, e, h1, h2, h3, h4, h5, h6, h7, h8, h9⟩ :=
    rebalance_trace_sim c (Shape.node Shape.nil n v 0 Shape.nil) 0 t (t.store.length + 1) hl
      ⟨by simp [Shape.height], by omega, by omega, trivial, trivial⟩ (Or.inr ⟨rfl, rfl⟩)
      (by simp [Shape.height]) hp (by omega)
  rw [ptr_node] at e
  refine ⟨t', passes, rest, below, above, X, ?_, ?_, h1, h2, h3, h4, h5, h6, h7, h8, h9⟩
  · simp only [rebalance_from, hl.parent_of, Option.bind_eq_bind, Option.some_bind]
    rw [← rebalance_trace_fst, e]
    rfl
  · simp only [rebalance_from_trace, hl.parent_of, Option.bind_eq_bind, Option.some_bind, e]

/-- C16. For every tree satisfying the AVL invariant and every leaf newly attached to it (at the
null slot the descent for an absent key ends in), the walk of `rebalance_from` consists of
iterations that leave their node with balance `1` or `-1` and go on (`passes`), followed by
at most one iteration that stops the walk (`rest`), either because the balance became `0` or by
one rebalancing step (a single or a double rotation) on a balance of `2` or `-2`.  When the
walk stops so, the subtree `X` now rooted at that position has the height that position had
before the insertion, the ancestors above it (`above`) are not visited and keep their
records, and the whole tree satisfies the AVL invariant again. -/
theorem C16_rebalance_stops {t : avl_tree T} {c : List (Frame T)} {n : Nat} {v : T}
    (hl : Lays t c (Shape.node Shape.nil n v 0 Shape.nil))
    (hb : (plug c Shape.nil).Balanced) :
    ∃ t' passes rest below above X,
      rebalance_from t (some n) = some t'
      ∧ rebalance_from_trace t (some n) = some (t', passes ++ rest)
      ∧ c = below ++ above
      ∧ (passes ++ rest).map Prod.fst = below.map (fun f => some f.addr)
      ∧ (∀ e ∈ passes, balance_of e.2 e.1 = some 1 ∨ balance_of e.2 e.1 = some (-1))
      ∧ rest.length ≤ 1
      ∧ (∀ e ∈ rest, balance_of e.2 e.1 = some 0 ∨ balance_of e.2 e.1 = some 2
          ∨ balance_of e.2 e.1 = some (-2))
      ∧ Lays t' above X
      ∧ (rest ≠ [] → X.height = (plug below Shape.nil).height)
      ∧ (rest = [] → above = [])
      ∧ (plug above X).Balanced := by
  obtain ⟨t', passes, rest, below, above, X, e1, e2, h1, h2, h3, h4, h5, h6, h7, h8, h9⟩ :=
    rebalance_from_trace_sim hl hb
  have hp := ((plug_balanced c Shape.nil).mp hb).2
  simp only [Shape.height] at hp
  refine ⟨t', passes, rest, below, above, X, e1, e2, h1, h2, h6, h7, ?_, h3, ?_,
    fun hx => (h9 hx).1, ?_⟩
  · intro x hx
    rcases (h8 x hx).1 with h | h | h
    · exact Or.inl h
    · exact Or.inr (Or.inl h.1)
    · exact Or.inr (Or.inr h.1)
  · intro hne
    rcases rest with _ | ⟨x, xs⟩
    · exact absurd rfl hne
    · rw [height_plug]
      exact (h8 x (List.mem_cons_self _ _)).2
  · rw [plug_balanced]
    refine ⟨h4, ?_⟩
    rcases rest with _ | ⟨x, xs⟩
    · rw [(h9 rfl).1]
      trivial
    · rw [(h8 x (List.mem_cons_self _ _)).2]
      rw [h1] at hp
      exact pathBalanced_append below above 0 hp

/-- Instance of C16: the leaf 3 attached after 1 and 2, which rotates once at the root. -/
theorem C16_rebalance_stops_witness :
    ∃ t' passes rest below above X,
      rebalance_from attached_tree (some 2) = some t'
      ∧ rebalance_from_trace attached_tree (some 2) = some (t', passes ++ rest)
      ∧ attached_path = below ++ above
      ∧ (passes ++ rest).map Prod.fst = below.map (fun f => some f.addr)
      ∧ (∀ e ∈ passes, balance_of e.2 e.1 = some 1 ∨ balance_of e.2 e.1 = some (-1))
      ∧ rest.length ≤ 1
      ∧ (∀ e ∈ rest, balance_of e.2 e.1 = some 0 ∨ balance_of e.2 e.1 = some 2
          ∨ balance_of e.2 e.1 = some (-2))
      ∧ Lays t' above X
      ∧ (rest ≠ [] → X.height = (plug below Shape.nil).height)
      ∧ (rest = [] → above = [])
      ∧ (plug above X).Balanced :=
  C16_rebalance_stops attached_tree_lays attached_path_balanced

/-- C20. Rebalancing never dereferences a missing node: for every tree satisfying the AVL and
parent-link invariants and every newly attached leaf, `rebalance_from` returns, and in every
iteration of its walk the balance of `_current` after the update is within `-2..2`; whenever it
is `2`, the right child exists and has balance `1` or `-1` (never `0`), and in the `-1` case
that child's left child exists; symmetrically for `-2`.  A call of `rotate_left` or
`rotate_right` that returns was applied to a node whose pivot child is not null. -/
theorem C20_rebalance_dereferences {t : avl_tree T} {c : List (Frame T)} {n : Nat} {v : T}
    (hl : Lays t c (Shape.node Shape.nil n v 0 Shape.nil))
    (hb : (plug c Shape.nil).Balanced) :
    ∃ t' log, rebalance_from t (some n) = some t'
      ∧ rebalance_from_trace t (some n) = some (t', log)
      ∧ (∀ e ∈ log, ∃ b, balance_of e.2 e.1 = some b ∧ -2 ≤ b ∧ b ≤ 2
          ∧ (b = 2 → RightHeavyReady e.2 e.1) ∧ (b = -2 → LeftHeavyReady e.2 e.1))
      ∧ (∀ (u u' : avl_tree T) (q : Ptr), rotate_left u q = some u' →
          ∃ p, right_of u q = some (some p))
      ∧ (∀ (u u' : avl_tree T) (q : Ptr), rotate_right u q = some u' →
          ∃ p, left_of u q = some (some p)) := by
  obtain ⟨t', passes, rest, below, above, X, e1, e2, -, -, -, -, -, h6, -, h8, -⟩ :=
    rebalance_from_trace_sim hl hb
  refine ⟨t', passes ++ rest, e1, e2, ?_, fun u u' q h => rotate_left_pivot h,
    fun u u' q h => rotate_right_pivot h⟩
  intro x hx
  rcases List.mem_append.mp hx with hx | hx
  · rcases h6 x hx with h | h
    · exact ⟨1, h, by omega, by omega, fun h' => by omega, fun h' => by omega⟩
    · exact ⟨-1, h, by omega, by omega, fun h' => by omega, fun h' => by omega⟩
  · rcases (h8 x hx).1 with h | h | h
    · exact ⟨0, h, by omega, by omega, fun h' => by omega, fun h' => by omega⟩
    · exact ⟨2, h.1, by omega, by omega, fun _ => h.2, fun h' => by omega⟩
    · exact ⟨-2, h.1, by omega, by omega, fun h' => by omega, fun _ => h.2⟩

/-- Instance of C20: the leaf 3 attached after 1 and 2. -/
theorem C20_rebalance_dereferences_witness :
    ∃ t' log, rebalance_from attached_tree (some 2) = some t'
      ∧ rebalance_from_trace attached_tree (some 2) = some (t', log)
      ∧ (∀ e ∈ log, ∃ b, balance_of e.2 e.1 = some b ∧ -2 ≤ b ∧ b ≤ 2
          ∧ (b = 2 → RightHeavyReady e.2 e.1) ∧ (b = -2 → LeftHeavyReady e.2 e.1))
      ∧ (∀ (u u' : avl_tree Nat) (q : Ptr), rotate_left u q = some u' →
          ∃ p, right_of u q = some (some p))
      ∧ (∀ (u u' : avl_tree Nat) (q : Ptr), rotate_right u q = some u' →
          ∃ p, left_of u q = some (some p)) :=
  C20_rebalance_dereferences attached_tree_lays attached_path_balanced

/-! ## States reachable by `insert` and `clear` -/

/-- The state `clear()` leaves satisfies the structural invariants, as the empty tree. -/
theorem clear_structural {t : avl_tree T} {S : Shape T} (hs : Structural t S) :
    ∃ t', clear t = some t' ∧ Structural t' Shape.nil := by
  obtain ⟨t', e, h1, h2, h3, h4, -⟩ := destroy_tree_sim hs
  refine ⟨t', by simp only [clear, e, Option.map_some'], trivial, ?_, List.nodup_nil, trivial,
    ?_, ?_, ?_⟩
  · rw [h1]
    rfl
  · rw [h4]
    rfl
  · rw [h2]
    rfl
  · rw [h3]
    rfl

/-- Every reachable state satisfies the structural invariants, whatever the comparator. -/
theorem reachable_structural (compare : T → T → Bool) {t : avl_tree T}
    (h : Reachable compare t) : ∃ S, Structural t S := by
  induction h with
  | construct => exact ⟨Shape.nil, structural_empty⟩
  | insert _ e ih =>
    obtain ⟨S, hs⟩ := ih
    obtain ⟨t2, S2, it2, b2, e2, hs2⟩ := insert_structural compare _ hs
    rw [e2, Option.some.injEq, Prod.mk.injEq] at e
    exact ⟨S2, e.1 ▸ hs2⟩
  | clear _ e ih =>
    obtain ⟨S, hs⟩ := ih
    obtain ⟨t2, e2, hs2⟩ := clear_structural hs
    rw [e2, Option.some.injEq] at e
    exact ⟨Shape.nil, e ▸ hs2⟩

theorem reachable_insert_all (compare : T → T → Bool) (ks : List T) :
    ∀ {t t' : avl_tree T}, Reachable compare t → insert_all compare t ks = some t' →
      Reachable compare t' := by
  induction ks with
  | nil =>
    intro t t' h e
    simp only [insert_all, Option.some.injEq] at e
    exact e ▸ h
  | cons v ks ih =>
    intro t t' h e
    simp only [insert_all, Option.bind_eq_bind, Option.bind_eq_some] at e
    obtain ⟨⟨t1, it, b⟩, e1, e2⟩ := e
    exact ih (Reachable.insert h e1) e2

/-- The three emptiness observers of a state satisfying the structural invariants agree. -/
theorem observers_agree {t : avl_tree T} {S : Shape T} (hs : Structural t S) :
    (empty t = true ↔ size t = 0) ∧ (size t = 0 ↔ begin_ t = end_ t) := by
  cases S with
  | nil =>
    have h1 : t.root = none := hs.root
    have h2 : t.node_count = 0 := hs.count
    have h3 : t.minimum = none := hs.minimum
    simp [empty, size, begin_, end_, h1, h2, h3]
  | node l a v b r =>
    have h1 : t.root = some a := hs.root
    have h2 : t.node_count = l.count + 1 + r.count := hs.count
    have h3 : t.minimum ≠ none := by
      rw [hs.minimum]
      intro e
      exact addrs_ne_nil (by simp [Shape.ptr]) (List.head?_eq_none_iff.mp e)
    simp [empty, size, begin_, end_, h1, h2, h3]

/-- C21. The three emptiness observers, which read different fields, always agree: for every
container state reachable from construction by `insert` and `clear`, under any comparator,
`empty()` (`root == nullptr`) holds if and only if `size() == 0` (`node_count`) if and only if
`begin() == end()` (`minimum == nullptr`); and on every such state `insert` and `clear` return,
so the reachable states are all the states the calls produce. -/
theorem C21_emptiness_observers_agree (compare : T → T → Bool) (t : avl_tree T)
    (h : Reachable compare t) :
    (empty t = true ↔ size t = 0) ∧ (size t = 0 ↔ begin_ t = end_ t)
      ∧ (empty t = true ↔ begin_ t = end_ t)
      ∧ (∀ v, ∃ t' it b, insert compare t v = some (t', it, b))
      ∧ (∃ t', clear t = some t') := by
  obtain ⟨S, hs⟩ := reachable_structural compare h
  obtain ⟨h1, h2⟩ := observers_agree hs
  refine ⟨h1, h2, h1.trans h2, ?_, ?_⟩
  · intro v
    obtain ⟨t', S', it, b, e, -⟩ := insert_structural compare v hs
    exact ⟨t', it, b, e⟩
  · obtain ⟨t', e, -⟩ := clear_structural hs
    exact ⟨t', e⟩

theorem sample_tree_reachable : Reachable less sample_tree :=
  reachable_insert_all less [2, 1, 3] Reachable.construct (by decide)

theorem cleared_tree_reachable : Reachable less cleared_tree :=
  Reachable.clear sample_tree_reachable (by decide)

/-- Instance of C21: the state after inserting 2, 1, 3 and clearing; a second instance, the
state before the `clear`, is `sample_tree`. -/
theorem C21_emptiness_observers_agree_witness :
    ((empty cleared_tree = true ↔ size cleared_tree = 0)
      ∧ (size cleared_tree = 0 ↔ begin_ cleared_tree = end_ cleared_tree)
      ∧ (empty cleared_tree = true ↔ begin_ cleared_tree = end_ cleared_tree)
      ∧ (∀ v, ∃ t' it b, insert less cleared_tree v = some (t', it, b))
      ∧ (∃ t', clear cleared_tree = some t'))
    ∧ ((empty sample_tree = true ↔ size sample_tree = 0)
      ∧ (size sample_tree = 0 ↔ begin_ sample_tree = end_ sample_tree)
      ∧ (empty sample_tree = true ↔ begin_ sample_tree = end_ sample_tree)
      ∧ (∀ v, ∃ t' it b, insert less sample_tree v = some (t', it, b))
      ∧ (∃ t', clear sample_tree = some t')) :=
  ⟨C21_emptiness_observers_agree less cleared_tree cleared_tree_reachable,
    C21_emptiness_observers_agree less sample_tree sample_tree_reachable⟩

end MoonAvl
